import Mathlib

/-!
# Batch authorization (`x/exp/batch/batch.go`)

A shallow embedding of the batch evaluator of cedar-go and a verification of
its specification, followed by the set type of `internal/mapset/mapset.go`.

Conventions of the embedding.

* `types.Value` is a Go interface; its values are the concrete value kinds plus
  the nil interface, which is the constructor `Value.nil`.
* A Go map is an association list with pairwise distinct keys.  `types.Record`
  is `List (String × Value)`; the shared map `Values` is updated with
  `Values.set` and `Values.delete`.
* Package `eval` (placeholder and ignore recognizers, strict converters, partial
  evaluator, compiler) is not part of the sources under study: its functions
  are the fields of `EvalAPI`, and `slices.SortFunc` is a parameter as well.
* `context.Context` is the stream of answers of `ctx.Err()`: `ctx n` is the
  answer to the `n`-th poll of a run.
* The callback is a log: `Heap.calls` lists the results handed to it, each as it
  was at the time of the call.
* `batchRequestState.Variables` is the argument `doBatch` recurses on and
  `batchRequestState.Values`, a reference to the one shared map, lives in
  `Heap.Values`.
-/

namespace Batch

/-- Go `error` values. -/
abbrev Error := String

/-- Entity reference, `types.EntityUID`. -/
structure EntityUID where
  EntityType : String
  ID : String
deriving DecidableEq, Repr

/-- Values of the interface `types.Value`. -/
inductive Value where
  | nil
  | boolean (b : Bool)
  | long (i : Int)
  | string (s : String)
  | entityUID (uid : EntityUID)
  | record (entries : List (String × Value))
  | set (elems : List Value)
  | extension (code : Nat)
deriving Repr

/-- The comparison `v == nil` of an interface value. -/
def Value.isNil : Value → Bool
  | .nil => true
  | _ => false

/-- Key to value map `types.Record`. -/
abbrev Record := List (String × Value)

/-- Strict request, `types.Request`. -/
structure StrictRequest where
  Principal : EntityUID
  Action : EntityUID
  Resource : EntityUID
  Context : Record

/-- Entry of `types.Diagnostic.Reasons`. -/
structure DiagnosticReason where
  PolicyID : String
deriving DecidableEq, Repr

/-- Diagnostic of one decision, `types.Diagnostic`. -/
structure Diagnostic where
  Reasons : List DiagnosticReason
deriving DecidableEq, Repr

/-- Effect of a policy, `ast.Effect`. -/
inductive Effect where
  | EffectPermit
  | EffectForbid
deriving DecidableEq, Repr

/-- Policy, `ast.Policy`: its effect and the rest of the syntax tree. -/
structure Policy (Body : Type) where
  Effect : Effect
  Body : Body

/-- Evaluation environment, `eval.Env`. -/
structure Env (Entities : Type) where
  Entities : Entities
  Principal : Value
  Action : Value
  Resource : Value
  Context : Value

/-- Compiled policy, `eval.BoolEvaler`, applied with `Eval`. -/
abbrev BoolEvaler (Entities : Type) := Env Entities → Except Error Bool

/-- Functions of package `eval` that the batch evaluator calls. -/
structure EvalAPI (Entities Body : Type) where
  ToVariable : EntityUID → Option String
  IsIgnore : Value → Bool
  ValueToEntity : Value → Except Error EntityUID
  ValueToRecord : Value → Except Error Record
  PartialPolicy : Env Entities → Policy Body → Policy Body × Bool × Option Error
  Compile : Policy Body → BoolEvaler Entities

/-- One variable and its candidates, `variableItem`. -/
structure variableItem where
  Key : String
  Values : List Value

/-- Map from variable name to chosen value, `Values`. -/
abbrev Values := List (String × Value)

/-- Map assignment `m[k] = v`. -/
def Values.set (m : Values) (k : String) (v : Value) : Values :=
  m.filter (fun e => e.1 ≠ k) ++ [(k, v)]

/-- Map removal `delete(m, k)`. -/
def Values.delete (m : Values) (k : String) : Values :=
  m.filter (fun e => e.1 ≠ k)

/-- Map lookup `m[k]`. -/
def Values.get? (m : Values) (k : String) : Option Value :=
  (m.find? (fun e => e.1 = k)).map Prod.snd

/-- Request template, `Request`; `Variables` lists the entries of the Go map in
the order `range` yields them. -/
structure Request where
  Principal : Value
  Action : Value
  Resource : Value
  Context : Value
  Variables : List variableItem

/-- Slots of a node, `batchRequestState`. -/
structure batchRequestState where
  Principal : Value
  Action : Value
  Resource : Value
  Context : Value

/-- Result handed to the callback, `Result`. -/
structure Result where
  Request : StrictRequest
  Values : Values
  Decision : Bool
  Diagnostic : Diagnostic

/-- Policy with its identifier, `idPolicy`. -/
structure idPolicy (Body : Type) where
  PolicyID : String
  Policy : Policy Body

/-- Compiled policy with its identifier, `idEvaler`. -/
structure idEvaler (Entities : Type) where
  PolicyID : String
  Evaler : BoolEvaler Entities

/-- Evaluator of one node, `batchEvaler` (the cache `env` does not affect results and
`callback` is the log). -/
structure batchEvaler (Entities Body : Type) where
  policies : List (idPolicy Body)
  compiled : Bool
  forbids : List (idEvaler Entities)
  permits : List (idEvaler Entities)

/-- Mutable state of a run: polls of the context so far, the shared map of bound
variables, and the callback invocations so far. -/
structure Heap where
  polls : Nat
  Values : Values
  calls : List Result

/-- The constant `unknownEntityType`. -/
def unknownEntityType : String := "__cedar::unknown"

/-- The function `unknownEntity`. -/
def unknownEntity : EntityUID := ⟨unknownEntityType, ""⟩

section Code

variable {Entities Body : Type}

mutual
/-- The function `cloneSub`: the value after substituting `v` for the placeholder of `k`,
and whether anything changed. -/
def cloneSub (eval : EvalAPI Entities Body) (r : Value) (k : String) (v : Value) :
    Value × Bool :=
  match r with
  | .entityUID t =>
    match eval.ToVariable t with
    | some key => if key = k then (v, true) else (r, false)
    | none => (r, false)
  | .record t =>
    let (t', cloned) := cloneSubRecord eval t k v
    (.record t', cloned)
  | .set t =>
    let (t', cloned) := cloneSubSet eval t k v
    (.set t', cloned)
  | _ => (r, false)
/-- The `types.Record` loop of `cloneSub`: an entry is overwritten when its
substitution reports a change. -/
def cloneSubRecord (eval : EvalAPI Entities Body) (t : List (String × Value)) (k : String)
    (v : Value) : List (String × Value) × Bool :=
  match t with
  | [] => ([], false)
  | (kk, vv) :: rest =>
    let (vv', delta) := cloneSub eval vv k v
    let (rest', cloned) := cloneSubRecord eval rest k v
    ((kk, if delta then vv' else vv) :: rest', delta || cloned)
/-- The `types.Set` loop of `cloneSub`. -/
def cloneSubSet (eval : EvalAPI Entities Body) (t : List Value) (k : String) (v : Value) :
    List Value × Bool :=
  match t with
  | [] => ([], false)
  | vv :: rest =>
    let (vv', delta) := cloneSub eval vv k v
    let (rest', cloned) := cloneSubSet eval rest k v
    ((if delta then vv' else vv) :: rest', delta || cloned)
end

/-- The function `batchCompile`. -/
def batchCompile (eval : EvalAPI Entities Body) (b : batchEvaler Entities Body) :
    batchEvaler Entities Body :=
  if b.compiled then b
  else
    let b := b.policies.foldl (fun (b : batchEvaler Entities Body) p =>
      let idEval : idEvaler Entities := ⟨p.PolicyID, eval.Compile p.Policy⟩
      if p.Policy.Effect = Effect.EffectPermit then
        { b with permits := b.permits ++ [idEval] }
      else
        { b with forbids := b.forbids ++ [idEval] }) b
    { b with compiled := true }

/-- One of the two loops of `diagnosticAuthz`: evaluate each evaluator, skip errors, and
append the identifier of each one that returns true. -/
def evalReasons (ps : List (idEvaler Entities)) (env : Env Entities) (d : Diagnostic) :
    Diagnostic :=
  ps.foldl (fun d p =>
    match p.Evaler env with
    | .error _ => d
    | .ok v => if v then { d with Reasons := d.Reasons ++ [⟨p.PolicyID⟩] } else d) d

/-- The function `diagnosticAuthz`; the evaluator comes back as `batchCompile` left it. -/
def diagnosticAuthz (eval : EvalAPI Entities Body) (b : batchEvaler Entities Body)
    (env : Env Entities) : Bool × Diagnostic × batchEvaler Entities Body :=
  let b := batchCompile eval b
  let d : Diagnostic := ⟨[]⟩
  let d := evalReasons b.forbids env d
  if d.Reasons.length > 0 then (false, d, b)
  else
    let d := evalReasons b.permits env d
    if d.Reasons.length > 0 then (true, d, b)
    else (false, d, b)

/-- The function `buildResultEnv`; `vals` is the shared map. -/
def buildResultEnv (eval : EvalAPI Entities Body) (entityMap : Entities)
    (request : batchRequestState) (vals : Values) : Except Error (Result × Env Entities) :=
  match eval.ValueToEntity request.Principal with
  | .error err => .error err
  | .ok principal =>
  match eval.ValueToEntity request.Action with
  | .error err => .error err
  | .ok action =>
  match eval.ValueToEntity request.Resource with
  | .error err => .error err
  | .ok resource =>
  match eval.ValueToRecord request.Context with
  | .error err => .error err
  | .ok context =>
    .ok ({ Request := ⟨principal, action, resource, context⟩, Values := vals,
           Decision := false, Diagnostic := ⟨[]⟩ },
         { Entities := entityMap, Principal := request.Principal, Action := request.Action,
           Resource := request.Resource, Context := request.Context })

/-- The function `diagnosticAuthzWithCallback`. -/
def diagnosticAuthzWithCallback (eval : EvalAPI Entities Body)
    (be : batchEvaler Entities Body) (entityMap : Entities) (request : batchRequestState)
    (h : Heap) : Option Error × batchEvaler Entities Body × Heap :=
  match buildResultEnv eval entityMap request h.Values with
  | .error err => (some err, be, h)
  | .ok (res, env) =>
    let (decision, diagnostic, be) := diagnosticAuthz eval be env
    (none, be, { h with calls := h.calls ++
      [{ res with Decision := decision, Diagnostic := diagnostic }] })

/-- The partial evaluation loop of `doBatch`: the kept policies, simplified, under their
identifiers. -/
def prunePolicies (eval : EvalAPI Entities Body) (entityMap : Entities)
    (request : batchRequestState) (policies : List (idPolicy Body)) : List (idPolicy Body) :=
  let env : Env Entities :=
    { Entities := entityMap, Principal := request.Principal, Action := request.Action,
      Resource := request.Resource, Context := request.Context }
  policies.foldl (fun np p =>
    match eval.PartialPolicy env p.Policy with
    | (part, keep, _) => if !keep then np else np ++ [⟨p.PolicyID, part⟩]) []

/-- The block of `doBatch` that fills in the slots that are the ignore sentinel. -/
def fillIgnores (eval : EvalAPI Entities Body) (request : batchRequestState) :
    batchRequestState :=
  let request := if eval.IsIgnore request.Principal then
    { request with Principal := .entityUID unknownEntity } else request
  let request := if eval.IsIgnore request.Action then
    { request with Action := .entityUID unknownEntity } else request
  let request := if eval.IsIgnore request.Resource then
    { request with Resource := .entityUID unknownEntity } else request
  let request := if eval.IsIgnore request.Context then
    { request with Context := .record [] } else request
  request

/-- The child node of `doBatch` for the candidate `v` of the variable `k`: a slot is rebuilt
when the probe with the nil value reported a change. -/
def childState (eval : EvalAPI Entities Body) (request : batchRequestState) (k : String)
    (v : Value) : batchRequestState :=
  let chPrincipal := (cloneSub eval request.Principal k .nil).2
  let chAction := (cloneSub eval request.Action k .nil).2
  let chResource := (cloneSub eval request.Resource k .nil).2
  let chContext := (cloneSub eval request.Context k .nil).2
  { Principal := if chPrincipal then (cloneSub eval request.Principal k v).1
      else request.Principal,
    Action := if chAction then (cloneSub eval request.Action k v).1 else request.Action,
    Resource := if chResource then (cloneSub eval request.Resource k v).1
      else request.Resource,
    Context := if chContext then (cloneSub eval request.Context k v).1
      else request.Context }

/-- The loop `for _, v := range u.Values` of `doBatch`, with the recursive call as `child`:
it stops at the first error. -/
def forValues (child : Value → batchEvaler Entities Body → Heap →
      Option Error × batchEvaler Entities Body × Heap) :
    List Value → batchEvaler Entities Body → Heap →
      Option Error × batchEvaler Entities Body × Heap
  | [], be, h => (none, be, h)
  | v :: vs, be, h =>
    match child v be h with
    | (some err, be, h) => (some err, be, h)
    | (none, be, h) => forValues child vs be h

/-- The function `doBatch`, by recursion on `request.Variables`.  The evaluator that comes
back is the one the caller holds: a leaf compiles it, an inner node leaves it alone and
works on a new one. -/
def doBatch (eval : EvalAPI Entities Body) (ctx : Nat → Option Error) (entityMap : Entities) :
    List variableItem → batchEvaler Entities Body → batchRequestState → Heap →
      Option Error × batchEvaler Entities Body × Heap
  | [], be, request, h =>
    match ctx h.polls with
    | some err => (some err, be, { h with polls := h.polls + 1 })
    | none =>
      diagnosticAuthzWithCallback eval be entityMap request { h with polls := h.polls + 1 }
  | u :: uks, be, request, h =>
    match ctx h.polls with
    | some err => (some err, be, { h with polls := h.polls + 1 })
    | none =>
      let h := { h with polls := h.polls + 1 }
      let np := prunePolicies eval entityMap request be.policies
      let be' : batchEvaler Entities Body :=
        { policies := np, compiled := false, forbids := [], permits := [] }
      let request := if (u :: uks).length = 1 then fillIgnores eval request else request
      match forValues (fun v b h =>
          doBatch eval ctx entityMap uks b (childState eval request u.Key v)
            { h with Values := h.Values.set u.Key v }) u.Values be' h with
      | (some err, _, h) => (some err, be, h)
      | (none, _, h) => (none, be, { h with Values := h.Values.delete u.Key })

/-- The first loop of `Authorize`: the policy at position `i` gets the identifier
`strconv.Itoa(i)`. -/
def numberPolicies (policies : List (Policy Body)) : List (idPolicy Body) :=
  policies.enum.map (fun ip => ⟨toString ip.1, ip.2⟩)

/-- The comparison function that `Authorize` sorts the variables with. -/
def lenCmp (a b : variableItem) : Int :=
  (a.Values.length : Int) - (b.Values.length : Int)

/-- The function `Authorize`.  `SortFunc` is `slices.SortFunc`. -/
def Authorize (eval : EvalAPI Entities Body)
    (SortFunc : List variableItem → (variableItem → variableItem → Int) → List variableItem)
    (ctx : Nat → Option Error) (policies : List (Policy Body)) (entityMap : Entities)
    (request : Request) : Option Error × Heap :=
  let be : batchEvaler Entities Body :=
    { policies := numberPolicies policies, compiled := false, forbids := [], permits := [] }
  let h : Heap := { polls := 0, Values := [], calls := [] }
  if request.Principal.isNil then (some "batch missing principal", h)
  else if request.Action.isNil then (some "batch missing action", h)
  else if request.Resource.isNil then (some "batch missing resource", h)
  else if request.Context.isNil then (some "batch missing context", h)
  else
    let state : batchRequestState :=
      ⟨request.Principal, request.Action, request.Resource, request.Context⟩
    let vars := request.Variables.foldl (fun vs kv => vs ++ [kv]) []
    let vars := SortFunc vars lenCmp
    match doBatch eval ctx entityMap vars be state h with
    | (err, _, h) => (err, h)

end Code

/-! ## Sets over maps (`internal/mapset/mapset.go`)

`MapSet[T]` wraps a Go map from `T` to the empty struct.  The item type is `comparable`:
it has the operator `==`, which a map uses to find a key.  The map is the list of its keys
in the order they were added, no two of them `==`; the nil map is the empty list.  A key
that is not `==` to itself (a floating-point NaN) is in the map and is found by no
lookup. -/

section MapSetCode

/-- The operator `==` of a `comparable` item type.  It is symmetric and transitive; it need
not be reflexive: a floating-point NaN is different from every value, itself included. -/
class Comparable (T : Type) where
  eq : T → T → Bool
  symm : ∀ a b, eq a b = true → eq b a = true
  trans : ∀ a b c, eq a b = true → eq b c = true → eq a c = true

variable {T : Type} [Comparable T]

/-- The type `MapSet`: the keys of the map `m`. -/
structure MapSet (T : Type) where
  m : List T

/-- The function `Make`; the size hint does not change the set. -/
def MapSet.Make : MapSet T := ⟨[]⟩

/-- The method `Contains`: the lookup `h.m[item]` finds a key that is `==` to the item. -/
def MapSet.Contains (h : MapSet T) (item : T) : Bool :=
  h.m.any (fun k => Comparable.eq k item)

/-- The method `Add`: the set with the item in it, and whether the lookup did not find the
item.  The assignment `h.m[item] = peppercorn` writes to the entry the lookup finds and
makes a new entry when it finds none. -/
def MapSet.Add (h : MapSet T) (item : T) : MapSet T × Bool :=
  let existed := h.m.any (fun k => Comparable.eq k item)
  (⟨if existed then h.m else h.m ++ [item]⟩, !existed)

/-- The method `Remove`: the set without the keys that are `==` to the item, and whether
the lookup found the item. -/
def MapSet.Remove (h : MapSet T) (item : T) : MapSet T × Bool :=
  let existed := h.m.any (fun k => Comparable.eq k item)
  (⟨h.m.filter (fun k => !Comparable.eq k item)⟩, existed)

/-- The function `FromSlice`. -/
def MapSet.FromSlice (items : List T) : MapSet T :=
  items.foldl (fun h i => (h.Add i).1) MapSet.Make

/-- The method `Len`. -/
def MapSet.Len (h : MapSet T) : Nat := h.m.length

/-- The loop of `Equal` over the items of `h`: false at the first item that `o` does not
contain. -/
def MapSet.containsAll (o : MapSet T) : List T → Bool
  | [] => true
  | item :: rest => if !o.Contains item then false else MapSet.containsAll o rest

/-- The method `Equal`. -/
def MapSet.Equal (h o : MapSet T) : Bool :=
  if h.m.length ≠ o.m.length then false
  else MapSet.containsAll o h.m

end MapSetCode

/-! ## Reference semantics

The expansion of a request as a list of leaves, the decision rule in the words of the
specification, and the outcome of a run as a function of the list of leaf outcomes. -/

section Reference

variable {Entities Body : Type}

/-- The environment `doBatch` and `buildResultEnv` build from the slots of a node. -/
def envOf (entityMap : Entities) (request : batchRequestState) : Env Entities :=
  { Entities := entityMap, Principal := request.Principal, Action := request.Action,
    Resource := request.Resource, Context := request.Context }

/-- A policy evaluates to true, without error, in an environment. -/
def satisfied (eval : EvalAPI Entities Body) (env : Env Entities) (p : idPolicy Body) : Bool :=
  match eval.Compile p.Policy env with
  | .ok v => v
  | .error _ => false

/-- The policies of one effect that evaluate to true, in policy order. -/
def satisfiedWith (eval : EvalAPI Entities Body) (effect : Effect) (ps : List (idPolicy Body))
    (env : Env Entities) : List (idPolicy Body) :=
  ps.filter (fun p => decide (p.Policy.Effect = effect) && satisfied eval env p)

/-- The identifiers of the policies of one effect that evaluate to true, in policy order. -/
def reasonsOf (eval : EvalAPI Entities Body) (effect : Effect) (ps : List (idPolicy Body))
    (env : Env Entities) : List DiagnosticReason :=
  (satisfiedWith eval effect ps env).map (fun p => ⟨p.PolicyID⟩)

/-- The decision rule of the specification: forbid overrides permit, deny by default. -/
def leafDecision (eval : EvalAPI Entities Body) (ps : List (idPolicy Body))
    (env : Env Entities) : Bool × Diagnostic :=
  if reasonsOf eval .EffectForbid ps env ≠ [] then
    (false, ⟨reasonsOf eval .EffectForbid ps env⟩)
  else if reasonsOf eval .EffectPermit ps env ≠ [] then
    (true, ⟨reasonsOf eval .EffectPermit ps env⟩)
  else (false, ⟨[]⟩)

/-- The evaluators `batchCompile` builds for the permit (`true`) or forbid (`false`)
policies of a list. -/
def evalersOf (eval : EvalAPI Entities Body) (ps : List (idPolicy Body)) (permit : Bool) :
    List (idEvaler Entities) :=
  (ps.filter (fun p => decide (p.Policy.Effect = .EffectPermit) == permit)).map
    (fun p => ⟨p.PolicyID, eval.Compile p.Policy⟩)

/-- An evaluator is either new, or compiled from its own policies. -/
def Compiled (eval : EvalAPI Entities Body) (b : batchEvaler Entities Body) : Prop :=
  (b.compiled = false ∧ b.forbids = [] ∧ b.permits = []) ∨
  (b.compiled = true ∧ b.forbids = evalersOf eval b.policies false ∧
    b.permits = evalersOf eval b.policies true)

/-- A leaf of the expansion: the surviving policies, the slots and the bindings. -/
structure Leaf (Body : Type) where
  policies : List (idPolicy Body)
  request : batchRequestState
  Values : Values

/-- The leaves below a node, depth first: at each level the policies are pruned, ignores
are filled in when one variable is left, and the first variable takes its candidates in
list order. -/
def leaves (eval : EvalAPI Entities Body) (entityMap : Entities) :
    List variableItem → List (idPolicy Body) → batchRequestState → Values → List (Leaf Body)
  | [], ps, request, vals => [⟨ps, request, vals⟩]
  | u :: uks, ps, request, vals =>
    let np := prunePolicies eval entityMap request ps
    let request := if (u :: uks).length = 1 then fillIgnores eval request else request
    u.Values.flatMap (fun v =>
      leaves eval entityMap uks np (childState eval request u.Key v) (vals.set u.Key v))

/-- The outcome of a leaf: a conversion error, or the result handed to the callback. -/
def leafResult (eval : EvalAPI Entities Body) (entityMap : Entities) (l : Leaf Body) :
    Except Error Result :=
  match buildResultEnv eval entityMap l.request l.Values with
  | .error err => .error err
  | .ok (res, env) =>
    .ok { res with Decision := (leafDecision eval l.policies env).1,
                   Diagnostic := (leafDecision eval l.policies env).2 }

/-- The first error of a list of outcomes. -/
def firstErr : List (Except Error Result) → Option Error
  | [] => none
  | .error err :: _ => some err
  | .ok _ :: os => firstErr os

/-- The results that precede the first error of a list of outcomes. -/
def delivered : List (Except Error Result) → List Result
  | [] => []
  | .error _ :: _ => []
  | .ok r :: os => r :: delivered os

/-- The context is never cancelled: every poll answers nil. -/
def NeverCancelled (ctx : Nat → Option Error) : Prop := ∀ n, ctx n = none

/-- The leaves of the expansion that `Authorize` starts: the variables are in the order
`SortFunc` leaves them in, the policies are numbered and the map of bindings is empty. -/
def rootLeaves (eval : EvalAPI Entities Body)
    (SortFunc : List variableItem → (variableItem → variableItem → Int) → List variableItem)
    (policies : List (Policy Body)) (entityMap : Entities) (request : Request) :
    List (Leaf Body) :=
  leaves eval entityMap (SortFunc request.Variables lenCmp) (numberPolicies policies)
    ⟨request.Principal, request.Action, request.Resource, request.Context⟩ []

/-- The four slots of a request are present (not nil). -/
abbrev Request.Present (request : Request) : Prop :=
  request.Principal.isNil = false ∧ request.Action.isNil = false ∧
  request.Resource.isNil = false ∧ request.Context.isNil = false

/-- The keys of the map `Variables` are pairwise distinct, as in every Go map. -/
abbrev Request.WellFormed (request : Request) : Prop :=
  (request.Variables.map (fun u => u.Key)).Nodup

mutual
/-- The reference substitution of the specification: the value `v` in place of every
placeholder of `k`, through records and sets, and nothing else changed. -/
def substitute (eval : EvalAPI Entities Body) (k : String) (v : Value) : Value → Value
  | .entityUID t => if eval.ToVariable t = some k then v else .entityUID t
  | .record entries => .record (substituteEntries eval k v entries)
  | .set elems => .set (substituteElems eval k v elems)
  | r => r
/-- The reference substitution in every entry of a record, keys and order kept. -/
def substituteEntries (eval : EvalAPI Entities Body) (k : String) (v : Value) :
    List (String × Value) → List (String × Value)
  | [] => []
  | (kk, vv) :: rest => (kk, substitute eval k v vv) :: substituteEntries eval k v rest
/-- The reference substitution in every element of a set, order kept. -/
def substituteElems (eval : EvalAPI Entities Body) (k : String) (v : Value) :
    List Value → List Value
  | [] => []
  | vv :: rest => substitute eval k v vv :: substituteElems eval k v rest
end

mutual
/-- A value holds a placeholder of `k`, at some depth through records and sets. -/
def hasPlaceholder (eval : EvalAPI Entities Body) (k : String) : Value → Bool
  | .entityUID t => decide (eval.ToVariable t = some k)
  | .record entries => hasPlaceholderEntries eval k entries
  | .set elems => hasPlaceholderElems eval k elems
  | _ => false
/-- Some entry of a record holds a placeholder of `k`. -/
def hasPlaceholderEntries (eval : EvalAPI Entities Body) (k : String) :
    List (String × Value) → Bool
  | [] => false
  | (_, vv) :: rest => hasPlaceholder eval k vv || hasPlaceholderEntries eval k rest
/-- Some element of a set holds a placeholder of `k`. -/
def hasPlaceholderElems (eval : EvalAPI Entities Body) (k : String) : List Value → Bool
  | [] => false
  | vv :: rest => hasPlaceholder eval k vv || hasPlaceholderElems eval k rest
end

/-- The Cartesian product of the candidate lists as a list of binding maps, in
lexicographic order: the first variable is outermost and every variable takes its values in
candidate-list order. -/
def bindings : List variableItem → List Values
  | [] => [[]]
  | u :: uks => u.Values.flatMap (fun v => (bindings uks).map (fun m => (u.Key, v) :: m))

mutual
/-- The simultaneous substitution of the specification: every placeholder of a variable
that the map `m` binds is replaced by the value `m` gives it, through records and sets. -/
def substAll (eval : EvalAPI Entities Body) (m : Values) : Value → Value
  | .entityUID t =>
    match eval.ToVariable t with
    | some key =>
      match m.get? key with
      | some v => v
      | none => .entityUID t
    | none => .entityUID t
  | .record entries => .record (substAllEntries eval m entries)
  | .set elems => .set (substAllElems eval m elems)
  | r => r
/-- The simultaneous substitution in every entry of a record. -/
def substAllEntries (eval : EvalAPI Entities Body) (m : Values) :
    List (String × Value) → List (String × Value)
  | [] => []
  | (kk, vv) :: rest => (kk, substAll eval m vv) :: substAllEntries eval m rest
/-- The simultaneous substitution in every element of a set. -/
def substAllElems (eval : EvalAPI Entities Body) (m : Values) : List Value → List Value
  | [] => []
  | vv :: rest => substAll eval m vv :: substAllElems eval m rest
end

mutual
/-- A value holds a placeholder, of whatever variable, at some depth through records and
sets. -/
def anyPlaceholder (eval : EvalAPI Entities Body) : Value → Bool
  | .entityUID t => (eval.ToVariable t).isSome
  | .record entries => anyPlaceholderEntries eval entries
  | .set elems => anyPlaceholderElems eval elems
  | _ => false
/-- Some entry of a record holds a placeholder. -/
def anyPlaceholderEntries (eval : EvalAPI Entities Body) : List (String × Value) → Bool
  | [] => false
  | (_, vv) :: rest => anyPlaceholder eval vv || anyPlaceholderEntries eval rest
/-- Some element of a set holds a placeholder. -/
def anyPlaceholderElems (eval : EvalAPI Entities Body) : List Value → Bool
  | [] => false
  | vv :: rest => anyPlaceholder eval vv || anyPlaceholderElems eval rest
end

/-- The four slots of a node after the simultaneous substitution of the bindings `m`. -/
def substRequest (eval : EvalAPI Entities Body) (m : Values) (request : batchRequestState) :
    batchRequestState :=
  { Principal := substAll eval m request.Principal,
    Action := substAll eval m request.Action,
    Resource := substAll eval m request.Resource,
    Context := substAll eval m request.Context }

/-- No slot of a node is the ignore sentinel. -/
abbrev NoIgnore (eval : EvalAPI Entities Body) (request : batchRequestState) : Prop :=
  eval.IsIgnore request.Principal = false ∧ eval.IsIgnore request.Action = false ∧
  eval.IsIgnore request.Resource = false ∧ eval.IsIgnore request.Context = false

/-- The slots of the leaves below a node, depth first: the completions of the variables
that are still unbound at the node. -/
def leafRequests (eval : EvalAPI Entities Body) :
    List variableItem → batchRequestState → List batchRequestState
  | [], request => [request]
  | u :: uks, request =>
    let request := if (u :: uks).length = 1 then fillIgnores eval request else request
    u.Values.flatMap (fun v => leafRequests eval uks (childState eval request u.Key v))

/-- The contract of the partial evaluator: at every node with a variable left, a kept
policy comes back with its effect and evaluates like the original at every completion, and
a dropped policy evaluates to true at no completion. -/
def PrunerContract (eval : EvalAPI Entities Body) (entityMap : Entities) : Prop :=
  ∀ (vars : List variableItem) (request : batchRequestState) (p : Policy Body),
    vars ≠ [] → ∀ lr ∈ leafRequests eval vars request,
      ((eval.PartialPolicy (envOf entityMap request) p).2.1 = true →
        (eval.PartialPolicy (envOf entityMap request) p).1.Effect = p.Effect ∧
        eval.Compile (eval.PartialPolicy (envOf entityMap request) p).1
            (envOf entityMap lr) = eval.Compile p (envOf entityMap lr)) ∧
      ((eval.PartialPolicy (envOf entityMap request) p).2.1 = false →
        eval.Compile p (envOf entityMap lr) ≠ .ok true)

/-- The reference run of the specification: `doBatch` without the pruning step, so that
every policy of the caller reaches every leaf. -/
def doBatchNoPruning (eval : EvalAPI Entities Body) (ctx : Nat → Option Error)
    (entityMap : Entities) :
    List variableItem → batchEvaler Entities Body → batchRequestState → Heap →
      Option Error × batchEvaler Entities Body × Heap
  | [], be, request, h =>
    match ctx h.polls with
    | some err => (some err, be, { h with polls := h.polls + 1 })
    | none =>
      diagnosticAuthzWithCallback eval be entityMap request { h with polls := h.polls + 1 }
  | u :: uks, be, request, h =>
    match ctx h.polls with
    | some err => (some err, be, { h with polls := h.polls + 1 })
    | none =>
      let h := { h with polls := h.polls + 1 }
      let be' : batchEvaler Entities Body :=
        { policies := be.policies, compiled := false, forbids := [], permits := [] }
      let request := if (u :: uks).length = 1 then fillIgnores eval request else request
      match forValues (fun v b h =>
          doBatchNoPruning eval ctx entityMap uks b (childState eval request u.Key v)
            { h with Values := h.Values.set u.Key v }) u.Values be' h with
      | (some err, _, h) => (some err, be, h)
      | (none, _, h) => (none, be, { h with Values := h.Values.delete u.Key })

/-- The reference run of the specification from the top: `Authorize` over
`doBatchNoPruning`. -/
def AuthorizeNoPruning (eval : EvalAPI Entities Body)
    (SortFunc : List variableItem → (variableItem → variableItem → Int) → List variableItem)
    (ctx : Nat → Option Error) (policies : List (Policy Body)) (entityMap : Entities)
    (request : Request) : Option Error × Heap :=
  let be : batchEvaler Entities Body :=
    { policies := numberPolicies policies, compiled := false, forbids := [], permits := [] }
  let h : Heap := { polls := 0, Values := [], calls := [] }
  if request.Principal.isNil then (some "batch missing principal", h)
  else if request.Action.isNil then (some "batch missing action", h)
  else if request.Resource.isNil then (some "batch missing resource", h)
  else if request.Context.isNil then (some "batch missing context", h)
  else
    let state : batchRequestState :=
      ⟨request.Principal, request.Action, request.Resource, request.Context⟩
    let vars := request.Variables.foldl (fun vs kv => vs ++ [kv]) []
    let vars := SortFunc vars lenCmp
    match doBatchNoPruning eval ctx entityMap vars be state h with
    | (err, _, h) => (err, h)

/-- Two policy lists give the same decision and diagnostic at every leaf below a node. -/
def Agree (eval : EvalAPI Entities Body) (entityMap : Entities) (vars : List variableItem)
    (request : batchRequestState) (ps₁ ps₂ : List (idPolicy Body)) : Prop :=
  ∀ lr ∈ leafRequests eval vars request,
    leafDecision eval ps₁ (envOf entityMap lr) = leafDecision eval ps₂ (envOf entityMap lr)

/-- The strict conversions of `buildResultEnv` all succeed at a leaf. -/
def Leaf.converts (eval : EvalAPI Entities Body) (l : Leaf Body) : Bool :=
  match eval.ValueToEntity l.request.Principal, eval.ValueToEntity l.request.Action,
    eval.ValueToEntity l.request.Resource, eval.ValueToRecord l.request.Context with
  | .ok _, .ok _, .ok _, .ok _ => true
  | _, _, _, _ => false

/-- What a run that starts in heap `h` and ends in `out` has done, given the outcomes `os`
of the leaves it was to visit: the new callback invocations are the results of a first part
of `os`, of all of it when the run returns nil (and then `restored` holds of the shared
map); the evaluator held by the caller stays compiled from `policies`; and with a context
that is never cancelled the run returns the first error of `os` after the results that
precede it. -/
def RunSpec (eval : EvalAPI Entities Body) (ctx : Nat → Option Error)
    (os : List (Except Error Result)) (h : Heap)
    (out : Option Error × batchEvaler Entities Body × Heap)
    (policies : List (idPolicy Body)) (restored : Values → Prop) : Prop :=
  (∃ cs : List Result, out.2.2.calls = h.calls ++ cs ∧ cs.map Except.ok <+: os ∧
    (out.1 = none → cs.map Except.ok = os ∧ restored out.2.2.Values)) ∧
  Compiled eval out.2.1 ∧ out.2.1.policies = policies ∧
  (NeverCancelled ctx → out.1 = firstErr os ∧ out.2.2.calls = h.calls ++ delivered os)

/-- Package `eval` with every evaluation error replaced by the answer false: the collaborator
under which "an erroring policy counts as not satisfied" holds by construction. -/
def swallowErrors (eval : EvalAPI Entities Body) : EvalAPI Entities Body :=
  { ToVariable := eval.ToVariable
    IsIgnore := eval.IsIgnore
    ValueToEntity := eval.ValueToEntity
    ValueToRecord := eval.ValueToRecord
    PartialPolicy := eval.PartialPolicy
    Compile := fun p env =>
      match eval.Compile p env with
      | .ok v => .ok v
      | .error _ => .ok false }

/-- The number that a list of decimal digit characters writes, most significant digit
first. -/
def digitsValue : List Char → Nat
  | [] => 0
  | c :: cs => (c.toNat - 48) * 10 ^ cs.length + digitsValue cs

/-- The policies that survive the pruning at the nodes of a path, the root first: every
node prunes what its parent kept, under its own slots. -/
def survivors (eval : EvalAPI Entities Body) (entityMap : Entities)
    (path : List batchRequestState) (ps : List (idPolicy Body)) : List (idPolicy Body) :=
  path.foldl (fun ps state => prunePolicies eval entityMap state ps) ps

/-- The part of `doBatch` that follows the pruning and the fill-in block at a node: the loop
over the candidates of `u` from the slots `request` with the pruned policies `np`, and the
removal of the binding of `u` after a loop without error. -/
def bindLoop (eval : EvalAPI Entities Body) (ctx : Nat → Option Error) (entityMap : Entities)
    (u : variableItem) (uks : List variableItem) (be : batchEvaler Entities Body)
    (np : List (idPolicy Body)) (request : batchRequestState) (h : Heap) :
    Option Error × batchEvaler Entities Body × Heap :=
  match forValues (fun v b h =>
      doBatch eval ctx entityMap uks b (childState eval request u.Key v)
        { h with Values := h.Values.set u.Key v }) u.Values
      { policies := np, compiled := false, forbids := [], permits := [] } h with
  | (some err, _, h) => (some err, be, h)
  | (none, _, h) => (none, be, { h with Values := h.Values.delete u.Key })

/-- The permit rule, as a property of the decision and the diagnostic of one evaluation of
the policies `ps` in the environment `env`: when no forbid policy evaluates to true, the
decision is permit exactly when some permit policy evaluates to true, and the reasons are
the identifiers of the permit policies that evaluate to true, one entry for each, in policy
order. -/
def PermitRule (eval : EvalAPI Entities Body) (ps : List (idPolicy Body)) (env : Env Entities)
    (decision : Bool) (diagnostic : Diagnostic) : Prop :=
  (∀ p ∈ ps, p.Policy.Effect = .EffectForbid → eval.Compile p.Policy env ≠ .ok true) →
    (decision = true ↔
      ∃ p ∈ ps, p.Policy.Effect = .EffectPermit ∧ eval.Compile p.Policy env = .ok true) ∧
    diagnostic.Reasons =
      (ps.filter (fun p => decide (p.Policy.Effect = .EffectPermit) &&
        satisfied eval env p)).map (fun p => ⟨p.PolicyID⟩)

/-- The keys of a Go map: no two of them are `==`. -/
abbrev MapSet.DistinctKeys {T : Type} [Comparable T] (h : MapSet T) : Prop :=
  h.m.Pairwise (fun a b => Comparable.eq a b = false)

/-- No item of the set is different from itself: the set holds no NaN. -/
abbrev MapSet.SelfEqual {T : Type} [Comparable T] (h : MapSet T) : Prop :=
  ∀ a ∈ h.m, Comparable.eq a a = true

end Reference

/-! ## Concrete collaborators

Instances of the consumed contracts, for running the code on examples. -/

section Models

/-- Modelled from the spec: the reserved entity type of a placeholder token (package `eval`
is not among the sources). -/
def variableEntityType : String := "__cedar::variable"

/-- Modelled from the spec: the reserved entity type of the ignore sentinel (package `eval`
is not among the sources). -/
def ignoreEntityType : String := "__cedar::ignore"

/-- Modelled from the spec: the placeholder token of a variable, an entity reference of the
reserved type whose identifier is the name of the variable. -/
def Variable (k : String) : Value := .entityUID ⟨variableEntityType, k⟩

/-- Modelled from the spec: the ignore sentinel, a distinguished value. -/
def Ignore : Value := .entityUID ⟨ignoreEntityType, ""⟩

/-- Modelled from the spec: the condition of an example policy, a constraint
`principal == uid`, or no constraint (the policy language is not among the sources). -/
abbrev PrincipalScope := Option EntityUID

/-- Modelled from the spec: package `eval`, which is not among the sources.  The
recognizers look at the reserved entity types, the strict converters accept entity
references and records only, the evaluator of `principal == uid` fails on a principal that
is not an entity reference, and the partial evaluator resolves `principal == uid` against a
concrete principal: the policy is dropped when they differ and loses its constraint when
they agree. -/
def specEval : EvalAPI Unit PrincipalScope where
  ToVariable := fun t => if t.EntityType = variableEntityType then some t.ID else none
  IsIgnore := fun v =>
    match v with
    | .entityUID t => decide (t.EntityType = ignoreEntityType)
    | _ => false
  ValueToEntity := fun v =>
    match v with
    | .entityUID t => .ok t
    | _ => .error "type error: expected entity"
  ValueToRecord := fun v =>
    match v with
    | .record t => .ok t
    | _ => .error "type error: expected record"
  PartialPolicy := fun env p =>
    match p.Body, env.Principal with
    | some u, .entityUID t =>
      if t.EntityType = variableEntityType ∨ t.EntityType = ignoreEntityType then
        (p, true, none)
      else if t = u then (⟨p.Effect, none⟩, true, none)
      else (p, false, none)
    | _, _ => (p, true, none)
  Compile := fun p env =>
    match p.Body with
    | none => .ok true
    | some u =>
      match env.Principal with
      | .entityUID t => .ok (decide (t = u))
      | _ => .error "type error: expected entity"

/-- The function `slices.SortFunc` of the Go standard library on a short slice (at most
twelve elements), where it is an insertion sort: elements that compare equal keep their
order.  On longer slices the order of such elements is unspecified. -/
def insertionSortFunc (x : List variableItem) (cmp : variableItem → variableItem → Int) :
    List variableItem :=
  x.insertionSort (fun a b => cmp a b ≤ 0)

/-- A context that is never cancelled. -/
def background : Nat → Option Error := fun _ => none

/-- The request of the test `smokeTest`: one principal, two actions, three resources. -/
def smokeRequest : Request :=
  { Principal := Variable "principal", Action := Variable "action",
    Resource := Variable "resource", Context := .record [],
    Variables :=
      [⟨"resource", [.entityUID ⟨"R", "1"⟩, .entityUID ⟨"R", "2"⟩, .entityUID ⟨"R", "3"⟩]⟩,
       ⟨"principal", [.entityUID ⟨"P", "1"⟩]⟩,
       ⟨"action", [.entityUID ⟨"A", "1"⟩, .entityUID ⟨"A", "2"⟩]⟩] }

/-- A new evaluator over a permit policy without constraint, a forbid policy for the
principal `P::"1"` and a forbid policy for the principal `P::"2"`. -/
def mixedEvaler : batchEvaler Unit PrincipalScope :=
  { policies := [⟨"0", ⟨.EffectPermit, none⟩⟩, ⟨"1", ⟨.EffectForbid, some ⟨"P", "1"⟩⟩⟩,
      ⟨"2", ⟨.EffectForbid, some ⟨"P", "2"⟩⟩⟩],
    compiled := false, forbids := [], permits := [] }

/-- A new evaluator over a permit policy and a forbid policy, both for the principal
`P::"2"`. -/
def otherEvaler : batchEvaler Unit PrincipalScope :=
  { policies := [⟨"0", ⟨.EffectPermit, some ⟨"P", "2"⟩⟩⟩,
      ⟨"1", ⟨.EffectForbid, some ⟨"P", "2"⟩⟩⟩],
    compiled := false, forbids := [], permits := [] }

/-- The environment of a leaf whose principal is `P::"1"`. -/
def envP1 : Env Unit :=
  { Entities := (), Principal := .entityUID ⟨"P", "1"⟩, Action := .entityUID ⟨"A", "1"⟩,
    Resource := .entityUID ⟨"R", "1"⟩, Context := .record [] }

/-- A request with a concrete principal and variables for the action and the resource. -/
def fixedPrincipalRequest : Request :=
  { Principal := .entityUID ⟨"P", "1"⟩, Action := Variable "action",
    Resource := Variable "resource", Context := .record [],
    Variables :=
      [⟨"action", [.entityUID ⟨"A", "1"⟩, .entityUID ⟨"A", "2"⟩]⟩,
       ⟨"resource", [.entityUID ⟨"R", "1"⟩]⟩] }

/-- Two permit policies, for the principals `P::"2"` and `P::"1"`, and a forbid policy for
the principal `P::"3"`. -/
def scopedPolicies : List (Policy PrincipalScope) :=
  [⟨.EffectPermit, some ⟨"P", "2"⟩⟩, ⟨.EffectPermit, some ⟨"P", "1"⟩⟩,
   ⟨.EffectForbid, some ⟨"P", "3"⟩⟩]

/-- A request with two variables that have two candidates each, the map `Variables`
iterated with `x` first. -/
def tieRequestXY : Request :=
  { Principal := Variable "x", Action := Variable "y", Resource := .entityUID ⟨"R", "1"⟩,
    Context := .record [],
    Variables :=
      [⟨"x", [.entityUID ⟨"P", "1"⟩, .entityUID ⟨"P", "2"⟩]⟩,
       ⟨"y", [.entityUID ⟨"A", "1"⟩, .entityUID ⟨"A", "2"⟩]⟩] }

/-- The request `tieRequestXY`, the map `Variables` iterated with `y` first. -/
def tieRequestYX : Request :=
  { tieRequestXY with Variables := tieRequestXY.Variables.reverse }

/-- The request of the test `smokeTest`, the map `Variables` iterated in the opposite
order. -/
def smokeRequestReversed : Request :=
  { smokeRequest with Variables := smokeRequest.Variables.reverse }

/-- A request whose principal is a string, which no leaf can convert to an entity. -/
def stringPrincipalRequest : Request :=
  { Principal := .string "alice", Action := Variable "action",
    Resource := .entityUID ⟨"R", "1"⟩, Context := .record [],
    Variables := [⟨"action", [.entityUID ⟨"A", "1"⟩, .entityUID ⟨"A", "2"⟩]⟩] }

/-- A request whose principal is the placeholder of `x`, where the one candidate of `x` is
the ignore sentinel and a second variable has two candidates. -/
def ignoreCandidateRequest : Request :=
  { Principal := Variable "x", Action := Variable "y", Resource := .entityUID ⟨"R", "1"⟩,
    Context := .record [],
    Variables :=
      [⟨"x", [Ignore]⟩, ⟨"y", [.entityUID ⟨"A", "1"⟩, .entityUID ⟨"A", "2"⟩]⟩] }

/-- A request with placeholders inside its context record. -/
def nestedRequest : Request :=
  { Principal := Variable "x", Action := .entityUID ⟨"A", "1"⟩,
    Resource := .entityUID ⟨"R", "1"⟩,
    Context := .record [("who", Variable "x"), ("what", .set [Variable "y", .long 1])],
    Variables :=
      [⟨"y", [.entityUID ⟨"R", "1"⟩, .entityUID ⟨"R", "2"⟩]⟩, ⟨"x", [.entityUID ⟨"P", "1"⟩]⟩] }

/-- A request without a context (the nil interface value). -/
def missingContextRequest : Request :=
  { smokeRequest with Context := .nil }

/-- A context that was cancelled before the run: every poll answers the same error. -/
def cancelled : Nat → Option Error := fun _ => some "context canceled"

/-- A request without variables, whose root node is a leaf. -/
def groundRequest : Request :=
  { Principal := .entityUID ⟨"P", "1"⟩, Action := .entityUID ⟨"A", "1"⟩,
    Resource := .entityUID ⟨"R", "1"⟩, Context := .record [], Variables := [] }

/-- The slots of a node whose context holds a placeholder of `x` and whose principal is the
placeholder of `y`. -/
def sharedState : batchRequestState :=
  { Principal := Variable "y", Action := .entityUID ⟨"A", "1"⟩,
    Resource := .entityUID ⟨"R", "1"⟩,
    Context := .record [("who", Variable "x"), ("n", .long 1)] }

/-- A request whose principal takes three candidates, the second of which is a string that
does not convert to an entity. -/
def stringCandidateRequest : Request :=
  { Principal := Variable "principal", Action := .entityUID ⟨"A", "1"⟩,
    Resource := .entityUID ⟨"R", "1"⟩, Context := .record [],
    Variables :=
      [⟨"principal", [.entityUID ⟨"P", "1"⟩, .string "bob", .entityUID ⟨"P", "2"⟩]⟩] }

/-- Modelled from the spec: package `eval` as in `specEval`, except that the evaluation of
a policy fails when its constraint names an entity of the type `Missing` (evaluation errors
are part of the consumed contract `evaluator.eval(env) -> (bool, error)`). -/
def failingEval : EvalAPI Unit PrincipalScope :=
  { ToVariable := specEval.ToVariable
    IsIgnore := specEval.IsIgnore
    ValueToEntity := specEval.ValueToEntity
    ValueToRecord := specEval.ValueToRecord
    PartialPolicy := fun _ p => (p, true, none)
    Compile := fun p env =>
      match p.Body with
      | some u =>
        if u.EntityType = "Missing" then .error "entity does not exist"
        else specEval.Compile p env
      | none => .ok true }

/-- A forbid policy and a permit policy whose evaluation fails, and a permit policy without
constraint. -/
def failingPolicies : List (Policy PrincipalScope) :=
  [⟨.EffectForbid, some ⟨"Missing", "1"⟩⟩, ⟨.EffectPermit, some ⟨"Missing", "2"⟩⟩,
   ⟨.EffectPermit, none⟩]

/-- A request whose resource and context are the ignore sentinel, with one variable. -/
def ignoreResourceRequest : Request :=
  { Principal := Variable "principal", Action := .entityUID ⟨"A", "1"⟩,
    Resource := Ignore, Context := Ignore,
    Variables := [⟨"principal", [.entityUID ⟨"P", "1"⟩, .entityUID ⟨"P", "2"⟩]⟩] }

/-- A heap in which the shared map already binds a variable that no node below binds. -/
def busyHeap : Heap :=
  { polls := 0, Values := [("other", .long 1)], calls := [] }

/-- A new evaluator over one permit policy without constraint. -/
def permitEvaler : batchEvaler Unit PrincipalScope :=
  { policies := [⟨"0", ⟨.EffectPermit, none⟩⟩], compiled := false, forbids := [],
    permits := [] }

/-- An item of type `float64` as far as `==` tells items apart: a number, here an integer,
or the NaN. -/
inductive Float64
  | number (n : Int)
  | NaN
  deriving DecidableEq

/-- The operator `==` of `float64`: two numbers are compared, and a comparison with NaN is
false. -/
def Float64.eq : Float64 → Float64 → Bool
  | .number m, .number n => decide (m = n)
  | _, _ => false

instance : Comparable Float64 where
  eq := Float64.eq
  symm := fun a b h => by
    cases a <;> cases b <;> simp_all [Float64.eq, eq_comm]
  trans := fun a b c h1 h2 => by
    cases a <;> cases b <;> cases c <;> simp_all [Float64.eq]

/-- The set of `s := Make[float64](); s.Add(math.NaN())`. -/
def setNaN : MapSet Float64 := (MapSet.Make.Add Float64.NaN).1

/-- The set that `FromSlice` builds from `1.0, 2.0`. -/
def setFloatOneTwo : MapSet Float64 := MapSet.FromSlice [.number 1, .number 2]

/-- The set that `FromSlice` builds from `2.0, 1.0, 2.0`. -/
def setFloatTwoOne : MapSet Float64 := MapSet.FromSlice [.number 2, .number 1, .number 2]

/-- A request whose last level binds the principal to three candidates: the three leaves
are siblings and share one evaluator. -/
def siblingRequest : Request :=
  { Principal := Variable "principal", Action := Variable "action",
    Resource := .entityUID ⟨"R", "1"⟩, Context := .record [],
    Variables :=
      [⟨"principal", [.entityUID ⟨"P", "1"⟩, .entityUID ⟨"P", "2"⟩, .entityUID ⟨"P", "3"⟩]⟩,
       ⟨"action", [.entityUID ⟨"A", "1"⟩]⟩] }

/-- A permit policy for the principal `P::"1"`, a forbid policy for `P::"3"`, a permit policy
without constraint and a permit policy for `P::"2"`. -/
def siblingPolicies : List (Policy PrincipalScope) :=
  [⟨.EffectPermit, some ⟨"P", "1"⟩⟩, ⟨.EffectForbid, some ⟨"P", "3"⟩⟩,
   ⟨.EffectPermit, none⟩, ⟨.EffectPermit, some ⟨"P", "2"⟩⟩]

end Models

/-! ## Theorems -/

section Lemmas

variable {Entities Body : Type}

theorem batchCompile_foldl (eval : EvalAPI Entities Body) (ps : List (idPolicy Body))
    (b : batchEvaler Entities Body) :
    ps.foldl (fun (b : batchEvaler Entities Body) p =>
      let idEval : idEvaler Entities := ⟨p.PolicyID, eval.Compile p.Policy⟩
      if p.Policy.Effect = Effect.EffectPermit then
        { b with permits := b.permits ++ [idEval] }
      else
        { b with forbids := b.forbids ++ [idEval] }) b
    = { policies := b.policies, compiled := b.compiled,
        forbids := b.forbids ++ evalersOf eval ps false,
        permits := b.permits ++ evalersOf eval ps true } := by
  induction ps generalizing b with
  | nil => simp [evalersOf]
  | cons p ps ih =>
    rw [List.foldl_cons, ih]
    by_cases hp : p.Policy.Effect = Effect.EffectPermit <;>
      simp [evalersOf, hp, List.filter_cons]

theorem batchCompile_spec (eval : EvalAPI Entities Body) (b : batchEvaler Entities Body)
    (hb : Compiled eval b) :
    batchCompile eval b =
      { policies := b.policies, compiled := true,
        forbids := evalersOf eval b.policies false,
        permits := evalersOf eval b.policies true } := by
  rcases hb with ⟨h1, h2, h3⟩ | ⟨h1, h2, h3⟩
  · unfold batchCompile
    rw [batchCompile_foldl]
    simp [h1, h2, h3]
  · unfold batchCompile
    rw [if_pos h1]
    cases b
    simp_all

theorem compiled_batchCompile (eval : EvalAPI Entities Body) (b : batchEvaler Entities Body)
    (hb : Compiled eval b) : Compiled eval (batchCompile eval b) := by
  rw [batchCompile_spec eval b hb]
  exact Or.inr ⟨rfl, rfl, rfl⟩

theorem policies_batchCompile (eval : EvalAPI Entities Body) (b : batchEvaler Entities Body)
    (hb : Compiled eval b) : (batchCompile eval b).policies = b.policies := by
  rw [batchCompile_spec eval b hb]

theorem evalReasons_evalersOf (eval : EvalAPI Entities Body) (ps : List (idPolicy Body))
    (permit : Bool) (env : Env Entities) (d : Diagnostic) :
    evalReasons (evalersOf eval ps permit) env d =
      ⟨d.Reasons ++ ((ps.filter (fun p => (decide (p.Policy.Effect = .EffectPermit) == permit)
        && satisfied eval env p)).map (fun p => ⟨p.PolicyID⟩))⟩ := by
  induction ps generalizing d with
  | nil => simp [evalersOf, evalReasons]
  | cons p ps ih =>
    unfold evalersOf evalReasons at ih ⊢
    by_cases hp : (decide (p.Policy.Effect = .EffectPermit) == permit) = true
    · rw [List.filter_cons, if_pos hp, List.map_cons, List.foldl_cons, ih]
      cases hc : eval.Compile p.Policy env with
      | error e => simp [satisfied, hc, hp, List.filter_cons]
      | ok v => cases v <;> simp [satisfied, hc, hp, List.filter_cons]
    · rw [List.filter_cons, if_neg hp, ih]
      simp [hp, List.filter_cons]

theorem filter_effect_eq (eval : EvalAPI Entities Body) (ps : List (idPolicy Body))
    (env : Env Entities) (permit : Bool) :
    (ps.filter (fun p => (decide (p.Policy.Effect = .EffectPermit) == permit)
        && satisfied eval env p)).map (fun p => (⟨p.PolicyID⟩ : DiagnosticReason)) =
      reasonsOf eval (if permit then .EffectPermit else .EffectForbid) ps env := by
  unfold reasonsOf satisfiedWith
  congr 1
  apply List.filter_congr
  intro p _
  cases permit <;> cases hp : p.Policy.Effect <;> simp

theorem diagnosticAuthz_spec (eval : EvalAPI Entities Body) (b : batchEvaler Entities Body)
    (env : Env Entities) (hb : Compiled eval b) :
    diagnosticAuthz eval b env =
      ((leafDecision eval b.policies env).1, (leafDecision eval b.policies env).2,
        batchCompile eval b) := by
  unfold diagnosticAuthz
  simp only [batchCompile_spec eval b hb, evalReasons_evalersOf, filter_effect_eq,
    List.nil_append]
  unfold leafDecision
  by_cases hf : reasonsOf eval .EffectForbid b.policies env = []
  · by_cases hp : reasonsOf eval .EffectPermit b.policies env = []
    · simp [hf, hp]
    · have hp' : 0 < (reasonsOf eval .EffectPermit b.policies env).length :=
        List.length_pos.mpr hp
      simp [hf, hp, hp']
  · have hf' : 0 < (reasonsOf eval .EffectForbid b.policies env).length :=
      List.length_pos.mpr hf
    simp [hf, hf']

theorem firstErr_append (a b : List (Except Error Result)) :
    firstErr (a ++ b) = match firstErr a with
      | some e => some e
      | none => firstErr b := by
  induction a with
  | nil => simp [firstErr]
  | cons x a ih => cases x <;> simp [firstErr, ih]

theorem delivered_append_of_err (a b : List (Except Error Result)) (e : Error)
    (h : firstErr a = some e) : delivered (a ++ b) = delivered a := by
  induction a with
  | nil => simp [firstErr] at h
  | cons x a ih =>
    cases x with
    | error e' => simp [delivered]
    | ok r => simp [firstErr] at h; simp [delivered, ih h]

theorem delivered_append_of_ok (a b : List (Except Error Result))
    (h : firstErr a = none) : delivered (a ++ b) = delivered a ++ delivered b := by
  induction a with
  | nil => simp [delivered]
  | cons x a ih =>
    cases x with
    | error e' => simp [firstErr] at h
    | ok r => simp [firstErr] at h; simp [delivered, ih h]

theorem firstErr_map_ok (cs : List Result) : firstErr (cs.map Except.ok) = none := by
  induction cs with
  | nil => rfl
  | cons c cs ih => simpa [firstErr] using ih

theorem delivered_map_ok (cs : List Result) : delivered (cs.map Except.ok) = cs := by
  induction cs with
  | nil => rfl
  | cons c cs ih => simp [delivered, ih]

theorem forValues_spec (eval : EvalAPI Entities Body) (ctx : Nat → Option Error)
    (child : Value → batchEvaler Entities Body → Heap →
      Option Error × batchEvaler Entities Body × Heap)
    (leafOs : Value → List (Except Error Result)) (np : List (idPolicy Body))
    (inv : Values → Prop)
    (hchild : ∀ v b h, Compiled eval b → b.policies = np → inv h.Values →
      RunSpec eval ctx (leafOs v) h (child v b h) np inv) :
    ∀ (vs : List Value) (b : batchEvaler Entities Body) (h : Heap),
      Compiled eval b → b.policies = np → inv h.Values →
      RunSpec eval ctx (vs.flatMap leafOs) h (forValues child vs b h) np inv := by
  intro vs
  induction vs with
  | nil =>
    intro b h hb hp hi
    refine ⟨⟨[], ?_, ?_, ?_⟩, hb, hp, ?_⟩
    · simp [forValues]
    · simp
    · intro _; exact ⟨by simp, hi⟩
    · intro _; simp [forValues, firstErr, delivered]
  | cons v vs ih =>
    intro b h hb hp hi
    have h1 := hchild v b h hb hp hi
    rcases hout : child v b h with ⟨e, b1, h1'⟩
    rw [hout] at h1
    obtain ⟨⟨cs1, hc1, hpre1, hok1⟩, hb1, hp1, hn1⟩ := h1
    simp only at hc1 hok1 hb1 hp1 hn1
    cases e with
    | some err =>
      have hfv : forValues child (v :: vs) b h = (some err, b1, h1') := by
        simp [forValues, hout]
      rw [hfv]
      refine ⟨⟨cs1, hc1, ?_, ?_⟩, hb1, hp1, ?_⟩
      · rw [List.flatMap_cons]
        exact hpre1.trans (List.prefix_append _ _)
      · intro hcontra; simp at hcontra
      · intro hctx
        obtain ⟨he, hd⟩ := hn1 hctx
        rw [List.flatMap_cons, firstErr_append, ← he,
          delivered_append_of_err _ _ err he.symm]
        exact ⟨rfl, hd⟩
    | none =>
      have hfv : forValues child (v :: vs) b h = forValues child vs b1 h1' := by
        simp [forValues, hout]
      rw [hfv]
      obtain ⟨hos1, hr1⟩ := hok1 rfl
      obtain ⟨⟨cs2, hc2, hpre2, hok2⟩, hb2, hp2, hn2⟩ := ih b1 h1' hb1 hp1 hr1
      refine ⟨⟨cs1 ++ cs2, ?_, ?_, ?_⟩, hb2, hp2, ?_⟩
      · rw [hc2, hc1, List.append_assoc]
      · rw [List.flatMap_cons, List.map_append, hos1]
        exact (List.prefix_append_right_inj _).mpr hpre2
      · intro hnone
        obtain ⟨hos2, hr2⟩ := hok2 hnone
        exact ⟨by rw [List.flatMap_cons, List.map_append, hos1, hos2], hr2⟩
      · intro hctx
        obtain ⟨he2, hd2⟩ := hn2 hctx
        have he1 : firstErr (leafOs v) = none := by rw [← hos1]; exact firstErr_map_ok cs1
        rw [List.flatMap_cons, firstErr_append, he1, delivered_append_of_ok _ _ he1]
        refine ⟨he2, ?_⟩
        rw [hd2, hc1, ← hos1, delivered_map_ok, List.append_assoc]

theorem Values.delete_of_not_mem (m : Values) (k : String)
    (hk : k ∉ m.map Prod.fst) : m.delete k = m := by
  unfold Values.delete
  rw [List.filter_eq_self]
  intro e he
  have : e.1 ≠ k := fun heq => hk (heq ▸ List.mem_map_of_mem Prod.fst he)
  simpa using this

theorem Values.set_eq (m : Values) (k : String) (v : Value) :
    m.set k v = m.delete k ++ [(k, v)] := rfl

theorem Values.delete_set (m : Values) (k : String) (v : Value) :
    (m.set k v).delete k = m.delete k := by
  unfold Values.set Values.delete
  simp [List.filter_append, List.filter_filter]

theorem Values.keys_set (m : Values) (k : String) (v : Value) :
    (m.set k v).map Prod.fst = (m.delete k).map Prod.fst ++ [k] := by
  simp [Values.set, Values.delete]

theorem Values.mem_keys_delete (m : Values) (k k' : String)
    (h : k' ∈ (m.delete k).map Prod.fst) : k' ∈ m.map Prod.fst := by
  unfold Values.delete at h
  rw [List.mem_map] at h ⊢
  obtain ⟨e, he, hk⟩ := h
  exact ⟨e, List.mem_of_mem_filter he, hk⟩

theorem runSpec_leaf (eval : EvalAPI Entities Body) (ctx : Nat → Option Error)
    (entityMap : Entities) (be : batchEvaler Entities Body) (request : batchRequestState)
    (h : Heap) (hb : Compiled eval be) :
    RunSpec eval ctx
      ((leaves eval entityMap [] be.policies request h.Values).map (leafResult eval entityMap))
      h (doBatch eval ctx entityMap [] be request h) be.policies (fun V => V = h.Values) := by
  rw [doBatch]
  cases hc : ctx h.polls with
  | some err =>
    refine ⟨⟨[], by simp, by simp, by simp⟩, hb, rfl, ?_⟩
    intro hctx
    rw [hctx h.polls] at hc
    simp at hc
  | none =>
    simp only [leaves, List.map_cons, List.map_nil, leafResult, diagnosticAuthzWithCallback]
    cases hbr : buildResultEnv eval entityMap request h.Values with
    | error err =>
      refine ⟨⟨[], by simp, by simp, by simp⟩, hb, rfl, ?_⟩
      intro _
      simp [firstErr, delivered]
    | ok re =>
      obtain ⟨res, env⟩ := re
      simp only [diagnosticAuthz_spec eval be env hb]
      refine ⟨⟨[_], rfl, by simp, by simp⟩, compiled_batchCompile eval be hb,
        policies_batchCompile eval be hb, ?_⟩
      intro _
      simp [firstErr, delivered]

theorem doBatch_spec (eval : EvalAPI Entities Body) (ctx : Nat → Option Error)
    (entityMap : Entities) :
    ∀ (vars : List variableItem) (be : batchEvaler Entities Body)
      (request : batchRequestState) (h : Heap),
      Compiled eval be → (vars.map (fun u => u.Key)).Nodup →
      (∀ u ∈ vars, u.Key ∉ h.Values.map Prod.fst) →
      RunSpec eval ctx
        ((leaves eval entityMap vars be.policies request h.Values).map
          (leafResult eval entityMap))
        h (doBatch eval ctx entityMap vars be request h) be.policies
        (fun V => V = h.Values) := by
  intro vars
  induction vars with
  | nil =>
    intro be request h hb _ _
    exact runSpec_leaf eval ctx entityMap be request h hb
  | cons u uks ih =>
    intro be request h hb hnd hfresh
    rw [doBatch]
    cases hc : ctx h.polls with
    | some err =>
      refine ⟨⟨[], by simp, by simp, by simp⟩, hb, rfl, ?_⟩
      intro hctx
      rw [hctx h.polls] at hc
      simp at hc
    | none =>
      have hku : u.Key ∉ h.Values.map Prod.fst := hfresh u (List.mem_cons_self _ _)
      rw [List.map_cons, List.nodup_cons] at hnd
      obtain ⟨hkuks, hnd'⟩ := hnd
      have hdel : h.Values.delete u.Key = h.Values := Values.delete_of_not_mem _ _ hku
      simp only [leaves, List.map_flatMap]
      generalize hnp : prunePolicies eval entityMap request be.policies = np
      generalize hreq : (if (u :: uks).length = 1 then fillIgnores eval request
        else request) = request'
      have hloop := forValues_spec eval ctx
        (fun v b h' => doBatch eval ctx entityMap uks b (childState eval request' u.Key v)
          { h' with Values := h'.Values.set u.Key v })
        (fun v => (leaves eval entityMap uks np (childState eval request' u.Key v)
          (h.Values.set u.Key v)).map (leafResult eval entityMap))
        np (fun V => V.delete u.Key = h.Values)
        (by
          intro v b h' hb' hp' hinv
          have hset : h'.Values.set u.Key v = h.Values.set u.Key v := by
            rw [Values.set_eq, Values.set_eq, hinv, hdel]
          have hfresh' : ∀ w ∈ uks, w.Key ∉
              ({ h' with Values := h'.Values.set u.Key v } : Heap).Values.map Prod.fst := by
            intro w hw hmem
            simp only at hmem
            rw [Values.keys_set, List.mem_append, hinv] at hmem
            rcases hmem with hmem | hmem
            · exact hfresh w (List.mem_cons_of_mem _ hw) hmem
            · rw [List.mem_singleton] at hmem
              exact hkuks (hmem ▸ List.mem_map_of_mem (fun u => u.Key) hw)
          have := ih b (childState eval request' u.Key v)
            { h' with Values := h'.Values.set u.Key v } hb' hnd' hfresh'
          rw [hp'] at this
          dsimp only at this ⊢
          rw [← hset]
          obtain ⟨⟨cs, h1, h2, h3⟩, h4, h5, h6⟩ := this
          refine ⟨⟨cs, h1, h2, ?_⟩, h4, h5, h6⟩
          intro hnone
          obtain ⟨h7, h8⟩ := h3 hnone
          refine ⟨h7, ?_⟩
          dsimp only at h8 ⊢
          rw [h8, Values.delete_set, hinv])
        u.Values { policies := np, compiled := false, forbids := [], permits := [] }
        { h with polls := h.polls + 1 } (Or.inl ⟨rfl, rfl, rfl⟩) rfl hdel
      rcases hout : forValues
        (fun v b h' => doBatch eval ctx entityMap uks b (childState eval request' u.Key v)
          { h' with Values := h'.Values.set u.Key v })
        u.Values { policies := np, compiled := false, forbids := [], permits := [] }
        { h with polls := h.polls + 1 } with ⟨e, b1, h1⟩
      rw [hout] at hloop
      obtain ⟨⟨cs, h1', h2, h3⟩, _, _, h6⟩ := hloop
      cases e with
      | some err =>
        refine ⟨⟨cs, h1', h2, by simp⟩, hb, rfl, ?_⟩
        intro hctx
        exact h6 hctx
      | none =>
        obtain ⟨h7, h8⟩ := h3 rfl
        refine ⟨⟨cs, h1', h2, fun _ => ⟨h7, h8⟩⟩, hb, rfl, ?_⟩
        intro hctx
        exact h6 hctx

theorem foldl_append_singleton (l acc : List variableItem) :
    l.foldl (fun vs kv => vs ++ [kv]) acc = acc ++ l := by
  induction l generalizing acc with
  | nil => simp
  | cons x l ih => simp [ih]

theorem Authorize_eq (eval : EvalAPI Entities Body)
    (SortFunc : List variableItem → (variableItem → variableItem → Int) → List variableItem)
    (ctx : Nat → Option Error) (policies : List (Policy Body)) (entityMap : Entities)
    (request : Request) (hp : request.Present) :
    Authorize eval SortFunc ctx policies entityMap request =
      ((doBatch eval ctx entityMap (SortFunc request.Variables lenCmp)
          { policies := numberPolicies policies, compiled := false, forbids := [],
            permits := [] }
          ⟨request.Principal, request.Action, request.Resource, request.Context⟩
          { polls := 0, Values := [], calls := [] }).1,
       (doBatch eval ctx entityMap (SortFunc request.Variables lenCmp)
          { policies := numberPolicies policies, compiled := false, forbids := [],
            permits := [] }
          ⟨request.Principal, request.Action, request.Resource, request.Context⟩
          { polls := 0, Values := [], calls := [] }).2.2) := by
  obtain ⟨h1, h2, h3, h4⟩ := hp
  unfold Authorize
  simp [h1, h2, h3, h4, foldl_append_singleton]

theorem Authorize_spec (eval : EvalAPI Entities Body)
    (SortFunc : List variableItem → (variableItem → variableItem → Int) → List variableItem)
    (ctx : Nat → Option Error) (policies : List (Policy Body)) (entityMap : Entities)
    (request : Request) (hp : request.Present) (hwf : request.WellFormed)
    (hsort : (SortFunc request.Variables lenCmp).Perm request.Variables) :
    (∃ cs : List Result,
      (Authorize eval SortFunc ctx policies entityMap request).2.calls = cs ∧
      cs.map Except.ok <+:
        (rootLeaves eval SortFunc policies entityMap request).map
          (leafResult eval entityMap) ∧
      ((Authorize eval SortFunc ctx policies entityMap request).1 = none →
        cs.map Except.ok = (rootLeaves eval SortFunc policies entityMap request).map
          (leafResult eval entityMap) ∧
        (Authorize eval SortFunc ctx policies entityMap request).2.Values = [])) ∧
    (NeverCancelled ctx →
      (Authorize eval SortFunc ctx policies entityMap request).1 =
        firstErr ((rootLeaves eval SortFunc policies entityMap request).map
          (leafResult eval entityMap)) ∧
      (Authorize eval SortFunc ctx policies entityMap request).2.calls =
        delivered ((rootLeaves eval SortFunc policies entityMap request).map
          (leafResult eval entityMap))) := by
  rw [Authorize_eq eval SortFunc ctx policies entityMap request hp]
  have hnd : ((SortFunc request.Variables lenCmp).map (fun u => u.Key)).Nodup :=
    ((hsort.map (fun u => u.Key)).nodup_iff).mpr (by unfold Request.WellFormed at hwf; exact hwf)
  have := doBatch_spec eval ctx entityMap (SortFunc request.Variables lenCmp)
    { policies := numberPolicies policies, compiled := false, forbids := [], permits := [] }
    ⟨request.Principal, request.Action, request.Resource, request.Context⟩
    { polls := 0, Values := [], calls := [] } (Or.inl ⟨rfl, rfl, rfl⟩) hnd (by simp)
  obtain ⟨⟨cs, h1, h2, h3⟩, _, _, h6⟩ := this
  refine ⟨⟨cs, by simpa using h1, h2, h3⟩, ?_⟩
  intro hctx
  simpa using h6 hctx

theorem length_leaves (eval : EvalAPI Entities Body) (entityMap : Entities) :
    ∀ (vars : List variableItem) (ps : List (idPolicy Body)) (request : batchRequestState)
      (vals : Values),
      (leaves eval entityMap vars ps request vals).length =
        (vars.map (fun u => u.Values.length)).prod := by
  intro vars
  induction vars with
  | nil => intro ps request vals; simp [leaves]
  | cons u uks ih =>
    intro ps request vals
    simp only [leaves, List.length_flatMap, List.map_cons, List.prod_cons]
    have hconst : ∀ v ∈ u.Values,
        (List.length ∘ fun v => leaves eval entityMap uks
          (prunePolicies eval entityMap request ps)
          (childState eval (if (u :: uks).length = 1 then fillIgnores eval request
            else request) u.Key v) (vals.set u.Key v)) v =
        (fun _ => (uks.map (fun u => u.Values.length)).prod) v :=
      fun v _ => by simp [ih]
    rw [List.map_congr_left hconst]
    simp

theorem firstErr_eq_none_of_forall_ok (os : List (Except Error Result))
    (h : ∀ o ∈ os, ∃ r, o = .ok r) : firstErr os = none ∧ (delivered os).length = os.length := by
  induction os with
  | nil => simp [firstErr, delivered]
  | cons o os ih =>
    obtain ⟨r, hr⟩ := h o (List.mem_cons_self _ _)
    subst hr
    have := ih (fun o ho => h o (List.mem_cons_of_mem _ ho))
    simp [firstErr, delivered, this]

theorem leafResult_of_converts (eval : EvalAPI Entities Body) (entityMap : Entities)
    (l : Leaf Body) (h : l.converts eval = true) :
    ∃ r, leafResult eval entityMap l = .ok r := by
  unfold Leaf.converts at h
  unfold leafResult buildResultEnv
  cases h1 : eval.ValueToEntity l.request.Principal <;>
  cases h2 : eval.ValueToEntity l.request.Action <;>
  cases h3 : eval.ValueToEntity l.request.Resource <;>
  cases h4 : eval.ValueToRecord l.request.Context <;>
  simp_all

theorem mem_satisfiedWith (eval : EvalAPI Entities Body) (effect : Effect)
    (ps : List (idPolicy Body)) (env : Env Entities) (p : idPolicy Body) :
    p ∈ satisfiedWith eval effect ps env ↔
      p ∈ ps ∧ p.Policy.Effect = effect ∧ eval.Compile p.Policy env = .ok true := by
  unfold satisfiedWith satisfied
  rw [List.mem_filter]
  cases hc : eval.Compile p.Policy env with
  | error e => simp
  | ok v => cases v <;> simp

theorem reasonsOf_eq_nil_iff (eval : EvalAPI Entities Body) (effect : Effect)
    (ps : List (idPolicy Body)) (env : Env Entities) :
    reasonsOf eval effect ps env = [] ↔ satisfiedWith eval effect ps env = [] := by
  unfold reasonsOf
  exact List.map_eq_nil_iff

theorem leafDecision_of_forbid (eval : EvalAPI Entities Body) (ps : List (idPolicy Body))
    (env : Env Entities) (h : satisfiedWith eval .EffectForbid ps env ≠ []) :
    leafDecision eval ps env = (false, ⟨reasonsOf eval .EffectForbid ps env⟩) := by
  unfold leafDecision
  rw [if_pos (fun hn => h ((reasonsOf_eq_nil_iff _ _ _ _).mp hn))]

theorem leafDecision_of_no_forbid (eval : EvalAPI Entities Body) (ps : List (idPolicy Body))
    (env : Env Entities) (h : satisfiedWith eval .EffectForbid ps env = []) :
    leafDecision eval ps env =
      (!(satisfiedWith eval .EffectPermit ps env).isEmpty,
        ⟨reasonsOf eval .EffectPermit ps env⟩) := by
  unfold leafDecision
  rw [if_neg (fun hn => hn ((reasonsOf_eq_nil_iff _ _ _ _).mpr h))]
  by_cases hp : satisfiedWith eval .EffectPermit ps env = []
  · have := (reasonsOf_eq_nil_iff eval .EffectPermit ps env).mpr hp
    simp [hp, this]
  · have hne : reasonsOf eval .EffectPermit ps env ≠ [] :=
      fun hn => hp ((reasonsOf_eq_nil_iff eval .EffectPermit ps env).mp hn)
    rw [if_pos hne]
    simp [hp]

theorem leafResult_ok (eval : EvalAPI Entities Body) (entityMap : Entities) (l : Leaf Body)
    (r : Result) (h : leafResult eval entityMap l = .ok r) :
    r.Values = l.Values ∧
    r.Decision = (leafDecision eval l.policies (envOf entityMap l.request)).1 ∧
    r.Diagnostic = (leafDecision eval l.policies (envOf entityMap l.request)).2 ∧
    eval.ValueToEntity l.request.Principal = .ok r.Request.Principal ∧
    eval.ValueToEntity l.request.Action = .ok r.Request.Action ∧
    eval.ValueToEntity l.request.Resource = .ok r.Request.Resource ∧
    eval.ValueToRecord l.request.Context = .ok r.Request.Context := by
  unfold leafResult buildResultEnv at h
  cases h1 : eval.ValueToEntity l.request.Principal with
  | error e => simp [h1] at h
  | ok a1 =>
    cases h2 : eval.ValueToEntity l.request.Action with
    | error e => simp [h1, h2] at h
    | ok a2 =>
      cases h3 : eval.ValueToEntity l.request.Resource with
      | error e => simp [h1, h2, h3] at h
      | ok a3 =>
        cases h4 : eval.ValueToRecord l.request.Context with
        | error e => simp [h1, h2, h3, h4] at h
        | ok a4 =>
          simp only [h1, h2, h3, h4, Except.ok.injEq] at h
          subst h
          exact ⟨rfl, rfl, rfl, rfl, rfl, rfl, rfl⟩

theorem mem_of_map_ok_prefix (cs : List Result) (os : List (Except Error Result))
    (h : cs.map Except.ok <+: os) (r : Result) (hr : r ∈ cs) : Except.ok r ∈ os :=
  h.subset (List.mem_map_of_mem _ hr)

theorem Authorize_calls_of_not_present (eval : EvalAPI Entities Body)
    (SortFunc : List variableItem → (variableItem → variableItem → Int) → List variableItem)
    (ctx : Nat → Option Error) (policies : List (Policy Body)) (entityMap : Entities)
    (request : Request) (hp : ¬ request.Present) :
    (Authorize eval SortFunc ctx policies entityMap request).1 ≠ none ∧
    (Authorize eval SortFunc ctx policies entityMap request).2.calls = [] := by
  unfold Request.Present at hp
  unfold Authorize
  by_cases h1 : request.Principal.isNil = true
  · simp [h1]
  by_cases h2 : request.Action.isNil = true
  · simp [h1, h2]
  by_cases h3 : request.Resource.isNil = true
  · simp [h1, h2, h3]
  by_cases h4 : request.Context.isNil = true
  · simp [h1, h2, h3, h4]
  · simp only [Bool.not_eq_true] at h1 h2 h3 h4
    exact absurd ⟨h1, h2, h3, h4⟩ hp

theorem Authorize_call_leaf (eval : EvalAPI Entities Body)
    (SortFunc : List variableItem → (variableItem → variableItem → Int) → List variableItem)
    (ctx : Nat → Option Error) (policies : List (Policy Body)) (entityMap : Entities)
    (request : Request) (hwf : request.WellFormed)
    (hsort : (SortFunc request.Variables lenCmp).Perm request.Variables)
    (r : Result) (hr : r ∈ (Authorize eval SortFunc ctx policies entityMap request).2.calls) :
    ∃ l ∈ rootLeaves eval SortFunc policies entityMap request,
      leafResult eval entityMap l = .ok r := by
  by_cases hp : request.Present
  · obtain ⟨⟨cs, h1, h2, _⟩, _⟩ :=
      Authorize_spec eval SortFunc ctx policies entityMap request hp hwf hsort
    rw [h1] at hr
    have := mem_of_map_ok_prefix cs _ h2 r hr
    rw [List.mem_map] at this
    obtain ⟨l, hl, hlr⟩ := this
    exact ⟨l, hl, hlr⟩
  · rw [(Authorize_calls_of_not_present eval SortFunc ctx policies entityMap request hp).2]
      at hr
    simp at hr

theorem leafDecision_of_none (eval : EvalAPI Entities Body) (ps : List (idPolicy Body))
    (env : Env Entities) (h : ∀ p ∈ ps, eval.Compile p.Policy env ≠ .ok true) :
    leafDecision eval ps env = (false, ⟨[]⟩) := by
  have hnil : ∀ effect, satisfiedWith eval effect ps env = [] := by
    intro effect
    rw [List.eq_nil_iff_forall_not_mem]
    intro p hp
    rw [mem_satisfiedWith] at hp
    exact h p hp.1 hp.2.2
  rw [leafDecision_of_no_forbid eval ps env (hnil _)]
  simp [reasonsOf, hnil]

theorem policies_leaves_nil (eval : EvalAPI Entities Body) (entityMap : Entities) :
    ∀ (vars : List variableItem) (request : batchRequestState) (vals : Values),
      ∀ l ∈ leaves eval entityMap vars [] request vals, l.policies = [] := by
  intro vars
  induction vars with
  | nil =>
    intro request vals l hl
    simp only [leaves, List.mem_singleton] at hl
    rw [hl]
  | cons u uks ih =>
    intro request vals l hl
    simp only [leaves, List.mem_flatMap] at hl
    obtain ⟨v, _, hl⟩ := hl
    have hnil : prunePolicies eval entityMap request [] = [] := rfl
    rw [hnil] at hl
    exact ih _ _ l hl

theorem prunePolicies_foldl (eval : EvalAPI Entities Body) (env : Env Entities)
    (ps : List (idPolicy Body)) (acc : List (idPolicy Body)) :
    ps.foldl (fun np p =>
      match eval.PartialPolicy env p.Policy with
      | (part, keep, _) => if !keep then np else np ++ [⟨p.PolicyID, part⟩]) acc =
    acc ++ ps.foldl (fun np p =>
      match eval.PartialPolicy env p.Policy with
      | (part, keep, _) => if !keep then np else np ++ [⟨p.PolicyID, part⟩]) [] := by
  induction ps generalizing acc with
  | nil => simp
  | cons p ps ih =>
    rw [List.foldl_cons, List.foldl_cons, ih, ih (match eval.PartialPolicy env p.Policy with
      | (part, keep, _) => if !keep then [] else [] ++ [(⟨p.PolicyID, part⟩ : idPolicy Body)])]
    rcases eval.PartialPolicy env p.Policy with ⟨part, keep, e⟩
    cases keep <;> simp

theorem prunePolicies_cons (eval : EvalAPI Entities Body) (entityMap : Entities)
    (request : batchRequestState) (p : idPolicy Body) (ps : List (idPolicy Body)) :
    prunePolicies eval entityMap request (p :: ps) =
      (if (eval.PartialPolicy (envOf entityMap request) p.Policy).2.1 then
        [⟨p.PolicyID, (eval.PartialPolicy (envOf entityMap request) p.Policy).1⟩] else []) ++
      prunePolicies eval entityMap request ps := by
  unfold prunePolicies
  simp only [List.foldl_cons]
  rw [prunePolicies_foldl]
  change (match eval.PartialPolicy (envOf entityMap request) p.Policy with
    | (part, keep, _) =>
      if !keep then [] else [] ++ [(⟨p.PolicyID, part⟩ : idPolicy Body)]) ++ _ = _
  generalize eval.PartialPolicy (envOf entityMap request) p.Policy = r
  obtain ⟨part, keep, e⟩ := r
  cases keep <;> simp

theorem satisfiedWith_prunePolicies (eval : EvalAPI Entities Body) (entityMap : Entities)
    (hcontract : PrunerContract eval entityMap) (vars : List variableItem)
    (hvars : vars ≠ []) (request lr : batchRequestState)
    (hlr : lr ∈ leafRequests eval vars request) (effect : Effect)
    (ps : List (idPolicy Body)) :
    reasonsOf eval effect (prunePolicies eval entityMap request ps) (envOf entityMap lr) =
      reasonsOf eval effect ps (envOf entityMap lr) := by
  induction ps with
  | nil => rfl
  | cons p ps ih =>
    rw [prunePolicies_cons]
    unfold reasonsOf satisfiedWith at ih ⊢
    rw [List.filter_append, List.map_append, ih, List.filter_cons]
    obtain ⟨hkeep, hdrop⟩ := hcontract vars request p.Policy hvars lr hlr
    cases hk : (eval.PartialPolicy (envOf entityMap request) p.Policy).2.1 with
    | true =>
      obtain ⟨heff, hev⟩ := hkeep hk
      simp only [if_true, List.filter_cons, List.filter_nil, satisfied, heff, hev]
      split <;> simp
    | false =>
      have := hdrop hk
      have hs : satisfied eval (envOf entityMap lr) p = false := by
        unfold satisfied
        cases hc : eval.Compile p.Policy (envOf entityMap lr) with
        | error e => rfl
        | ok v =>
          cases v with
          | false => rfl
          | true => exact absurd hc this
      simp [hs]

theorem leafDecision_prunePolicies (eval : EvalAPI Entities Body) (entityMap : Entities)
    (hcontract : PrunerContract eval entityMap) (vars : List variableItem)
    (hvars : vars ≠ []) (request lr : batchRequestState)
    (hlr : lr ∈ leafRequests eval vars request) (ps : List (idPolicy Body)) :
    leafDecision eval (prunePolicies eval entityMap request ps) (envOf entityMap lr) =
      leafDecision eval ps (envOf entityMap lr) := by
  unfold leafDecision
  simp only [satisfiedWith_prunePolicies eval entityMap hcontract vars hvars request lr hlr]

theorem forValues_rel (child₁ child₂ : Value → batchEvaler Entities Body → Heap →
      Option Error × batchEvaler Entities Body × Heap)
    (R : batchEvaler Entities Body → batchEvaler Entities Body → Prop)
    (vs : List Value)
    (hchild : ∀ v ∈ vs, ∀ b₁ b₂ h, R b₁ b₂ →
      (child₁ v b₁ h).1 = (child₂ v b₂ h).1 ∧ (child₁ v b₁ h).2.2 = (child₂ v b₂ h).2.2 ∧
      R (child₁ v b₁ h).2.1 (child₂ v b₂ h).2.1) :
    ∀ b₁ b₂ h, R b₁ b₂ →
      (forValues child₁ vs b₁ h).1 = (forValues child₂ vs b₂ h).1 ∧
      (forValues child₁ vs b₁ h).2.2 = (forValues child₂ vs b₂ h).2.2 ∧
      R (forValues child₁ vs b₁ h).2.1 (forValues child₂ vs b₂ h).2.1 := by
  induction vs with
  | nil => intro b₁ b₂ h hR; exact ⟨rfl, rfl, hR⟩
  | cons v vs ih =>
    intro b₁ b₂ h hR
    obtain ⟨h1, h2, h3⟩ := hchild v (List.mem_cons_self _ _) b₁ b₂ h hR
    rcases ho₁ : child₁ v b₁ h with ⟨e₁, c₁, g₁⟩
    rcases ho₂ : child₂ v b₂ h with ⟨e₂, c₂, g₂⟩
    rw [ho₁, ho₂] at h1 h2 h3
    simp only at h1 h2 h3
    subst h1 h2
    cases e₁ with
    | some err =>
      have e1 : forValues child₁ (v :: vs) b₁ h = (some err, c₁, g₁) := by
        simp [forValues, ho₁]
      have e2 : forValues child₂ (v :: vs) b₂ h = (some err, c₂, g₁) := by
        simp [forValues, ho₂]
      rw [e1, e2]
      exact ⟨rfl, rfl, h3⟩
    | none =>
      have e1 : forValues child₁ (v :: vs) b₁ h = forValues child₁ vs c₁ g₁ := by
        simp [forValues, ho₁]
      have e2 : forValues child₂ (v :: vs) b₂ h = forValues child₂ vs c₂ g₁ := by
        simp [forValues, ho₂]
      rw [e1, e2]
      exact ih (fun w hw => hchild w (List.mem_cons_of_mem _ hw)) c₁ c₂ g₁ h3

theorem doBatch_refines (eval : EvalAPI Entities Body) (ctx : Nat → Option Error)
    (entityMap : Entities) (hcontract : PrunerContract eval entityMap) :
    ∀ (vars : List variableItem) (be₁ be₂ : batchEvaler Entities Body)
      (request : batchRequestState) (h : Heap),
      Compiled eval be₁ → Compiled eval be₂ →
      Agree eval entityMap vars request be₁.policies be₂.policies →
      (doBatch eval ctx entityMap vars be₁ request h).1 =
        (doBatchNoPruning eval ctx entityMap vars be₂ request h).1 ∧
      (doBatch eval ctx entityMap vars be₁ request h).2.2 =
        (doBatchNoPruning eval ctx entityMap vars be₂ request h).2.2 ∧
      (Compiled eval (doBatch eval ctx entityMap vars be₁ request h).2.1 ∧
        Compiled eval (doBatchNoPruning eval ctx entityMap vars be₂ request h).2.1 ∧
        (doBatch eval ctx entityMap vars be₁ request h).2.1.policies = be₁.policies ∧
        (doBatchNoPruning eval ctx entityMap vars be₂ request h).2.1.policies =
          be₂.policies) := by
  intro vars
  induction vars with
  | nil =>
    intro be₁ be₂ request h hb₁ hb₂ hag
    rw [doBatch, doBatchNoPruning]
    cases hc : ctx h.polls with
    | some err => exact ⟨rfl, rfl, hb₁, hb₂, rfl, rfl⟩
    | none =>
      simp only [diagnosticAuthzWithCallback]
      cases hbr : buildResultEnv eval entityMap request h.Values with
      | error err => exact ⟨rfl, rfl, hb₁, hb₂, rfl, rfl⟩
      | ok re =>
        obtain ⟨res, env⟩ := re
        have henv : env = envOf entityMap request := by
          unfold buildResultEnv at hbr
          cases h1 : eval.ValueToEntity request.Principal <;>
          cases h2 : eval.ValueToEntity request.Action <;>
          cases h3 : eval.ValueToEntity request.Resource <;>
          cases h4 : eval.ValueToRecord request.Context <;>
          simp [h1, h2, h3, h4] at hbr
          exact hbr.2.symm
        have hd := hag request (by simp [leafRequests])
        subst henv
        dsimp only
        rw [diagnosticAuthz_spec eval be₁ _ hb₁, diagnosticAuthz_spec eval be₂ _ hb₂, hd]
        exact ⟨rfl, rfl, compiled_batchCompile eval be₁ hb₁,
          compiled_batchCompile eval be₂ hb₂, policies_batchCompile eval be₁ hb₁,
          policies_batchCompile eval be₂ hb₂⟩
  | cons u uks ih =>
    intro be₁ be₂ request h hb₁ hb₂ hag
    rw [doBatch, doBatchNoPruning]
    cases hc : ctx h.polls with
    | some err => exact ⟨rfl, rfl, hb₁, hb₂, rfl, rfl⟩
    | none =>
      generalize hnp : prunePolicies eval entityMap request be₁.policies = np
      generalize hreq : (if (u :: uks).length = 1 then fillIgnores eval request
        else request) = request'
      dsimp only
      have hloop := forValues_rel
        (fun v b h' => doBatch eval ctx entityMap uks b (childState eval request' u.Key v)
          { h' with Values := h'.Values.set u.Key v })
        (fun v b h' => doBatchNoPruning eval ctx entityMap uks b
          (childState eval request' u.Key v) { h' with Values := h'.Values.set u.Key v })
        (fun b₁ b₂ => Compiled eval b₁ ∧ Compiled eval b₂ ∧ b₁.policies = np ∧
          b₂.policies = be₂.policies)
        u.Values
        (by
          intro v hv b₁ b₂ h' ⟨hc₁, hc₂, hp₁, hp₂⟩
          have hag' : Agree eval entityMap uks (childState eval request' u.Key v)
              b₁.policies b₂.policies := by
            intro lr hlr
            have hmem : lr ∈ leafRequests eval (u :: uks) request := by
              simp only [leafRequests, List.mem_flatMap]
              rw [hreq]
              exact ⟨v, hv, hlr⟩
            rw [hp₁, hp₂, ← hnp, leafDecision_prunePolicies eval entityMap hcontract
              (u :: uks) (List.cons_ne_nil _ _) request lr hmem]
            exact hag lr hmem
          obtain ⟨h1, h2, h3, h4, h5, h6⟩ := ih b₁ b₂ (childState eval request' u.Key v)
            { h' with Values := h'.Values.set u.Key v } hc₁ hc₂ hag'
          exact ⟨h1, h2, h3, h4, h5.trans hp₁, h6.trans hp₂⟩)
        { policies := np, compiled := false, forbids := [], permits := [] }
        { policies := be₂.policies, compiled := false, forbids := [], permits := [] }
        { h with polls := h.polls + 1 }
        ⟨Or.inl ⟨rfl, rfl, rfl⟩, Or.inl ⟨rfl, rfl, rfl⟩, rfl, rfl⟩
      obtain ⟨h1, h2, _⟩ := hloop
      rcases ho₁ : forValues
        (fun v b h' => doBatch eval ctx entityMap uks b (childState eval request' u.Key v)
          { h' with Values := h'.Values.set u.Key v })
        u.Values { policies := np, compiled := false, forbids := [], permits := [] }
        { h with polls := h.polls + 1 } with ⟨e₁, c₁, g₁⟩
      rcases ho₂ : forValues
        (fun v b h' => doBatchNoPruning eval ctx entityMap uks b
          (childState eval request' u.Key v) { h' with Values := h'.Values.set u.Key v })
        u.Values { policies := be₂.policies, compiled := false, forbids := [], permits := [] }
        { h with polls := h.polls + 1 } with ⟨e₂, c₂, g₂⟩
      rw [ho₁, ho₂] at h1 h2
      simp only at h1 h2
      subst h1 h2
      cases e₁ with
      | some err => exact ⟨rfl, rfl, hb₁, hb₂, rfl, rfl⟩
      | none => exact ⟨rfl, rfl, hb₁, hb₂, rfl, rfl⟩

theorem specEval_principal_fixed (t : EntityUID)
    (hv : t.EntityType ≠ variableEntityType) (hi : t.EntityType ≠ ignoreEntityType) :
    ∀ (vars : List variableItem) (request : batchRequestState),
      request.Principal = .entityUID t →
      ∀ lr ∈ leafRequests specEval vars request, lr.Principal = .entityUID t := by
  intro vars
  induction vars with
  | nil =>
    intro request hreq lr hlr
    simp only [leafRequests, List.mem_singleton] at hlr
    rw [hlr, hreq]
  | cons u uks ih =>
    intro request hreq lr hlr
    simp only [leafRequests, List.mem_flatMap] at hlr
    obtain ⟨v, _, hlr⟩ := hlr
    refine ih _ ?_ lr hlr
    have hfill : (fillIgnores specEval request).Principal = .entityUID t := by
      unfold fillIgnores
      simp only [hreq, specEval, hi, decide_False, Bool.false_eq_true, if_false]
      split <;> split <;> split <;> simp [hreq]
    have hreq' : (if (u :: uks).length = 1 then fillIgnores specEval request
        else request).Principal = .entityUID t := by
      split
      · exact hfill
      · exact hreq
    unfold childState
    simp only [hreq']
    simp [cloneSub, specEval, hv]

theorem specEval_prunerContract : PrunerContract specEval () := by
  intro vars request p _ lr hlr
  cases hb : p.Body with
  | none => simp [specEval, envOf, hb]
  | some uid =>
    cases hp : request.Principal with
    | entityUID t =>
      by_cases hv : t.EntityType = variableEntityType
      · simp [specEval, envOf, hb, hp, hv]
      by_cases hi : t.EntityType = ignoreEntityType
      · simp [specEval, envOf, hb, hp, hi]
      have hfix := specEval_principal_fixed t hv hi vars request hp lr hlr
      by_cases htu : t = uid
      · subst htu
        simp [specEval, envOf, hb, hp, hv, hi, hfix]
      · simp [specEval, envOf, hb, hp, hv, hi, htu, hfix]
    | _ => simp [specEval, envOf, hb, hp]

theorem substitute_noop (eval : EvalAPI Entities Body) (k : String) (v : Value) :
    (∀ r : Value, hasPlaceholder eval k r = false → substitute eval k v r = r) ∧
    (∀ t : List (String × Value), hasPlaceholderEntries eval k t = false →
      substituteEntries eval k v t = t) ∧
    (∀ t : List Value, hasPlaceholderElems eval k t = false →
      substituteElems eval k v t = t) := by
  have key : ∀ n : Nat,
      (∀ r : Value, sizeOf r ≤ n → hasPlaceholder eval k r = false →
        substitute eval k v r = r) ∧
      (∀ t : List (String × Value), sizeOf t ≤ n → hasPlaceholderEntries eval k t = false →
        substituteEntries eval k v t = t) ∧
      (∀ t : List Value, sizeOf t ≤ n → hasPlaceholderElems eval k t = false →
        substituteElems eval k v t = t) := by
    intro n
    induction n with
    | zero =>
      refine ⟨?_, ?_, ?_⟩
      · intro r hr; cases r <;> simp at hr
      · intro t ht; cases t <;> simp at ht
      · intro t ht; cases t <;> simp at ht
    | succ n ih =>
      obtain ⟨ih1, ih2, ih3⟩ := ih
      refine ⟨?_, ?_, ?_⟩
      · intro r hr hp
        cases r with
        | entityUID t =>
          unfold hasPlaceholder at hp
          unfold substitute
          simp only [decide_eq_false_iff_not] at hp
          rw [if_neg hp]
        | record es =>
          unfold hasPlaceholder at hp
          unfold substitute
          rw [ih2 es (by simp at hr; omega) hp]
        | set xs =>
          unfold hasPlaceholder at hp
          unfold substitute
          rw [ih3 xs (by simp at hr; omega) hp]
        | nil => simp [substitute]
        | boolean b => simp [substitute]
        | long i => simp [substitute]
        | string s => simp [substitute]
        | extension c => simp [substitute]
      · intro t ht hp
        cases t with
        | nil => simp [substituteEntries]
        | cons e rest =>
          obtain ⟨kk, vv⟩ := e
          unfold hasPlaceholderEntries at hp
          unfold substituteEntries
          simp only [List.cons.sizeOf_spec, Prod.mk.sizeOf_spec] at ht
          simp only [Bool.or_eq_false_iff] at hp
          rw [ih1 vv (by omega) hp.1, ih2 rest (by omega) hp.2]
      · intro t ht hp
        cases t with
        | nil => simp [substituteElems]
        | cons vv rest =>
          unfold hasPlaceholderElems at hp
          unfold substituteElems
          simp only [List.cons.sizeOf_spec] at ht
          simp only [Bool.or_eq_false_iff] at hp
          rw [ih1 vv (by omega) hp.1, ih3 rest (by omega) hp.2]
  exact ⟨fun r => (key (sizeOf r)).1 r le_rfl, fun t => (key (sizeOf t)).2.1 t le_rfl,
    fun t => (key (sizeOf t)).2.2 t le_rfl⟩

theorem cloneSub_spec (eval : EvalAPI Entities Body) (k : String) (v : Value) :
    (∀ r : Value, cloneSub eval r k v = (substitute eval k v r, hasPlaceholder eval k r)) ∧
    (∀ t : List (String × Value), cloneSubRecord eval t k v =
      (substituteEntries eval k v t, hasPlaceholderEntries eval k t)) ∧
    (∀ t : List Value, cloneSubSet eval t k v =
      (substituteElems eval k v t, hasPlaceholderElems eval k t)) := by
  have key : ∀ n : Nat,
      (∀ r : Value, sizeOf r ≤ n →
        cloneSub eval r k v = (substitute eval k v r, hasPlaceholder eval k r)) ∧
      (∀ t : List (String × Value), sizeOf t ≤ n → cloneSubRecord eval t k v =
        (substituteEntries eval k v t, hasPlaceholderEntries eval k t)) ∧
      (∀ t : List Value, sizeOf t ≤ n → cloneSubSet eval t k v =
        (substituteElems eval k v t, hasPlaceholderElems eval k t)) := by
    intro n
    induction n with
    | zero =>
      refine ⟨?_, ?_, ?_⟩
      · intro r hr; cases r <;> simp at hr
      · intro t ht; cases t <;> simp at ht
      · intro t ht; cases t <;> simp at ht
    | succ n ih =>
      obtain ⟨ih1, ih2, ih3⟩ := ih
      refine ⟨?_, ?_, ?_⟩
      · intro r hr
        cases r with
        | entityUID t =>
          unfold cloneSub substitute hasPlaceholder
          cases ht : eval.ToVariable t with
          | none => simp
          | some key =>
            by_cases hk : key = k
            · simp [hk]
            · simp [hk]
        | record es =>
          unfold cloneSub substitute hasPlaceholder
          rw [ih2 es (by simp at hr; omega)]
        | set xs =>
          unfold cloneSub substitute hasPlaceholder
          rw [ih3 xs (by simp at hr; omega)]
        | nil => simp [cloneSub, substitute, hasPlaceholder]
        | boolean b => simp [cloneSub, substitute, hasPlaceholder]
        | long i => simp [cloneSub, substitute, hasPlaceholder]
        | string s => simp [cloneSub, substitute, hasPlaceholder]
        | extension c => simp [cloneSub, substitute, hasPlaceholder]
      · intro t ht
        cases t with
        | nil => simp [cloneSubRecord, substituteEntries, hasPlaceholderEntries]
        | cons e rest =>
          obtain ⟨kk, vv⟩ := e
          unfold cloneSubRecord substituteEntries hasPlaceholderEntries
          simp only [List.cons.sizeOf_spec, Prod.mk.sizeOf_spec] at ht
          rw [ih1 vv (by omega), ih2 rest (by omega)]
          cases hd : hasPlaceholder eval k vv
          · simp [(substitute_noop eval k v).1 vv hd]
          · simp
      · intro t ht
        cases t with
        | nil => simp [cloneSubSet, substituteElems, hasPlaceholderElems]
        | cons vv rest =>
          unfold cloneSubSet substituteElems hasPlaceholderElems
          simp only [List.cons.sizeOf_spec] at ht
          rw [ih1 vv (by omega), ih3 rest (by omega)]
          cases hd : hasPlaceholder eval k vv
          · simp [(substitute_noop eval k v).1 vv hd]
          · simp
  exact ⟨fun r => (key (sizeOf r)).1 r le_rfl, fun t => (key (sizeOf t)).2.1 t le_rfl,
    fun t => (key (sizeOf t)).2.2 t le_rfl⟩

theorem substituteEntries_eq_map (eval : EvalAPI Entities Body) (k : String) (v : Value)
    (t : List (String × Value)) :
    substituteEntries eval k v t = t.map (fun e => (e.1, substitute eval k v e.2)) := by
  induction t with
  | nil => rfl
  | cons e rest ih => obtain ⟨kk, vv⟩ := e; simp [substituteEntries, ih]

theorem substituteElems_eq_map (eval : EvalAPI Entities Body) (k : String) (v : Value)
    (t : List Value) : substituteElems eval k v t = t.map (substitute eval k v) := by
  induction t with
  | nil => rfl
  | cons e rest ih => simp [substituteElems, ih]

theorem leaves_values (eval : EvalAPI Entities Body) (entityMap : Entities) :
    ∀ (vars : List variableItem) (ps : List (idPolicy Body)) (request : batchRequestState)
      (vals : Values), (vars.map (fun u => u.Key)).Nodup →
      (∀ u ∈ vars, u.Key ∉ vals.map Prod.fst) →
      (leaves eval entityMap vars ps request vals).map (fun l => l.Values) =
        (bindings vars).map (fun m => vals ++ m) := by
  intro vars
  induction vars with
  | nil => intro ps request vals _ _; simp [leaves, bindings]
  | cons u uks ih =>
    intro ps request vals hnd hfresh
    rw [List.map_cons, List.nodup_cons] at hnd
    have hku : u.Key ∉ vals.map Prod.fst := hfresh u (List.mem_cons_self _ _)
    simp only [leaves, bindings, List.map_flatMap, List.map_map]
    congr 1
    funext v
    have hset : vals.set u.Key v = vals ++ [(u.Key, v)] := by
      rw [Values.set_eq, Values.delete_of_not_mem _ _ hku]
    rw [ih _ _ _ hnd.2 (by
      intro w hw hmem
      rw [hset, List.map_append, List.mem_append] at hmem
      rcases hmem with hmem | hmem
      · exact hfresh w (List.mem_cons_of_mem _ hw) hmem
      · simp only [List.map_cons, List.map_nil, List.mem_singleton] at hmem
        exact hnd.1 (hmem ▸ List.mem_map_of_mem (fun u => u.Key) hw)), hset]
    apply List.map_congr_left
    intro m _
    simp

theorem mem_bindings : ∀ (vars : List variableItem) (m : Values), m ∈ bindings vars →
    m.map Prod.fst = vars.map (fun u => u.Key) ∧
    ∀ e ∈ m, ∃ u ∈ vars, u.Key = e.1 ∧ e.2 ∈ u.Values := by
  intro vars
  induction vars with
  | nil => intro m hm; simp [bindings] at hm; simp [hm]
  | cons u uks ih =>
    intro m hm
    simp only [bindings, List.mem_flatMap, List.mem_map] at hm
    obtain ⟨v, hv, m', hm', rfl⟩ := hm
    obtain ⟨h1, h2⟩ := ih m' hm'
    refine ⟨by simp [h1], ?_⟩
    intro e he
    rcases List.mem_cons.mp he with he | he
    · exact ⟨u, List.mem_cons_self _ _, by rw [he], by rw [he]; exact hv⟩
    · obtain ⟨w, hw, hk, hvv⟩ := h2 e he
      exact ⟨w, List.mem_cons_of_mem _ hw, hk, hvv⟩

theorem map_values_of_prefix (eval : EvalAPI Entities Body) (entityMap : Entities) :
    ∀ (cs : List Result) (ls : List (Leaf Body)),
      cs.map Except.ok <+: ls.map (leafResult eval entityMap) →
      cs.map (fun r => r.Values) <+: ls.map (fun l => l.Values) := by
  intro cs
  induction cs with
  | nil => intro ls _; exact List.nil_prefix
  | cons c cs ih =>
    intro ls h
    cases ls with
    | nil => simp at h
    | cons l ls =>
      simp only [List.map_cons] at h ⊢
      rw [List.cons_prefix_cons] at h ⊢
      exact ⟨(leafResult_ok eval entityMap l c h.1.symm).1, ih ls h.2⟩

theorem map_values_of_eq (eval : EvalAPI Entities Body) (entityMap : Entities) :
    ∀ (cs : List Result) (ls : List (Leaf Body)),
      cs.map Except.ok = ls.map (leafResult eval entityMap) →
      cs.map (fun r => r.Values) = ls.map (fun l => l.Values) := by
  intro cs
  induction cs with
  | nil => intro ls h; cases ls <;> simp at h ⊢
  | cons c cs ih =>
    intro ls h
    cases ls with
    | nil => simp at h
    | cons l ls =>
      simp only [List.map_cons, List.cons.injEq] at h ⊢
      exact ⟨(leafResult_ok eval entityMap l c h.1.symm).1, ih ls h.2⟩

theorem rootLeaves_values (eval : EvalAPI Entities Body)
    (SortFunc : List variableItem → (variableItem → variableItem → Int) → List variableItem)
    (policies : List (Policy Body)) (entityMap : Entities)
    (request : Request) (hwf : request.WellFormed)
    (hsort : (SortFunc request.Variables lenCmp).Perm request.Variables) :
    (rootLeaves eval SortFunc policies entityMap request).map (fun l => l.Values) =
      bindings (SortFunc request.Variables lenCmp) := by
  unfold rootLeaves
  rw [leaves_values eval entityMap _ _ _ _
    (((hsort.map (fun u => u.Key)).nodup_iff).mpr (by unfold Request.WellFormed at hwf; exact hwf))
    (by simp)]
  simp

theorem insertionSortFunc_contract (x : List variableItem) :
    (insertionSortFunc x lenCmp).Perm x ∧
    (insertionSortFunc x lenCmp).Pairwise (fun a b => lenCmp a b ≤ 0) := by
  haveI : IsTotal variableItem (fun a b => lenCmp a b ≤ 0) :=
    ⟨fun a b => by unfold lenCmp; omega⟩
  haveI : IsTrans variableItem (fun a b => lenCmp a b ≤ 0) :=
    ⟨fun a b c => by unfold lenCmp; omega⟩
  exact ⟨List.perm_insertionSort _ _, List.sorted_insertionSort _ _⟩

theorem sorted_unique (l₁ l₂ vars : List variableItem)
    (hdistinct : (vars.map (fun u => u.Values.length)).Nodup)
    (hp₁ : l₁.Perm vars) (hp₂ : l₂.Perm vars)
    (hs₁ : l₁.Pairwise (fun a b => lenCmp a b ≤ 0))
    (hs₂ : l₂.Pairwise (fun a b => lenCmp a b ≤ 0)) : l₁ = l₂ := by
  refine List.Perm.eq_of_sorted ?_ hs₁ hs₂ (hp₁.trans hp₂.symm)
  intro a b ha hb hab hba
  have hlen : a.Values.length = b.Values.length := by
    unfold lenCmp at hab hba; omega
  exact List.inj_on_of_nodup_map hdistinct (hp₁.subset ha) (hp₂.subset hb) hlen

theorem sorted_strict (l vars : List variableItem)
    (hdistinct : (vars.map (fun u => u.Values.length)).Nodup)
    (hp : l.Perm vars) (hs : l.Pairwise (fun a b => lenCmp a b ≤ 0)) :
    l.Pairwise (fun a b => a.Values.length < b.Values.length) := by
  have hnd : (l.map (fun u => u.Values.length)).Nodup :=
    ((hp.map (fun u => u.Values.length)).nodup_iff).mpr hdistinct
  have hne : l.Pairwise (fun a b => a.Values.length ≠ b.Values.length) := by
    unfold List.Nodup at hnd
    exact List.pairwise_map.mp hnd
  refine (hs.and hne).imp ?_
  intro a b ⟨h1, h2⟩
  unfold lenCmp at h1
  omega

theorem Value.induction_on (P : Value → Prop)
    (hnil : P .nil) (hbool : ∀ b, P (.boolean b)) (hlong : ∀ i, P (.long i))
    (hstring : ∀ s, P (.string s)) (hent : ∀ t, P (.entityUID t))
    (hrec : ∀ entries : List (String × Value), (∀ e ∈ entries, P e.2) → P (.record entries))
    (hset : ∀ elems : List Value, (∀ x ∈ elems, P x) → P (.set elems))
    (hext : ∀ c, P (.extension c)) : ∀ r, P r := by
  have key : ∀ n : Nat, ∀ r : Value, sizeOf r ≤ n → P r := by
    intro n
    induction n with
    | zero => intro r hr; cases r <;> simp at hr
    | succ n ih =>
      intro r hr
      cases r with
      | nil => exact hnil
      | boolean b => exact hbool b
      | long i => exact hlong i
      | string s => exact hstring s
      | entityUID t => exact hent t
      | extension c => exact hext c
      | record es =>
        apply hrec
        intro e he
        apply ih
        have h1 := List.sizeOf_lt_of_mem he
        have h2 : sizeOf e.2 < sizeOf e := by
          obtain ⟨a, b⟩ := e
          simp only [Prod.mk.sizeOf_spec]
          omega
        simp only [Value.record.sizeOf_spec] at hr
        omega
      | set xs =>
        apply hset
        intro x hx
        apply ih
        have h1 := List.sizeOf_lt_of_mem hx
        simp only [Value.set.sizeOf_spec] at hr
        omega
  exact fun r => key (sizeOf r) r le_rfl

theorem substAllEntries_eq_map (eval : EvalAPI Entities Body) (m : Values)
    (t : List (String × Value)) :
    substAllEntries eval m t = t.map (fun e => (e.1, substAll eval m e.2)) := by
  induction t with
  | nil => rfl
  | cons e rest ih => obtain ⟨kk, vv⟩ := e; simp [substAllEntries, ih]

theorem substAllElems_eq_map (eval : EvalAPI Entities Body) (m : Values)
    (t : List Value) : substAllElems eval m t = t.map (substAll eval m) := by
  induction t with
  | nil => rfl
  | cons e rest ih => simp [substAllElems, ih]

theorem anyPlaceholderEntries_eq_false (eval : EvalAPI Entities Body)
    (t : List (String × Value)) :
    anyPlaceholderEntries eval t = false ↔ ∀ e ∈ t, anyPlaceholder eval e.2 = false := by
  induction t with
  | nil => simp [anyPlaceholderEntries]
  | cons e rest ih => obtain ⟨kk, vv⟩ := e; simp [anyPlaceholderEntries, ih]

theorem anyPlaceholderElems_eq_false (eval : EvalAPI Entities Body) (t : List Value) :
    anyPlaceholderElems eval t = false ↔ ∀ x ∈ t, anyPlaceholder eval x = false := by
  induction t with
  | nil => simp [anyPlaceholderElems]
  | cons e rest ih => simp [anyPlaceholderElems, ih]

theorem substAll_nil (eval : EvalAPI Entities Body) : ∀ r, substAll eval [] r = r := by
  apply Value.induction_on
  · rfl
  · intro b; rfl
  · intro i; rfl
  · intro s; rfl
  · intro t
    unfold substAll
    cases eval.ToVariable t <;> simp [Values.get?]
  · intro es ih
    unfold substAll
    rw [substAllEntries_eq_map]
    congr 1
    conv_rhs => rw [← List.map_id es]
    apply List.map_congr_left
    intro e he
    rw [ih e he]
    rfl
  · intro xs ih
    unfold substAll
    rw [substAllElems_eq_map]
    congr 1
    conv_rhs => rw [← List.map_id xs]
    exact List.map_congr_left (fun x hx => by rw [ih x hx]; rfl)
  · intro c; rfl

theorem substAll_closed (eval : EvalAPI Entities Body) (m : Values) :
    ∀ r, anyPlaceholder eval r = false → substAll eval m r = r := by
  apply Value.induction_on
  · intro _; rfl
  · intro b _; rfl
  · intro i _; rfl
  · intro s _; rfl
  · intro t ht
    unfold anyPlaceholder at ht
    unfold substAll
    cases hv : eval.ToVariable t with
    | none => rfl
    | some key => rw [hv] at ht; simp at ht
  · intro es ih hes
    unfold anyPlaceholder at hes
    rw [anyPlaceholderEntries_eq_false] at hes
    unfold substAll
    rw [substAllEntries_eq_map]
    congr 1
    conv_rhs => rw [← List.map_id es]
    apply List.map_congr_left
    intro e he
    rw [ih e he (hes e he)]
    rfl
  · intro xs ih hxs
    unfold anyPlaceholder at hxs
    rw [anyPlaceholderElems_eq_false] at hxs
    unfold substAll
    rw [substAllElems_eq_map]
    congr 1
    conv_rhs => rw [← List.map_id xs]
    exact List.map_congr_left (fun x hx => by rw [ih x hx (hxs x hx)]; rfl)
  · intro c _; rfl

theorem substAll_cons (eval : EvalAPI Entities Body) (k : String) (v : Value)
    (m : Values) (hv : anyPlaceholder eval v = false) :
    ∀ r, substAll eval ((k, v) :: m) r = substAll eval m (substitute eval k v r) := by
  apply Value.induction_on
  · rfl
  · intro b; rfl
  · intro i; rfl
  · intro s; rfl
  · intro t
    unfold substitute
    cases ht : eval.ToVariable t with
    | none => simp [substAll, ht]
    | some key =>
      by_cases hk : key = k
      · subst hk
        simp [substAll, ht, Values.get?, substAll_closed eval m v hv]
      · have hk' : ¬ k = key := fun h => hk h.symm
        simp [substAll, ht, Values.get?, hk, hk', List.find?_cons]
  · intro es ih
    unfold substitute substAll
    rw [substAllEntries_eq_map, substituteEntries_eq_map, substAllEntries_eq_map,
      List.map_map]
    congr 1
    apply List.map_congr_left
    intro e he
    simp [ih e he]
  · intro xs ih
    unfold substitute substAll
    rw [substAllElems_eq_map, substituteElems_eq_map, substAllElems_eq_map, List.map_map]
    congr 1
    exact List.map_congr_left (fun x hx => by simp [ih x hx])
  · intro c; rfl

theorem childState_eq (eval : EvalAPI Entities Body) (request : batchRequestState)
    (k : String) (v : Value) :
    childState eval request k v =
      { Principal := substitute eval k v request.Principal,
        Action := substitute eval k v request.Action,
        Resource := substitute eval k v request.Resource,
        Context := substitute eval k v request.Context } := by
  have h : ∀ r : Value, (if (cloneSub eval r k .nil).2 = true then (cloneSub eval r k v).1
      else r) = substitute eval k v r := by
    intro r
    rw [(cloneSub_spec eval k .nil).1 r, (cloneSub_spec eval k v).1 r]
    cases hp : hasPlaceholder eval k r
    · simp [(substitute_noop eval k v).1 r hp]
    · simp
  unfold childState
  simp only [h]

theorem fillIgnores_noop (eval : EvalAPI Entities Body) (request : batchRequestState)
    (h : NoIgnore eval request) : fillIgnores eval request = request := by
  obtain ⟨h1, h2, h3, h4⟩ := h
  unfold fillIgnores
  simp [h1, h2, h3, h4]

theorem isIgnore_substitute (eval : EvalAPI Entities Body)
    (hrec : ∀ entries, eval.IsIgnore (.record entries) = false)
    (hset : ∀ elems, eval.IsIgnore (.set elems) = false)
    (k : String) (v : Value) (hv : eval.IsIgnore v = false) (r : Value)
    (hr : eval.IsIgnore r = false) : eval.IsIgnore (substitute eval k v r) = false := by
  cases r with
  | entityUID t =>
    unfold substitute
    split
    · exact hv
    · exact hr
  | record es => unfold substitute; exact hrec _
  | set xs => unfold substitute; exact hset _
  | nil => exact hr
  | boolean b => exact hr
  | long i => exact hr
  | string s => exact hr
  | extension c => exact hr

theorem leaves_request (eval : EvalAPI Entities Body) (entityMap : Entities)
    (hrec : ∀ entries, eval.IsIgnore (.record entries) = false)
    (hset : ∀ elems, eval.IsIgnore (.set elems) = false) :
    ∀ (vars : List variableItem) (ps : List (idPolicy Body)) (request : batchRequestState)
      (vals : Values), (vars.map (fun u => u.Key)).Nodup →
      (∀ u ∈ vars, u.Key ∉ vals.map Prod.fst) →
      (∀ u ∈ vars, ∀ v ∈ u.Values,
        anyPlaceholder eval v = false ∧ eval.IsIgnore v = false) →
      NoIgnore eval request →
      ∀ l ∈ leaves eval entityMap vars ps request vals,
        ∃ bs : Values, l.Values = vals ++ bs ∧
          l.request = substRequest eval bs request := by
  intro vars
  induction vars with
  | nil =>
    intro ps request vals _ _ _ _ l hl
    simp only [leaves, List.mem_singleton] at hl
    subst hl
    refine ⟨[], by simp, ?_⟩
    simp [substRequest, substAll_nil]
  | cons u uks ih =>
    intro ps request vals hnd hfresh hcand hni l hl
    simp only [leaves, List.mem_flatMap] at hl
    obtain ⟨v, hv, hl⟩ := hl
    have hreq : (if (u :: uks).length = 1 then fillIgnores eval request else request) =
        request := by
      split
      · exact fillIgnores_noop eval request hni
      · rfl
    rw [hreq] at hl
    rw [List.map_cons, List.nodup_cons] at hnd
    obtain ⟨hclosed, hnoig⟩ := hcand u (List.mem_cons_self _ _) v hv
    have hni' : NoIgnore eval (childState eval request u.Key v) := by
      rw [childState_eq]
      obtain ⟨h1, h2, h3, h4⟩ := hni
      exact ⟨isIgnore_substitute eval hrec hset _ _ hnoig _ h1,
        isIgnore_substitute eval hrec hset _ _ hnoig _ h2,
        isIgnore_substitute eval hrec hset _ _ hnoig _ h3,
        isIgnore_substitute eval hrec hset _ _ hnoig _ h4⟩
    have hku : u.Key ∉ vals.map Prod.fst := hfresh u (List.mem_cons_self _ _)
    have hsetv : vals.set u.Key v = vals ++ [(u.Key, v)] := by
      rw [Values.set_eq, Values.delete_of_not_mem _ _ hku]
    rw [hsetv] at hl
    obtain ⟨bs, hbs, hlr⟩ := ih _ (childState eval request u.Key v) (vals ++ [(u.Key, v)])
      hnd.2 (by
        intro w hw hmem
        rw [List.map_append, List.mem_append] at hmem
        rcases hmem with hmem | hmem
        · exact hfresh w (List.mem_cons_of_mem _ hw) hmem
        · simp only [List.map_cons, List.map_nil, List.mem_singleton] at hmem
          exact hnd.1 (hmem ▸ List.mem_map_of_mem (fun u => u.Key) hw))
      (fun w hw => hcand w (List.mem_cons_of_mem _ hw)) hni' l hl
    refine ⟨(u.Key, v) :: bs, by rw [hbs]; simp, ?_⟩
    rw [hlr, childState_eq]
    simp [substRequest, substAll_cons eval u.Key v bs hclosed]

theorem hasPlaceholderEntries_eq_any (eval : EvalAPI Entities Body) (k : String)
    (t : List (String × Value)) :
    hasPlaceholderEntries eval k t = t.any (fun e => hasPlaceholder eval k e.2) := by
  induction t with
  | nil => rfl
  | cons e rest ih => obtain ⟨kk, vv⟩ := e; simp [hasPlaceholderEntries, ih]

theorem hasPlaceholderElems_eq_any (eval : EvalAPI Entities Body) (k : String)
    (t : List Value) :
    hasPlaceholderElems eval k t = t.any (fun x => hasPlaceholder eval k x) := by
  induction t with
  | nil => rfl
  | cons e rest ih => simp [hasPlaceholderElems, ih]

theorem map_ok_delivered (os : List (Except Error Result)) (h : firstErr os = none) :
    (delivered os).map Except.ok = os := by
  induction os with
  | nil => rfl
  | cons o os ih =>
    cases o with
    | error e => simp [firstErr] at h
    | ok r => simp only [firstErr] at h; simp [delivered, ih h]

theorem prefix_before_error (cs : List Result) (A B : List (Except Error Result))
    (e : Error) (h : cs.map Except.ok <+: A ++ Except.error e :: B) :
    cs.map Except.ok <+: A := by
  rcases List.prefix_or_prefix_of_prefix h (List.prefix_append A _) with h1 | h1
  · exact h1
  · obtain ⟨t, ht⟩ := h1
    rw [← ht] at h
    have h2 : t <+: Except.error e :: B := (List.prefix_append_right_inj A).mp h
    cases t with
    | nil => rw [← ht]; simp
    | cons x t =>
      rw [List.cons_prefix_cons] at h2
      have hmem : x ∈ cs.map Except.ok := by rw [← ht]; simp
      rw [h2.1, List.mem_map] at hmem
      obtain ⟨r, _, hr⟩ := hmem
      exact absurd hr (by simp)

theorem leafResult_error_iff (eval : EvalAPI Entities Body) (entityMap : Entities)
    (l : Leaf Body) (err : Error) :
    leafResult eval entityMap l = .error err ↔
      buildResultEnv eval entityMap l.request l.Values = .error err := by
  unfold leafResult
  cases h : buildResultEnv eval entityMap l.request l.Values with
  | error e => simp
  | ok re => simp

theorem substitute_congr (eval eval' : EvalAPI Entities Body)
    (hT : eval'.ToVariable = eval.ToVariable) (k : String) (v : Value) :
    ∀ r, substitute eval' k v r = substitute eval k v r := by
  apply Value.induction_on
  · rfl
  · intro b; rfl
  · intro i; rfl
  · intro s; rfl
  · intro t; simp [substitute, hT]
  · intro es ih
    unfold substitute
    rw [substituteEntries_eq_map, substituteEntries_eq_map]
    congr 1
    apply List.map_congr_left
    intro e he
    rw [ih e he]
  · intro xs ih
    unfold substitute
    rw [substituteElems_eq_map, substituteElems_eq_map]
    congr 1
    exact List.map_congr_left (fun x hx => ih x hx)
  · intro c; rfl

theorem childState_congr (eval eval' : EvalAPI Entities Body)
    (hT : eval'.ToVariable = eval.ToVariable) (request : batchRequestState) (k : String)
    (v : Value) : childState eval' request k v = childState eval request k v := by
  rw [childState_eq, childState_eq]
  simp only [substitute_congr eval eval' hT]

theorem fillIgnores_congr (eval eval' : EvalAPI Entities Body)
    (hI : eval'.IsIgnore = eval.IsIgnore) (request : batchRequestState) :
    fillIgnores eval' request = fillIgnores eval request := by
  unfold fillIgnores
  rw [hI]

theorem prunePolicies_congr (eval eval' : EvalAPI Entities Body)
    (hP : eval'.PartialPolicy = eval.PartialPolicy) (entityMap : Entities)
    (request : batchRequestState) (ps : List (idPolicy Body)) :
    prunePolicies eval' entityMap request ps = prunePolicies eval entityMap request ps := by
  unfold prunePolicies
  rw [hP]

theorem buildResultEnv_congr (eval eval' : EvalAPI Entities Body)
    (hE : eval'.ValueToEntity = eval.ValueToEntity)
    (hR : eval'.ValueToRecord = eval.ValueToRecord) (entityMap : Entities)
    (request : batchRequestState) (vals : Values) :
    buildResultEnv eval' entityMap request vals =
      buildResultEnv eval entityMap request vals := by
  unfold buildResultEnv
  rw [hE, hR]

theorem buildResultEnv_env (eval : EvalAPI Entities Body) (entityMap : Entities)
    (request : batchRequestState) (vals : Values) (res : Result) (env : Env Entities)
    (h : buildResultEnv eval entityMap request vals = .ok (res, env)) :
    env = envOf entityMap request := by
  unfold buildResultEnv at h
  cases h1 : eval.ValueToEntity request.Principal <;>
  cases h2 : eval.ValueToEntity request.Action <;>
  cases h3 : eval.ValueToEntity request.Resource <;>
  cases h4 : eval.ValueToRecord request.Context <;>
  simp [h1, h2, h3, h4] at h
  exact h.2.symm

theorem doBatch_congr (eval eval' : EvalAPI Entities Body)
    (hT : eval'.ToVariable = eval.ToVariable) (hI : eval'.IsIgnore = eval.IsIgnore)
    (hE : eval'.ValueToEntity = eval.ValueToEntity)
    (hR : eval'.ValueToRecord = eval.ValueToRecord)
    (hP : eval'.PartialPolicy = eval.PartialPolicy)
    (hD : ∀ ps env, leafDecision eval' ps env = leafDecision eval ps env)
    (ctx : Nat → Option Error) (entityMap : Entities) :
    ∀ (vars : List variableItem) (be₁ be₂ : batchEvaler Entities Body)
      (request : batchRequestState) (h : Heap),
      Compiled eval be₁ → Compiled eval' be₂ → be₂.policies = be₁.policies →
      (doBatch eval ctx entityMap vars be₁ request h).1 =
        (doBatch eval' ctx entityMap vars be₂ request h).1 ∧
      (doBatch eval ctx entityMap vars be₁ request h).2.2 =
        (doBatch eval' ctx entityMap vars be₂ request h).2.2 ∧
      (Compiled eval (doBatch eval ctx entityMap vars be₁ request h).2.1 ∧
        Compiled eval' (doBatch eval' ctx entityMap vars be₂ request h).2.1 ∧
        (doBatch eval' ctx entityMap vars be₂ request h).2.1.policies =
          (doBatch eval ctx entityMap vars be₁ request h).2.1.policies) := by
  intro vars
  induction vars with
  | nil =>
    intro be₁ be₂ request h hb₁ hb₂ hpol
    rw [doBatch, doBatch]
    cases hc : ctx h.polls with
    | some err => exact ⟨rfl, rfl, hb₁, hb₂, hpol⟩
    | none =>
      simp only [diagnosticAuthzWithCallback, buildResultEnv_congr eval eval' hE hR]
      cases hbr : buildResultEnv eval entityMap request h.Values with
      | error err => exact ⟨rfl, rfl, hb₁, hb₂, hpol⟩
      | ok re =>
        obtain ⟨res, env⟩ := re
        dsimp only
        rw [diagnosticAuthz_spec eval be₁ _ hb₁, diagnosticAuthz_spec eval' be₂ _ hb₂,
          hpol, hD]
        refine ⟨rfl, rfl, compiled_batchCompile eval be₁ hb₁,
          compiled_batchCompile eval' be₂ hb₂, ?_⟩
        rw [policies_batchCompile eval be₁ hb₁, policies_batchCompile eval' be₂ hb₂, hpol]
  | cons u uks ih =>
    intro be₁ be₂ request h hb₁ hb₂ hpol
    rw [doBatch, doBatch]
    cases hc : ctx h.polls with
    | some err => exact ⟨rfl, rfl, hb₁, hb₂, hpol⟩
    | none =>
      simp only [prunePolicies_congr eval eval' hP, fillIgnores_congr eval eval' hI,
        childState_congr eval eval' hT, hpol]
      generalize hnp : prunePolicies eval entityMap request be₁.policies = np
      generalize hreq : (if (u :: uks).length = 1 then fillIgnores eval request
        else request) = request'
      have hloop := forValues_rel
        (fun v b h' => doBatch eval ctx entityMap uks b (childState eval request' u.Key v)
          { h' with Values := h'.Values.set u.Key v })
        (fun v b h' => doBatch eval' ctx entityMap uks b (childState eval request' u.Key v)
          { h' with Values := h'.Values.set u.Key v })
        (fun b₁ b₂ => Compiled eval b₁ ∧ Compiled eval' b₂ ∧ b₂.policies = b₁.policies)
        u.Values
        (by
          intro v _ b₁ b₂ h' ⟨hc₁, hc₂, hp₂⟩
          obtain ⟨h1, h2, h3, h4, h5⟩ := ih b₁ b₂ (childState eval request' u.Key v)
            { h' with Values := h'.Values.set u.Key v } hc₁ hc₂ hp₂
          exact ⟨h1, h2, h3, h4, h5⟩)
        { policies := np, compiled := false, forbids := [], permits := [] }
        { policies := np, compiled := false, forbids := [], permits := [] }
        { h with polls := h.polls + 1 }
        ⟨Or.inl ⟨rfl, rfl, rfl⟩, Or.inl ⟨rfl, rfl, rfl⟩, rfl⟩
      obtain ⟨h1, h2, _⟩ := hloop
      rcases ho₁ : forValues
        (fun v b h' => doBatch eval ctx entityMap uks b (childState eval request' u.Key v)
          { h' with Values := h'.Values.set u.Key v })
        u.Values { policies := np, compiled := false, forbids := [], permits := [] }
        { h with polls := h.polls + 1 } with ⟨e₁, c₁, g₁⟩
      rcases ho₂ : forValues
        (fun v b h' => doBatch eval' ctx entityMap uks b (childState eval request' u.Key v)
          { h' with Values := h'.Values.set u.Key v })
        u.Values { policies := np, compiled := false, forbids := [], permits := [] }
        { h with polls := h.polls + 1 } with ⟨e₂, c₂, g₂⟩
      rw [ho₁, ho₂] at h1 h2
      simp only at h1 h2
      subst h1 h2
      cases e₁ with
      | some err => exact ⟨rfl, rfl, hb₁, hb₂, hpol⟩
      | none => exact ⟨rfl, rfl, hb₁, hb₂, hpol⟩

theorem leafDecision_swallowErrors (eval : EvalAPI Entities Body)
    (ps : List (idPolicy Body)) (env : Env Entities) :
    leafDecision (swallowErrors eval) ps env = leafDecision eval ps env := by
  have hs : ∀ p, satisfied (swallowErrors eval) env p = satisfied eval env p := by
    intro p
    unfold satisfied swallowErrors
    dsimp only
    cases hc : eval.Compile p.Policy env <;> simp
  unfold leafDecision reasonsOf satisfiedWith
  simp only [hs]

theorem digitChar_value (m : Nat) (hm : m < 10) : (Nat.digitChar m).toNat - 48 = m := by
  interval_cases m <;> rfl

theorem toDigitsCore_value : ∀ (fuel n : Nat) (ds : List Char), n < fuel →
    digitsValue (Nat.toDigitsCore 10 fuel n ds) = n * 10 ^ ds.length + digitsValue ds := by
  intro fuel
  induction fuel with
  | zero => intro n ds h; omega
  | succ fuel ih =>
    intro n ds h
    have hd := digitChar_value (n % 10) (Nat.mod_lt _ (by norm_num))
    have hn := Nat.div_add_mod n 10
    unfold Nat.toDigitsCore
    by_cases h0 : n / 10 = 0
    · simp only [h0, if_true, digitsValue, hd]
      have : n % 10 = n := by omega
      rw [this]
    · simp only [h0, if_false]
      rw [ih (n / 10) _ (by omega)]
      simp only [digitsValue, hd, List.length_cons, pow_succ]
      have hmul : n * 10 ^ ds.length = (10 * (n / 10) + n % 10) * 10 ^ ds.length := by
        rw [hn]
      rw [hmul]
      ring

theorem toString_nat_injective (a b : Nat) (h : toString a = toString b) : a = b := by
  have h' : Nat.toDigits 10 a = Nat.toDigits 10 b := by
    have := congrArg String.data h
    exact this
  have ha := toDigitsCore_value (a + 1) a [] (by omega)
  have hb := toDigitsCore_value (b + 1) b [] (by omega)
  unfold Nat.toDigits at h'
  rw [h'] at ha
  simp [digitsValue] at ha hb
  omega

theorem numberPolicies_ids (policies : List (Policy Body)) :
    (numberPolicies policies).map (fun p => p.PolicyID) =
      (List.range policies.length).map toString := by
  unfold numberPolicies
  rw [List.map_map, ← List.enum_map_fst, List.map_map]
  rfl

theorem nodup_range_toString (n : Nat) : ((List.range n).map toString).Nodup :=
  (List.nodup_range n).map (fun a b h => toString_nat_injective a b h)

theorem prunePolicies_ids_sublist (eval : EvalAPI Entities Body) (entityMap : Entities)
    (state : batchRequestState) (ps : List (idPolicy Body)) :
    ((prunePolicies eval entityMap state ps).map (fun p => p.PolicyID)).Sublist
      (ps.map (fun p => p.PolicyID)) := by
  induction ps with
  | nil => exact List.Sublist.refl _
  | cons p ps ih =>
    rw [prunePolicies_cons]
    cases (eval.PartialPolicy (envOf entityMap state) p.Policy).2.1 with
    | true => simpa using ih
    | false => simpa using List.Sublist.cons _ ih

theorem survivors_ids_sublist (eval : EvalAPI Entities Body) (entityMap : Entities)
    (path : List batchRequestState) :
    ∀ ps : List (idPolicy Body),
      ((survivors eval entityMap path ps).map (fun p => p.PolicyID)).Sublist
        (ps.map (fun p => p.PolicyID)) := by
  induction path with
  | nil => intro ps; exact List.Sublist.refl _
  | cons state path ih =>
    intro ps
    unfold survivors at ih ⊢
    rw [List.foldl_cons]
    exact (ih _).trans (prunePolicies_ids_sublist eval entityMap state ps)

theorem leaves_ids_sublist (eval : EvalAPI Entities Body) (entityMap : Entities) :
    ∀ (vars : List variableItem) (ps : List (idPolicy Body)) (request : batchRequestState)
      (vals : Values), ∀ l ∈ leaves eval entityMap vars ps request vals,
      (l.policies.map (fun p => p.PolicyID)).Sublist (ps.map (fun p => p.PolicyID)) := by
  intro vars
  induction vars with
  | nil =>
    intro ps request vals l hl
    simp only [leaves, List.mem_singleton] at hl
    rw [hl]
  | cons u uks ih =>
    intro ps request vals l hl
    simp only [leaves, List.mem_flatMap] at hl
    obtain ⟨v, _, hl⟩ := hl
    exact (ih _ _ _ l hl).trans (prunePolicies_ids_sublist eval entityMap request ps)

theorem reasons_of_leafDecision (eval : EvalAPI Entities Body) (ps : List (idPolicy Body))
    (env : Env Entities) :
    ∀ r ∈ (leafDecision eval ps env).2.Reasons,
      ∃ q ∈ ps, eval.Compile q.Policy env = .ok true ∧ r = ⟨q.PolicyID⟩ := by
  intro r hr
  unfold leafDecision at hr
  split at hr
  · simp only [reasonsOf, List.mem_map] at hr
    obtain ⟨q, hq, rfl⟩ := hr
    rw [mem_satisfiedWith] at hq
    exact ⟨q, hq.1, hq.2.2, rfl⟩
  · split at hr
    · simp only [reasonsOf, List.mem_map] at hr
      obtain ⟨q, hq, rfl⟩ := hr
      rw [mem_satisfiedWith] at hq
      exact ⟨q, hq.1, hq.2.2, rfl⟩
    · simp at hr

theorem forValues_inv (child : Value → batchEvaler Entities Body → Heap →
      Option Error × batchEvaler Entities Body × Heap) (Inv : Heap → Prop)
    (hchild : ∀ v b h, Inv h → (child v b h).1 = none → Inv (child v b h).2.2) :
    ∀ (vs : List Value) (b : batchEvaler Entities Body) (h : Heap), Inv h →
      (forValues child vs b h).1 = none → Inv (forValues child vs b h).2.2 := by
  intro vs
  induction vs with
  | nil => intro b h hi _; exact hi
  | cons v vs ih =>
    intro b h hi hok
    have h1 := hchild v b h hi
    rcases hout : child v b h with ⟨e, b1, h1'⟩
    rw [hout] at h1
    cases e with
    | some err =>
      have hfv : forValues child (v :: vs) b h = (some err, b1, h1') := by
        simp [forValues, hout]
      rw [hfv] at hok
      simp at hok
    | none =>
      have hfv : forValues child (v :: vs) b h = forValues child vs b1 h1' := by
        simp [forValues, hout]
      rw [hfv] at hok ⊢
      exact ih b1 h1' (h1 rfl) hok

theorem doBatch_values (eval : EvalAPI Entities Body) (ctx : Nat → Option Error)
    (entityMap : Entities) :
    ∀ (vars : List variableItem) (be : batchEvaler Entities Body)
      (request : batchRequestState) (h : Heap),
      (doBatch eval ctx entityMap vars be request h).1 = none →
      (doBatch eval ctx entityMap vars be request h).2.2.Values.Sublist h.Values ∧
      (doBatch eval ctx entityMap vars be request h).2.2.Values.filter
          (fun e => decide (e.1 ∉ vars.map (fun u => u.Key))) =
        h.Values.filter (fun e => decide (e.1 ∉ vars.map (fun u => u.Key))) := by
  intro vars
  induction vars with
  | nil =>
    intro be request h hok
    rw [doBatch] at hok ⊢
    cases hc : ctx h.polls with
    | some err => rw [hc] at hok; simp at hok
    | none =>
      simp only [diagnosticAuthzWithCallback]
      cases hbr : buildResultEnv eval entityMap request h.Values with
      | error err =>
        rw [hc] at hok
        simp [diagnosticAuthzWithCallback, hbr] at hok
      | ok re => exact ⟨List.Sublist.refl _, rfl⟩
  | cons u uks ih =>
    intro be request h hok
    rw [doBatch] at hok ⊢
    cases hc : ctx h.polls with
    | some err => rw [hc] at hok; simp at hok
    | none =>
      rw [hc] at hok
      dsimp only at hok ⊢
      generalize hnp : prunePolicies eval entityMap request be.policies = np at hok ⊢
      generalize hreq : (if (u :: uks).length = 1 then fillIgnores eval request
        else request) = request' at hok ⊢
      have hloop := forValues_inv
        (fun v b h' => doBatch eval ctx entityMap uks b (childState eval request' u.Key v)
          { h' with Values := h'.Values.set u.Key v })
        (fun cur => (cur.Values.delete u.Key).Sublist (h.Values.delete u.Key) ∧
          (cur.Values.delete u.Key).filter
              (fun e => decide (e.1 ∉ uks.map (fun u => u.Key))) =
            (h.Values.delete u.Key).filter
              (fun e => decide (e.1 ∉ uks.map (fun u => u.Key))))
        (by
          intro v b cur ⟨hi1, hi2⟩ hcok
          obtain ⟨h1, h2⟩ := ih b (childState eval request' u.Key v)
            { cur with Values := cur.Values.set u.Key v } hcok
          dsimp only at h1 h2 ⊢
          refine ⟨?_, ?_⟩
          · have := h1.filter (fun e => decide (e.1 ≠ u.Key))
            rw [show List.filter (fun e => decide (e.1 ≠ u.Key)) (cur.Values.set u.Key v) =
              (cur.Values.set u.Key v).delete u.Key from rfl, Values.delete_set] at this
            exact this.trans hi1
          · have := congrArg (List.filter (fun e => decide (e.1 ≠ u.Key))) h2
            rw [List.filter_comm] at this
            rw [show List.filter (fun e => decide (e.1 ≠ u.Key))
                (List.filter (fun e => decide (e.1 ∉ uks.map (fun u => u.Key)))
                  (cur.Values.set u.Key v)) =
              List.filter (fun e => decide (e.1 ∉ uks.map (fun u => u.Key)))
                ((cur.Values.set u.Key v).delete u.Key) from List.filter_comm _ _ _,
              Values.delete_set] at this
            exact this.trans hi2)
        u.Values { policies := np, compiled := false, forbids := [], permits := [] }
        { h with polls := h.polls + 1 } ⟨List.Sublist.refl _, rfl⟩
      rcases hout : forValues
        (fun v b h' => doBatch eval ctx entityMap uks b (childState eval request' u.Key v)
          { h' with Values := h'.Values.set u.Key v })
        u.Values { policies := np, compiled := false, forbids := [], permits := [] }
        { h with polls := h.polls + 1 } with ⟨e, b1, h1⟩
      rw [hout] at hloop hok
      cases e with
      | some err => simp at hok
      | none =>
        obtain ⟨h1', h2'⟩ := hloop rfl
        dsimp only at h1' h2' ⊢
        refine ⟨h1'.trans (List.filter_sublist _), ?_⟩
        have hsplit : ∀ m : Values,
            m.filter (fun e => decide (e.1 ∉ (u :: uks).map (fun u => u.Key))) =
              (m.delete u.Key).filter (fun e => decide (e.1 ∉ uks.map (fun u => u.Key))) := by
          intro m
          unfold Values.delete
          rw [List.filter_filter]
          apply List.filter_congr
          intro e _
          by_cases hk : e.1 = u.Key <;> simp [hk]
        rw [hsplit, hsplit, ← h2']
        congr 1
        unfold Values.delete
        rw [List.filter_filter]
        simp

theorem MapSet.Contains_iff {T : Type} [Comparable T] (o : MapSet T) (x : T) :
    o.Contains x = true ↔ ∃ b ∈ o.m, Comparable.eq b x = true := by
  unfold MapSet.Contains
  rw [List.any_eq_true]

theorem MapSet.containsAll_iff {T : Type} [Comparable T] (o : MapSet T) (l : List T) :
    MapSet.containsAll o l = true ↔ ∀ x ∈ l, o.Contains x = true := by
  induction l with
  | nil => simp [MapSet.containsAll]
  | cons a l ih =>
    unfold MapSet.containsAll
    cases ha : o.Contains a
    · simp [ha]
    · simp [ha, ih]

theorem MapSet.Equal_iff_length_subset {T : Type} [Comparable T] (h o : MapSet T) :
    h.Equal o = true ↔
      h.m.length = o.m.length ∧ ∀ a ∈ h.m, ∃ b ∈ o.m, Comparable.eq b a = true := by
  unfold MapSet.Equal
  by_cases hl : h.m.length = o.m.length
  · simp only [hl, ne_eq, not_true_eq_false, if_false, true_and, MapSet.containsAll_iff,
      MapSet.Contains_iff]
  · simp [hl]

theorem MapSet.distinctKeys_Add {T : Type} [Comparable T] (h : MapSet T) (item : T)
    (hh : h.DistinctKeys) : (h.Add item).1.DistinctKeys := by
  unfold MapSet.DistinctKeys MapSet.Add at *
  cases hi : h.m.any (fun k => Comparable.eq k item)
  · simp only [Bool.false_eq_true, if_false]
    rw [List.pairwise_append]
    refine ⟨hh, List.pairwise_singleton _ _, ?_⟩
    intro a ha b hb
    rw [List.mem_singleton] at hb
    subst hb
    rw [List.any_eq_false] at hi
    simpa using hi a ha
  · simpa using hh

theorem MapSet.distinctKeys_FromSlice {T : Type} [Comparable T] (items : List T) :
    (MapSet.FromSlice items).DistinctKeys := by
  have key : ∀ (l : List T) (h : MapSet T), h.DistinctKeys →
      (l.foldl (fun h i => (h.Add i).1) h).DistinctKeys := by
    intro l
    induction l with
    | nil => intro h hh; exact hh
    | cons a l ih => intro h hh; exact ih _ (MapSet.distinctKeys_Add h a hh)
  exact key items MapSet.Make List.Pairwise.nil

/-- Keys that are pairwise different and each `==` to some item of a second list are no
more than the items of that list; and when they are as many, every item of the second list
is `==` to one of the keys. -/
theorem MapSet.keys_count {T : Type} [Comparable T] :
    ∀ (hl ol : List T), hl.Pairwise (fun a b => Comparable.eq a b = false) →
      (∀ a ∈ hl, ∃ b ∈ ol, Comparable.eq b a = true) →
      hl.length ≤ ol.length ∧
      (ol.length ≤ hl.length → ∀ b ∈ ol, ∃ a ∈ hl, Comparable.eq b a = true) := by
  intro hl
  induction hl with
  | nil =>
    intro ol _ _
    refine ⟨Nat.zero_le _, ?_⟩
    intro hlen b hb
    have : ol = [] := List.eq_nil_of_length_eq_zero (Nat.le_zero.mp hlen)
    rw [this] at hb
    simp at hb
  | cons a hl ih =>
    intro ol hp hsub
    rw [List.pairwise_cons] at hp
    obtain ⟨b0, hb0, hba⟩ := hsub a (List.mem_cons_self _ _)
    obtain ⟨s, t, rfl⟩ := List.append_of_mem hb0
    have hsub2 : ∀ x ∈ hl, ∃ b ∈ s ++ t, Comparable.eq b x = true := by
      intro x hx
      obtain ⟨b, hb, hbx⟩ := hsub x (List.mem_cons_of_mem _ hx)
      rw [List.mem_append, List.mem_cons] at hb
      rcases hb with hb | rfl | hb
      · exact ⟨b, List.mem_append_left _ hb, hbx⟩
      · have hax : Comparable.eq a x = true :=
          Comparable.trans a b x (Comparable.symm b a hba) hbx
        rw [hp.1 x hx] at hax
        exact absurd hax (by simp)
      · exact ⟨b, List.mem_append_right _ hb, hbx⟩
    obtain ⟨h1, h2⟩ := ih (s ++ t) hp.2 hsub2
    simp only [List.length_append, List.length_cons] at h1 h2 ⊢
    refine ⟨by omega, ?_⟩
    intro hlen b hb
    rw [List.mem_append, List.mem_cons] at hb
    have h3 := h2 (by omega)
    rcases hb with hb | rfl | hb
    · obtain ⟨x, hx, hbx⟩ := h3 b (List.mem_append_left _ hb)
      exact ⟨x, List.mem_cons_of_mem _ hx, hbx⟩
    · exact ⟨a, List.mem_cons_self _ _, hba⟩
    · obtain ⟨x, hx, hbx⟩ := h3 b (List.mem_append_right _ hb)
      exact ⟨x, List.mem_cons_of_mem _ hx, hbx⟩

theorem MapSet.Contains_eq_of_Equal {T : Type} [Comparable T] (h o : MapSet T)
    (hh : h.DistinctKeys) (he : h.Equal o = true) (x : T) :
    h.Contains x = o.Contains x := by
  rw [MapSet.Equal_iff_length_subset] at he
  obtain ⟨hlen, hsub⟩ := he
  have hsur := (MapSet.keys_count h.m o.m hh hsub).2 (le_of_eq hlen.symm)
  rw [Bool.eq_iff_iff, MapSet.Contains_iff, MapSet.Contains_iff]
  constructor
  · rintro ⟨a, ha, hax⟩
    obtain ⟨b, hb, hba⟩ := hsub a ha
    exact ⟨b, hb, Comparable.trans b a x hba hax⟩
  · rintro ⟨b, hb, hbx⟩
    obtain ⟨a, ha, hba⟩ := hsur b hb
    exact ⟨a, ha, Comparable.trans a b x (Comparable.symm b a hba) hbx⟩

theorem MapSet.Equal_symm_of_Equal {T : Type} [Comparable T] (h o : MapSet T)
    (hh : h.DistinctKeys) (he : h.Equal o = true) : o.Equal h = true := by
  rw [MapSet.Equal_iff_length_subset] at he ⊢
  obtain ⟨hlen, hsub⟩ := he
  have hsur := (MapSet.keys_count h.m o.m hh hsub).2 (le_of_eq hlen.symm)
  refine ⟨hlen.symm, ?_⟩
  intro b hb
  obtain ⟨a, ha, hba⟩ := hsur b hb
  exact ⟨a, ha, Comparable.symm b a hba⟩

theorem MapSet.Equal_of_Contains_eq {T : Type} [Comparable T] (h o : MapSet T)
    (hh : h.DistinctKeys) (ho : o.DistinctKeys) (hrh : h.SelfEqual) (hro : o.SelfEqual)
    (hall : ∀ x, h.Contains x = o.Contains x) : h.Equal o = true := by
  have h1 : ∀ a ∈ h.m, ∃ b ∈ o.m, Comparable.eq b a = true := by
    intro a ha
    rw [← MapSet.Contains_iff, ← hall a, MapSet.Contains_iff]
    exact ⟨a, ha, hrh a ha⟩
  have h2 : ∀ b ∈ o.m, ∃ a ∈ h.m, Comparable.eq a b = true := by
    intro b hb
    rw [← MapSet.Contains_iff, hall b, MapSet.Contains_iff]
    exact ⟨b, hb, hro b hb⟩
  rw [MapSet.Equal_iff_length_subset]
  exact ⟨le_antisymm (MapSet.keys_count h.m o.m hh h1).1 (MapSet.keys_count o.m h.m ho h2).1,
    h1⟩

theorem permitRule_leafDecision (eval : EvalAPI Entities Body) (ps : List (idPolicy Body))
    (env : Env Entities) :
    PermitRule eval ps env (leafDecision eval ps env).1 (leafDecision eval ps env).2 := by
  intro hnf
  have hnil : satisfiedWith eval .EffectForbid ps env = [] := by
    rw [List.eq_nil_iff_forall_not_mem]
    intro p hp
    rw [mem_satisfiedWith] at hp
    exact hnf p hp.1 hp.2.1 hp.2.2
  rw [leafDecision_of_no_forbid eval _ _ hnil]
  refine ⟨?_, rfl⟩
  simp only [Bool.not_eq_true', List.isEmpty_eq_false]
  constructor
  · intro hne
    obtain ⟨p, hp⟩ := List.exists_mem_of_ne_nil _ hne
    rw [mem_satisfiedWith] at hp
    exact ⟨p, hp⟩
  · rintro ⟨p, hp⟩
    exact List.ne_nil_of_mem ((mem_satisfiedWith eval _ _ _ p).mpr hp)

theorem pairs_with_first_leaves (eval : EvalAPI Entities Body) (entityMap : Entities) :
    ∀ (cs : List Result) (ls : List (Leaf Body)),
      cs.map Except.ok <+: ls.map (leafResult eval entityMap) →
      List.Forall₂ (fun r l => leafResult eval entityMap l = .ok r) cs (ls.take cs.length) := by
  intro cs
  induction cs with
  | nil => intro ls _; simp
  | cons r cs ih =>
    intro ls h
    cases ls with
    | nil => simp at h
    | cons l ls =>
      simp only [List.map_cons, List.cons_prefix_cons] at h
      simp only [List.length_cons, List.take_succ_cons]
      exact List.Forall₂.cons h.1.symm (ih ls h.2)

end Lemmas

section Claims

variable {Entities Body : Type}

/-- C1 (Cartesian completeness): for a request whose four slots are present, under a
context that is never cancelled and when the strict conversions succeed at every leaf,
`Authorize` returns nil and invokes the callback as many times as the product of the
candidate counts of the variables: once without variables, never when a candidate list is
empty. -/
theorem Authorize_cartesian_complete (eval : EvalAPI Entities Body)
    (SortFunc : List variableItem → (variableItem → variableItem → Int) → List variableItem)
    (ctx : Nat → Option Error) (policies : List (Policy Body)) (entityMap : Entities)
    (request : Request) (hp : request.Present) (hwf : request.WellFormed)
    (hsort : (SortFunc request.Variables lenCmp).Perm request.Variables)
    (hctx : NeverCancelled ctx)
    (hconv : ∀ l ∈ rootLeaves eval SortFunc policies entityMap request,
      l.converts eval = true) :
    (Authorize eval SortFunc ctx policies entityMap request).1 = none ∧
    (Authorize eval SortFunc ctx policies entityMap request).2.calls.length =
      (request.Variables.map (fun u => u.Values.length)).prod ∧
    (request.Variables = [] →
      (Authorize eval SortFunc ctx policies entityMap request).2.calls.length = 1) ∧
    ((∃ u ∈ request.Variables, u.Values = []) →
      (Authorize eval SortFunc ctx policies entityMap request).2.calls.length = 0) := by
  suffices hmain : (Authorize eval SortFunc ctx policies entityMap request).1 = none ∧
      (Authorize eval SortFunc ctx policies entityMap request).2.calls.length =
        (request.Variables.map (fun u => u.Values.length)).prod by
    refine ⟨hmain.1, hmain.2, ?_, ?_⟩
    · intro hnil
      rw [hmain.2, hnil]
      rfl
    · rintro ⟨u, hu, hempty⟩
      rw [hmain.2]
      apply List.prod_eq_zero
      rw [List.mem_map]
      exact ⟨u, hu, by rw [hempty]; rfl⟩
  obtain ⟨_, h⟩ := Authorize_spec eval SortFunc ctx policies entityMap request hp hwf hsort
  obtain ⟨he, hc⟩ := h hctx
  have hall : ∀ o ∈ (rootLeaves eval SortFunc policies entityMap request).map
      (leafResult eval entityMap), ∃ r, o = .ok r := by
    intro o ho
    rw [List.mem_map] at ho
    obtain ⟨l, hl, rfl⟩ := ho
    exact leafResult_of_converts eval entityMap l (hconv l hl)
  obtain ⟨h1, h2⟩ := firstErr_eq_none_of_forall_ok _ hall
  refine ⟨he.trans h1, ?_⟩
  rw [hc, h2, List.length_map]
  unfold rootLeaves
  rw [length_leaves]
  exact (hsort.map _).prod_eq

/-- C1, on the request of the test `smokeTest`: six invocations and no error. -/
theorem Authorize_cartesian_complete_witness :
    (Authorize specEval insertionSortFunc background [⟨.EffectPermit, none⟩] ()
      smokeRequest).1 = none ∧
    (Authorize specEval insertionSortFunc background [⟨.EffectPermit, none⟩] ()
      smokeRequest).2.calls.length = 6 :=
  let h := Authorize_cartesian_complete specEval insertionSortFunc background
    [⟨.EffectPermit, none⟩] () smokeRequest (by decide) (by decide)
    (List.perm_insertionSort _ _) (fun _ => rfl) (by decide)
  ⟨h.1, h.2.1⟩

/-- C2 (decision precedence): when some forbid policy of the evaluator, new or already
compiled, evaluates to true without error, `diagnosticAuthz` denies, its reasons are the
identifiers of the forbid policies that evaluate to true, in policy order, and, the
identifiers being pairwise distinct, no reason is the identifier of a permit policy. -/
theorem diagnosticAuthz_forbid_overrides (eval : EvalAPI Entities Body)
    (b : batchEvaler Entities Body) (env : Env Entities) (hb : Compiled eval b)
    (hforbid : ∃ p ∈ b.policies, p.Policy.Effect = .EffectForbid ∧
      eval.Compile p.Policy env = .ok true) :
    (diagnosticAuthz eval b env).1 = false ∧
    (diagnosticAuthz eval b env).2.1.Reasons =
      (b.policies.filter (fun p => decide (p.Policy.Effect = .EffectForbid) &&
        satisfied eval env p)).map (fun p => ⟨p.PolicyID⟩) ∧
    ((b.policies.map (fun p => p.PolicyID)).Nodup →
      ∀ p ∈ b.policies, p.Policy.Effect = .EffectPermit →
        (⟨p.PolicyID⟩ : DiagnosticReason) ∉ (diagnosticAuthz eval b env).2.1.Reasons) := by
  obtain ⟨q, hq, hqe, hqs⟩ := hforbid
  have hne : satisfiedWith eval .EffectForbid b.policies env ≠ [] :=
    List.ne_nil_of_mem ((mem_satisfiedWith eval _ _ env q).mpr ⟨hq, hqe, hqs⟩)
  rw [diagnosticAuthz_spec eval b env hb, leafDecision_of_forbid eval _ env hne]
  refine ⟨rfl, rfl, ?_⟩
  intro hnd p hp hpe hmem
  simp only [reasonsOf, List.mem_map] at hmem
  obtain ⟨p', hp', hid⟩ := hmem
  rw [mem_satisfiedWith] at hp'
  have hid' : p'.PolicyID = p.PolicyID := by simpa using hid
  have : p' = p := List.inj_on_of_nodup_map hnd hp'.1 hp hid'
  rw [this, hpe] at hp'
  exact absurd hp'.2.1 (by decide)

/-- C2, on an evaluator with a permit policy and a forbid policy that both evaluate to
true: the decision is deny and the one reason is the forbid policy. -/
theorem diagnosticAuthz_forbid_overrides_witness :
    (diagnosticAuthz specEval mixedEvaler envP1).1 = false ∧
    (diagnosticAuthz specEval mixedEvaler envP1).2.1.Reasons = [⟨"1"⟩] ∧
    ((mixedEvaler.policies.map (fun p => p.PolicyID)).Nodup →
      ∀ p ∈ mixedEvaler.policies, p.Policy.Effect = .EffectPermit →
        (⟨p.PolicyID⟩ : DiagnosticReason) ∉
          (diagnosticAuthz specEval mixedEvaler envP1).2.1.Reasons) :=
  diagnosticAuthz_forbid_overrides specEval mixedEvaler envP1 (Or.inl ⟨rfl, rfl, rfl⟩)
    ⟨⟨"1", ⟨.EffectForbid, some ⟨"P", "1"⟩⟩⟩, by simp [mixedEvaler], rfl, rfl⟩

/-- C3 (permit rule): every result handed to the callback comes from a leaf of the
expansion and obeys the permit rule on the policies of that leaf: when no forbid policy
evaluates to true, the decision is permit exactly when some permit policy evaluates to
true, and the reasons are the identifiers of the permit policies that evaluate to true,
one entry for each, in policy order.  The results pair off, in order, with the first
leaves of the expansion, under every context; with the four slots present, a context that
is never cancelled and leaves that all convert, the run returns nil and the results pair
off with all the leaves, so there are as many results as the product of the candidate
counts.  At a leaf that converts `diagnosticAuthzWithCallback` hands exactly one more
result to the callback, which obeys the rule on the policies of the evaluator, new or
already compiled by a sibling leaf, and leaves the evaluator compiled from the same
policies for the next sibling; and `diagnosticAuthz` itself obeys the rule. -/
theorem Authorize_permit_rule (eval : EvalAPI Entities Body)
    (SortFunc : List variableItem → (variableItem → variableItem → Int) → List variableItem)
    (ctx : Nat → Option Error) (policies : List (Policy Body)) (entityMap : Entities)
    (request : Request) (hwf : request.WellFormed)
    (hsort : (SortFunc request.Variables lenCmp).Perm request.Variables) :
    (∀ r ∈ (Authorize eval SortFunc ctx policies entityMap request).2.calls,
      ∃ l ∈ rootLeaves eval SortFunc policies entityMap request,
        r.Values = l.Values ∧
        ((∀ p ∈ l.policies, p.Policy.Effect = .EffectForbid →
            eval.Compile p.Policy (envOf entityMap l.request) ≠ .ok true) →
          (r.Decision = true ↔ ∃ p ∈ l.policies, p.Policy.Effect = .EffectPermit ∧
            eval.Compile p.Policy (envOf entityMap l.request) = .ok true) ∧
          r.Diagnostic.Reasons =
            (l.policies.filter (fun p => decide (p.Policy.Effect = .EffectPermit) &&
              satisfied eval (envOf entityMap l.request) p)).map
              (fun p => ⟨p.PolicyID⟩))) ∧
    List.Forall₂
      (fun r l => r.Values = l.Values ∧
        PermitRule eval l.policies (envOf entityMap l.request) r.Decision r.Diagnostic)
      (Authorize eval SortFunc ctx policies entityMap request).2.calls
      ((rootLeaves eval SortFunc policies entityMap request).take
        (Authorize eval SortFunc ctx policies entityMap request).2.calls.length) ∧
    (request.Present → NeverCancelled ctx →
      (∀ l ∈ rootLeaves eval SortFunc policies entityMap request, l.converts eval = true) →
      (Authorize eval SortFunc ctx policies entityMap request).1 = none ∧
      List.Forall₂
        (fun r l => r.Values = l.Values ∧
          PermitRule eval l.policies (envOf entityMap l.request) r.Decision r.Diagnostic)
        (Authorize eval SortFunc ctx policies entityMap request).2.calls
        (rootLeaves eval SortFunc policies entityMap request) ∧
      (Authorize eval SortFunc ctx policies entityMap request).2.calls.length =
        (request.Variables.map (fun u => u.Values.length)).prod) ∧
    (∀ (be : batchEvaler Entities Body) (state : batchRequestState) (h : Heap),
      Compiled eval be →
      (∃ re, buildResultEnv eval entityMap state h.Values = .ok re) →
      (diagnosticAuthzWithCallback eval be entityMap state h).1 = none ∧
      (∃ r, (diagnosticAuthzWithCallback eval be entityMap state h).2.2.calls =
          h.calls ++ [r] ∧
        PermitRule eval be.policies (envOf entityMap state) r.Decision r.Diagnostic) ∧
      Compiled eval (diagnosticAuthzWithCallback eval be entityMap state h).2.1 ∧
      (diagnosticAuthzWithCallback eval be entityMap state h).2.1.compiled = true ∧
      (diagnosticAuthzWithCallback eval be entityMap state h).2.1.policies = be.policies) ∧
    (∀ (b : batchEvaler Entities Body) (env : Env Entities), Compiled eval b →
      PermitRule eval b.policies env (diagnosticAuthz eval b env).1
        (diagnosticAuthz eval b env).2.1) := by
  have hrule : ∀ (l : Leaf Body) (r : Result), leafResult eval entityMap l = .ok r →
      r.Values = l.Values ∧
        PermitRule eval l.policies (envOf entityMap l.request) r.Decision r.Diagnostic := by
    intro l r hlr
    obtain ⟨hv, hd, hg, _⟩ := leafResult_ok eval entityMap l r hlr
    refine ⟨hv, ?_⟩
    rw [hd, hg]
    exact permitRule_leafDecision eval _ _
  refine ⟨?_, ?_, ?_, ?_, ?_⟩
  · intro r hr
    obtain ⟨l, hl, hlr⟩ :=
      Authorize_call_leaf eval SortFunc ctx policies entityMap request hwf hsort r hr
    exact ⟨l, hl, (hrule l r hlr).1, (hrule l r hlr).2⟩
  · by_cases hp : request.Present
    · obtain ⟨⟨cs, h1, h2, _⟩, _⟩ :=
        Authorize_spec eval SortFunc ctx policies entityMap request hp hwf hsort
      rw [h1]
      exact (pairs_with_first_leaves eval entityMap cs _ h2).imp (fun r l h => hrule l r h)
    · rw [(Authorize_calls_of_not_present eval SortFunc ctx policies entityMap request hp).2]
      simp
  · intro hp hctx hconv
    obtain ⟨_, h⟩ := Authorize_spec eval SortFunc ctx policies entityMap request hp hwf hsort
    obtain ⟨he, hc⟩ := h hctx
    have hall : ∀ o ∈ (rootLeaves eval SortFunc policies entityMap request).map
        (leafResult eval entityMap), ∃ r, o = .ok r := by
      intro o ho
      rw [List.mem_map] at ho
      obtain ⟨l, hl, rfl⟩ := ho
      exact leafResult_of_converts eval entityMap l (hconv l hl)
    obtain ⟨h1, h2⟩ := firstErr_eq_none_of_forall_ok _ hall
    have hlen : (Authorize eval SortFunc ctx policies entityMap request).2.calls.length =
        (rootLeaves eval SortFunc policies entityMap request).length := by
      rw [hc, h2, List.length_map]
    have hpre : (Authorize eval SortFunc ctx policies entityMap request).2.calls.map Except.ok
        <+: (rootLeaves eval SortFunc policies entityMap request).map
          (leafResult eval entityMap) := by
      rw [hc, map_ok_delivered _ h1]
    have hf := pairs_with_first_leaves eval entityMap _ _ hpre
    rw [hlen, List.take_length] at hf
    refine ⟨he.trans h1, hf.imp (fun r l h => hrule l r h), ?_⟩
    rw [hlen]
    unfold rootLeaves
    rw [length_leaves]
    exact (hsort.map _).prod_eq
  · rintro be state h hbe ⟨⟨res, env⟩, hre⟩
    have henv := buildResultEnv_env eval entityMap state h.Values res env hre
    unfold diagnosticAuthzWithCallback
    rw [hre]
    dsimp only
    rw [diagnosticAuthz_spec eval be env hbe]
    refine ⟨rfl, ⟨_, rfl, ?_⟩, compiled_batchCompile eval be hbe, ?_,
      policies_batchCompile eval be hbe⟩
    · rw [← henv]
      exact permitRule_leafDecision eval _ _
    · show (batchCompile eval be).compiled = true
      rw [batchCompile_spec eval be hbe]
  · intro b env hb
    rw [diagnosticAuthz_spec eval b env hb]
    exact permitRule_leafDecision eval _ _

/-- C3, on a request whose three leaves are siblings under one evaluator, with a permit
policy for `P::"1"`, a forbid policy for `P::"3"`, a permit policy without constraint and a
permit policy for `P::"2"`: three results; the first two are permit with the permit
policies that hold as reasons, in policy order, the third is denied by the forbid
policy. -/
theorem Authorize_permit_rule_witness :
    siblingRequest.WellFormed ∧
    (Authorize specEval insertionSortFunc background siblingPolicies ()
      siblingRequest).1 = none ∧
    (Authorize specEval insertionSortFunc background siblingPolicies ()
      siblingRequest).2.calls.map (fun r => (r.Request.Principal, r.Decision, r.Diagnostic)) =
      [(⟨"P", "1"⟩, true, ⟨[⟨"0"⟩, ⟨"2"⟩]⟩), (⟨"P", "2"⟩, true, ⟨[⟨"2"⟩, ⟨"3"⟩]⟩),
       (⟨"P", "3"⟩, false, ⟨[⟨"1"⟩]⟩)] ∧
    List.Forall₂
      (fun r l => r.Values = l.Values ∧
        PermitRule specEval l.policies (envOf () l.request) r.Decision r.Diagnostic)
      (Authorize specEval insertionSortFunc background siblingPolicies ()
        siblingRequest).2.calls
      (rootLeaves specEval insertionSortFunc siblingPolicies () siblingRequest) :=
  let h := (Authorize_permit_rule specEval insertionSortFunc background siblingPolicies ()
    siblingRequest (by decide) (List.perm_insertionSort _ _)).2.2.1
    (by decide) (fun _ => rfl) (by decide)
  ⟨by decide, h.1, by decide, h.2.1⟩

/-- C4 (default deny): `diagnosticAuthz` denies with an empty diagnostic when no policy of
the evaluator evaluates to true; so does every result of a run whose leaf has no policy
that evaluates to true; and with the empty policy list every result of `Authorize` has
decision false and an empty diagnostic, whatever the variables. -/
theorem Authorize_default_deny (eval : EvalAPI Entities Body)
    (SortFunc : List variableItem → (variableItem → variableItem → Int) → List variableItem)
    (ctx : Nat → Option Error) (entityMap : Entities)
    (request : Request) (hwf : request.WellFormed)
    (hsort : (SortFunc request.Variables lenCmp).Perm request.Variables) :
    (∀ (b : batchEvaler Entities Body) (env : Env Entities), Compiled eval b →
      (∀ p ∈ b.policies, eval.Compile p.Policy env ≠ .ok true) →
      (diagnosticAuthz eval b env).1 = false ∧ (diagnosticAuthz eval b env).2.1 = ⟨[]⟩) ∧
    (∀ (policies : List (Policy Body)),
      ∀ r ∈ (Authorize eval SortFunc ctx policies entityMap request).2.calls,
        ∃ l ∈ rootLeaves eval SortFunc policies entityMap request,
          r.Values = l.Values ∧
          ((∀ p ∈ l.policies,
              eval.Compile p.Policy (envOf entityMap l.request) ≠ .ok true) →
            r.Decision = false ∧ r.Diagnostic = ⟨[]⟩)) ∧
    (∀ r ∈ (Authorize eval SortFunc ctx [] entityMap request).2.calls,
      r.Decision = false ∧ r.Diagnostic = ⟨[]⟩) := by
  refine ⟨?_, ?_, ?_⟩
  · intro b env hb hnone
    rw [diagnosticAuthz_spec eval b env hb, leafDecision_of_none eval _ env hnone]
    exact ⟨rfl, rfl⟩
  · intro policies r hr
    obtain ⟨l, hl, hlr⟩ :=
      Authorize_call_leaf eval SortFunc ctx policies entityMap request hwf hsort r hr
    obtain ⟨hv, hd, hg, _⟩ := leafResult_ok eval entityMap l r hlr
    refine ⟨l, hl, hv, ?_⟩
    intro hnone
    rw [leafDecision_of_none eval _ _ hnone] at hd hg
    exact ⟨hd, hg⟩
  · intro r hr
    obtain ⟨l, hl, hlr⟩ :=
      Authorize_call_leaf eval SortFunc ctx [] entityMap request hwf hsort r hr
    obtain ⟨_, hd, hg, _⟩ := leafResult_ok eval entityMap l r hlr
    have hnil : l.policies = [] := policies_leaves_nil eval entityMap _ _ _ l hl
    rw [hnil] at hd hg
    exact ⟨hd, hg⟩

/-- C4, on the request of the test `smokeTest` with no policy: six results, all of them
deny with an empty diagnostic. -/
theorem Authorize_default_deny_witness :
    (Authorize specEval insertionSortFunc background [] () smokeRequest).2.calls.length = 6 ∧
    ∀ r ∈ (Authorize specEval insertionSortFunc background [] () smokeRequest).2.calls,
      r.Decision = false ∧ r.Diagnostic = ⟨[]⟩ :=
  ⟨by decide, (Authorize_default_deny specEval insertionSortFunc background ()
    smokeRequest (by decide) (List.perm_insertionSort _ _)).2.2⟩

/-- C5 (pruning safety): when the partial evaluator meets its contract, `Authorize`
delivers the same sequence of decisions as the reference run that expands the request in
the same way without pruning; the two runs even return the same error and the same
results. -/
theorem Authorize_pruning_safe (eval : EvalAPI Entities Body)
    (SortFunc : List variableItem → (variableItem → variableItem → Int) → List variableItem)
    (ctx : Nat → Option Error) (policies : List (Policy Body)) (entityMap : Entities)
    (request : Request) (hcontract : PrunerContract eval entityMap) :
    (Authorize eval SortFunc ctx policies entityMap request).2.calls.map
        (fun r => r.Decision) =
      (AuthorizeNoPruning eval SortFunc ctx policies entityMap request).2.calls.map
        (fun r => r.Decision) ∧
    Authorize eval SortFunc ctx policies entityMap request =
      AuthorizeNoPruning eval SortFunc ctx policies entityMap request := by
  have heq : Authorize eval SortFunc ctx policies entityMap request =
      AuthorizeNoPruning eval SortFunc ctx policies entityMap request := by
    unfold Authorize AuthorizeNoPruning
    by_cases h1 : request.Principal.isNil = true
    · simp [h1]
    by_cases h2 : request.Action.isNil = true
    · simp [h1, h2]
    by_cases h3 : request.Resource.isNil = true
    · simp [h1, h2, h3]
    by_cases h4 : request.Context.isNil = true
    · simp [h1, h2, h3, h4]
    simp only [h1, h2, h3, h4, if_false, Bool.false_eq_true]
    obtain ⟨h5, h6, _⟩ := doBatch_refines eval ctx entityMap hcontract
      (SortFunc (request.Variables.foldl (fun vs kv => vs ++ [kv]) []) lenCmp)
      { policies := numberPolicies policies, compiled := false, forbids := [], permits := [] }
      { policies := numberPolicies policies, compiled := false, forbids := [], permits := [] }
      ⟨request.Principal, request.Action, request.Resource, request.Context⟩
      { polls := 0, Values := [], calls := [] }
      (Or.inl ⟨rfl, rfl, rfl⟩) (Or.inl ⟨rfl, rfl, rfl⟩) (fun _ _ => rfl)
    exact Prod.ext h5 h6
  exact ⟨by rw [heq], heq⟩

/-- C5, on a request with a concrete principal, where the partial evaluator drops two of
three policies at the root: both runs permit at both leaves. -/
theorem Authorize_pruning_safe_witness :
    PrunerContract specEval () ∧
    (Authorize specEval insertionSortFunc background scopedPolicies ()
      fixedPrincipalRequest).2.calls.map (fun r => r.Decision) = [true, true] ∧
    (Authorize specEval insertionSortFunc background scopedPolicies ()
        fixedPrincipalRequest).2.calls.map (fun r => r.Decision) =
      (AuthorizeNoPruning specEval insertionSortFunc background scopedPolicies ()
        fixedPrincipalRequest).2.calls.map (fun r => r.Decision) :=
  ⟨specEval_prunerContract, by decide,
    (Authorize_pruning_safe specEval insertionSortFunc background scopedPolicies ()
      fixedPrincipalRequest specEval_prunerContract).1⟩

/-- C6 fails as stated: with two variables that have two candidates each, the results
come in a different order when the map `Variables` is iterated in the other order. -/
theorem Authorize_order_follows_map_iteration :
    tieRequestYX.Variables = tieRequestXY.Variables.reverse ∧
    (Authorize specEval insertionSortFunc background [⟨.EffectPermit, none⟩] ()
      tieRequestXY).2.calls.map (fun r => r.Request.Principal) =
      [⟨"P", "1"⟩, ⟨"P", "1"⟩, ⟨"P", "2"⟩, ⟨"P", "2"⟩] ∧
    (Authorize specEval insertionSortFunc background [⟨.EffectPermit, none⟩] ()
      tieRequestYX).2.calls.map (fun r => r.Request.Principal) =
      [⟨"P", "1"⟩, ⟨"P", "2"⟩, ⟨"P", "1"⟩, ⟨"P", "2"⟩] ∧
    (Authorize specEval insertionSortFunc background [⟨.EffectPermit, none⟩] ()
      tieRequestXY).2.calls.map (fun r => r.Request.Principal) ≠
    (Authorize specEval insertionSortFunc background [⟨.EffectPermit, none⟩] ()
      tieRequestYX).2.calls.map (fun r => r.Request.Principal) :=
  ⟨rfl, by decide, by decide, by decide⟩

/-- C6, amended: when no two variables have candidate lists of the same length and
`slices.SortFunc` sorts, two runs of `Authorize` on the same policies, entities and request
return the same error and deliver the same results in the same order, whatever order the
map `Variables` is iterated in. -/
theorem Authorize_deterministic_of_distinct_counts (eval : EvalAPI Entities Body)
    (SortFunc : List variableItem → (variableItem → variableItem → Int) → List variableItem)
    (ctx : Nat → Option Error) (policies : List (Policy Body)) (entityMap : Entities)
    (request request' : Request)
    (hP : request'.Principal = request.Principal) (hA : request'.Action = request.Action)
    (hR : request'.Resource = request.Resource) (hC : request'.Context = request.Context)
    (hperm : request'.Variables.Perm request.Variables)
    (hsorted : ∀ x, (SortFunc x lenCmp).Perm x ∧
      (SortFunc x lenCmp).Pairwise (fun a b => lenCmp a b ≤ 0))
    (hdistinct : (request.Variables.map (fun u => u.Values.length)).Nodup) :
    Authorize eval SortFunc ctx policies entityMap request' =
      Authorize eval SortFunc ctx policies entityMap request := by
  have hvars : SortFunc request'.Variables lenCmp = SortFunc request.Variables lenCmp :=
    sorted_unique _ _ request.Variables hdistinct
      ((hsorted request'.Variables).1.trans hperm) (hsorted request.Variables).1
      (hsorted request'.Variables).2 (hsorted request.Variables).2
  unfold Authorize
  simp only [hP, hA, hR, hC, foldl_append_singleton, List.nil_append, hvars]

/-- C6, amended, on the request of the test `smokeTest` (candidate counts 3, 1 and 2) and
the same request with the map iterated in the opposite order. -/
theorem Authorize_deterministic_of_distinct_counts_witness :
    smokeRequestReversed.Variables.Perm smokeRequest.Variables ∧
    (smokeRequest.Variables.map (fun u => u.Values.length)).Nodup ∧
    Authorize specEval insertionSortFunc background [⟨.EffectPermit, none⟩] ()
        smokeRequestReversed =
      Authorize specEval insertionSortFunc background [⟨.EffectPermit, none⟩] ()
        smokeRequest :=
  ⟨List.reverse_perm _, by decide,
    Authorize_deterministic_of_distinct_counts specEval insertionSortFunc background
      [⟨.EffectPermit, none⟩] () smokeRequest smokeRequestReversed rfl rfl rfl rfl
      (List.reverse_perm _) insertionSortFunc_contract (by decide)⟩

/-- C7 fails as stated: a run that a conversion error aborts delivers fewer maps than the
Cartesian product has. -/
theorem Authorize_emission_stops_at_error :
    (stringPrincipalRequest.Variables.map (fun u => u.Values.length)).Nodup ∧
    (Authorize specEval insertionSortFunc background [⟨.EffectPermit, none⟩] ()
      stringPrincipalRequest).1 = some "type error: expected entity" ∧
    (Authorize specEval insertionSortFunc background [⟨.EffectPermit, none⟩] ()
      stringPrincipalRequest).2.calls.length = 0 ∧
    (bindings (insertionSortFunc stringPrincipalRequest.Variables lenCmp)).length = 2 ∧
    (Authorize specEval insertionSortFunc background [⟨.EffectPermit, none⟩] ()
      stringPrincipalRequest).2.calls.map (fun r => r.Values) ≠
      bindings (insertionSortFunc stringPrincipalRequest.Variables lenCmp) := by
  refine ⟨by decide, by decide, by decide, by decide, ?_⟩
  intro h
  have := congrArg List.length h
  rw [List.length_map] at this
  exact absurd this (by decide)

/-- C7, amended: when no two variables have candidate lists of the same length, the maps
handed to the callback are a first part of the lexicographic enumeration of the Cartesian
product in which the variables are nested in ascending order of candidate count, fewest
outermost, and every variable takes its values in candidate-list order; they are the whole
enumeration when `Authorize` returns nil. -/
theorem Authorize_emission_order (eval : EvalAPI Entities Body)
    (SortFunc : List variableItem → (variableItem → variableItem → Int) → List variableItem)
    (ctx : Nat → Option Error) (policies : List (Policy Body)) (entityMap : Entities)
    (request : Request) (hwf : request.WellFormed)
    (hsorted : (SortFunc request.Variables lenCmp).Perm request.Variables ∧
      (SortFunc request.Variables lenCmp).Pairwise (fun a b => lenCmp a b ≤ 0))
    (hdistinct : (request.Variables.map (fun u => u.Values.length)).Nodup) :
    ∃ order : List variableItem, order.Perm request.Variables ∧
      order.Pairwise (fun a b => a.Values.length < b.Values.length) ∧
      (Authorize eval SortFunc ctx policies entityMap request).2.calls.map
        (fun r => r.Values) <+: bindings order ∧
      ((Authorize eval SortFunc ctx policies entityMap request).1 = none →
        (Authorize eval SortFunc ctx policies entityMap request).2.calls.map
          (fun r => r.Values) = bindings order) := by
  refine ⟨SortFunc request.Variables lenCmp, hsorted.1,
    sorted_strict _ _ hdistinct hsorted.1 hsorted.2, ?_, ?_⟩
  · by_cases hp : request.Present
    · obtain ⟨⟨cs, h1, h2, _⟩, _⟩ :=
        Authorize_spec eval SortFunc ctx policies entityMap request hp hwf hsorted.1
      rw [h1, ← rootLeaves_values eval SortFunc policies entityMap request hwf hsorted.1]
      exact map_values_of_prefix eval entityMap cs _ h2
    · rw [(Authorize_calls_of_not_present eval SortFunc ctx policies entityMap request hp).2]
      exact List.nil_prefix
  · intro hnone
    by_cases hp : request.Present
    · obtain ⟨⟨cs, h1, _, h3⟩, _⟩ :=
        Authorize_spec eval SortFunc ctx policies entityMap request hp hwf hsorted.1
      rw [h1, ← rootLeaves_values eval SortFunc policies entityMap request hwf hsorted.1]
      exact map_values_of_eq eval entityMap cs _ (h3 hnone).1
    · exact absurd hnone
        (Authorize_calls_of_not_present eval SortFunc ctx policies entityMap request hp).1

/-- C7, amended, on the request of the test `smokeTest`: the run returns nil and the six
maps come with the principal outermost, then the action, then the resource. -/
theorem Authorize_emission_order_witness :
    smokeRequest.WellFormed ∧
    (smokeRequest.Variables.map (fun u => u.Values.length)).Nodup ∧
    (Authorize specEval insertionSortFunc background [⟨.EffectPermit, none⟩] ()
      smokeRequest).1 = none ∧
    ∃ order : List variableItem, order.Perm smokeRequest.Variables ∧
      order.Pairwise (fun a b => a.Values.length < b.Values.length) ∧
      (Authorize specEval insertionSortFunc background [⟨.EffectPermit, none⟩] ()
        smokeRequest).2.calls.map (fun r => r.Values) <+: bindings order ∧
      ((Authorize specEval insertionSortFunc background [⟨.EffectPermit, none⟩] ()
        smokeRequest).1 = none →
        (Authorize specEval insertionSortFunc background [⟨.EffectPermit, none⟩] ()
          smokeRequest).2.calls.map (fun r => r.Values) = bindings order) :=
  ⟨by decide, by decide, by decide,
    Authorize_emission_order specEval insertionSortFunc background [⟨.EffectPermit, none⟩] ()
      smokeRequest (by decide) (insertionSortFunc_contract _) (by decide)⟩

/-- C8 fails as stated: a candidate that is the ignore sentinel reaches the principal
slot before the last level, where the slot is filled in with the unknown entity, so the
principal of the result is not the conversion of the substituted template slot. -/
theorem Authorize_ignore_candidate_replaced :
    NoIgnore specEval ⟨ignoreCandidateRequest.Principal, ignoreCandidateRequest.Action,
      ignoreCandidateRequest.Resource, ignoreCandidateRequest.Context⟩ ∧
    (∀ u ∈ ignoreCandidateRequest.Variables, ∀ v ∈ u.Values,
      anyPlaceholder specEval v = false) ∧
    (Authorize specEval insertionSortFunc background [⟨.EffectPermit, none⟩] ()
      ignoreCandidateRequest).2.calls.map (fun r => r.Request.Principal) =
      [⟨"__cedar::unknown", ""⟩, ⟨"__cedar::unknown", ""⟩] ∧
    (Authorize specEval insertionSortFunc background [⟨.EffectPermit, none⟩] ()
      ignoreCandidateRequest).2.calls.map (fun r =>
        (specEval.ValueToEntity
          (substAll specEval r.Values ignoreCandidateRequest.Principal)).toOption) =
      [some ⟨"__cedar::ignore", ""⟩, some ⟨"__cedar::ignore", ""⟩] ∧
    ¬ ∀ r ∈ (Authorize specEval insertionSortFunc background [⟨.EffectPermit, none⟩] ()
        ignoreCandidateRequest).2.calls,
      (specEval.ValueToEntity
        (substAll specEval r.Values ignoreCandidateRequest.Principal)).toOption =
        some r.Request.Principal :=
  ⟨by decide, by decide, by decide, by decide, by decide⟩

/-- C8, amended: when no slot and no candidate value is the ignore sentinel, no candidate
value holds a placeholder, and the ignore sentinel is neither a record nor a set, each
result handed to the callback has the principal, action, resource and context that the
strict conversions give for the template slots after the simultaneous substitution of
`Result.Values`. -/
theorem Authorize_request_matches_bindings (eval : EvalAPI Entities Body)
    (SortFunc : List variableItem → (variableItem → variableItem → Int) → List variableItem)
    (ctx : Nat → Option Error) (policies : List (Policy Body)) (entityMap : Entities)
    (request : Request) (hwf : request.WellFormed)
    (hsort : (SortFunc request.Variables lenCmp).Perm request.Variables)
    (hrec : ∀ entries, eval.IsIgnore (.record entries) = false)
    (hset : ∀ elems, eval.IsIgnore (.set elems) = false)
    (hslots : NoIgnore eval
      ⟨request.Principal, request.Action, request.Resource, request.Context⟩)
    (hcand : ∀ u ∈ request.Variables, ∀ v ∈ u.Values,
      anyPlaceholder eval v = false ∧ eval.IsIgnore v = false) :
    ∀ r ∈ (Authorize eval SortFunc ctx policies entityMap request).2.calls,
      eval.ValueToEntity (substAll eval r.Values request.Principal) =
        .ok r.Request.Principal ∧
      eval.ValueToEntity (substAll eval r.Values request.Action) = .ok r.Request.Action ∧
      eval.ValueToEntity (substAll eval r.Values request.Resource) =
        .ok r.Request.Resource ∧
      eval.ValueToRecord (substAll eval r.Values request.Context) =
        .ok r.Request.Context := by
  intro r hr
  obtain ⟨l, hl, hlr⟩ :=
    Authorize_call_leaf eval SortFunc ctx policies entityMap request hwf hsort r hr
  obtain ⟨hv, _, _, h1, h2, h3, h4⟩ := leafResult_ok eval entityMap l r hlr
  obtain ⟨bs, hbs, hreq⟩ := leaves_request eval entityMap hrec hset
    (SortFunc request.Variables lenCmp) _ _ []
    (((hsort.map (fun u => u.Key)).nodup_iff).mpr
      (by unfold Request.WellFormed at hwf; exact hwf))
    (by simp) (fun u hu => hcand u (hsort.subset hu)) hslots l hl
  rw [List.nil_append] at hbs
  rw [hv, hbs]
  rw [hreq] at h1 h2 h3 h4
  exact ⟨h1, h2, h3, h4⟩

/-- C8, amended, on a request with placeholders of two variables inside its context: two
results, whose contexts carry the candidates of the bindings. -/
theorem Authorize_request_matches_bindings_witness :
    nestedRequest.WellFormed ∧
    (Authorize specEval insertionSortFunc background [⟨.EffectPermit, none⟩] ()
      nestedRequest).2.calls.length = 2 ∧
    ∀ r ∈ (Authorize specEval insertionSortFunc background [⟨.EffectPermit, none⟩] ()
        nestedRequest).2.calls,
      specEval.ValueToEntity (substAll specEval r.Values nestedRequest.Principal) =
        .ok r.Request.Principal ∧
      specEval.ValueToEntity (substAll specEval r.Values nestedRequest.Action) =
        .ok r.Request.Action ∧
      specEval.ValueToEntity (substAll specEval r.Values nestedRequest.Resource) =
        .ok r.Request.Resource ∧
      specEval.ValueToRecord (substAll specEval r.Values nestedRequest.Context) =
        .ok r.Request.Context :=
  ⟨by decide, by decide,
    Authorize_request_matches_bindings specEval insertionSortFunc background
      [⟨.EffectPermit, none⟩] () nestedRequest (by decide) (List.perm_insertionSort _ _)
      (fun _ => rfl) (fun _ => rfl) (by decide) (by decide)⟩

/-- C9 (leaf binding map): at every callback invocation the keys of `Result.Values` are
the keys of `request.Variables`, each of them once, and every variable is bound to one of
its candidates. -/
theorem Authorize_values_complete (eval : EvalAPI Entities Body)
    (SortFunc : List variableItem → (variableItem → variableItem → Int) → List variableItem)
    (ctx : Nat → Option Error) (policies : List (Policy Body)) (entityMap : Entities)
    (request : Request) (hwf : request.WellFormed)
    (hsort : (SortFunc request.Variables lenCmp).Perm request.Variables) :
    ∀ r ∈ (Authorize eval SortFunc ctx policies entityMap request).2.calls,
      (r.Values.map Prod.fst).Perm (request.Variables.map (fun u => u.Key)) ∧
      (r.Values.map Prod.fst).Nodup ∧
      ∀ e ∈ r.Values, ∃ u ∈ request.Variables, u.Key = e.1 ∧ e.2 ∈ u.Values := by
  intro r hr
  obtain ⟨l, hl, hlr⟩ :=
    Authorize_call_leaf eval SortFunc ctx policies entityMap request hwf hsort r hr
  have hv : r.Values = l.Values := (leafResult_ok eval entityMap l r hlr).1
  have hmem : l.Values ∈ bindings (SortFunc request.Variables lenCmp) := by
    rw [← rootLeaves_values eval SortFunc policies entityMap request hwf hsort]
    exact List.mem_map_of_mem (fun l => l.Values) hl
  obtain ⟨h1, h2⟩ := mem_bindings _ _ hmem
  have hperm : (r.Values.map Prod.fst).Perm (request.Variables.map (fun u => u.Key)) := by
    rw [hv, h1]
    exact hsort.map _
  refine ⟨hperm, (hperm.nodup_iff).mpr hwf, ?_⟩
  intro e he
  rw [hv] at he
  obtain ⟨u, hu, hk, hvv⟩ := h2 e he
  exact ⟨u, hsort.subset hu, hk, hvv⟩

/-- C9, on the request of the test `smokeTest`: six results, each with one binding for
each of the three variables. -/
theorem Authorize_values_complete_witness :
    smokeRequest.WellFormed ∧
    (Authorize specEval insertionSortFunc background [⟨.EffectPermit, none⟩] ()
      smokeRequest).2.calls.length = 6 ∧
    ∀ r ∈ (Authorize specEval insertionSortFunc background [⟨.EffectPermit, none⟩] ()
        smokeRequest).2.calls,
      (r.Values.map Prod.fst).Perm (smokeRequest.Variables.map (fun u => u.Key)) ∧
      (r.Values.map Prod.fst).Nodup ∧
      ∀ e ∈ r.Values, ∃ u ∈ smokeRequest.Variables, u.Key = e.1 ∧ e.2 ∈ u.Values :=
  ⟨by decide, by decide,
    Authorize_values_complete specEval insertionSortFunc background [⟨.EffectPermit, none⟩]
      () smokeRequest (by decide) (List.perm_insertionSort _ _)⟩

/-- C10 (substitution result): the value `cloneSub` returns is the reference substitution:
`v` for a placeholder of `k`, for a record the record of the substituted entries under the
same keys, for a set the substituted elements in the same order, and the value itself in
every other case, placeholders of other variables included. -/
theorem cloneSub_eq_substitute (eval : EvalAPI Entities Body) (r : Value) (k : String)
    (v : Value) :
    (cloneSub eval r k v).1 = substitute eval k v r ∧
    (∀ t, eval.ToVariable t = some k → substitute eval k v (.entityUID t) = v) ∧
    (∀ t, eval.ToVariable t ≠ some k →
      substitute eval k v (.entityUID t) = .entityUID t) ∧
    (∀ entries, substitute eval k v (.record entries) =
      .record (entries.map (fun e => (e.1, substitute eval k v e.2)))) ∧
    (∀ elems, substitute eval k v (.set elems) =
      .set (elems.map (substitute eval k v))) ∧
    substitute eval k v .nil = .nil ∧
    (∀ b, substitute eval k v (.boolean b) = .boolean b) ∧
    (∀ i, substitute eval k v (.long i) = .long i) ∧
    (∀ s, substitute eval k v (.string s) = .string s) ∧
    (∀ c, substitute eval k v (.extension c) = .extension c) := by
  refine ⟨by rw [(cloneSub_spec eval k v).1 r], ?_, ?_, ?_, ?_, rfl, fun _ => rfl,
    fun _ => rfl, fun _ => rfl, fun _ => rfl⟩
  · intro t ht; simp [substitute, ht]
  · intro t ht; simp [substitute, ht]
  · intro entries; simp [substitute, substituteEntries_eq_map]
  · intro elems; simp [substitute, substituteElems_eq_map]

/-- C11 (substitution change flag): the boolean `cloneSub` returns is true exactly when the
value holds a placeholder of `k` at some depth through records and sets; it is the same for
every substituted value, the nil value of the probe included; and when it is false the value
comes back unchanged. -/
theorem cloneSub_flag (eval : EvalAPI Entities Body) (r : Value) (k : String) (v : Value) :
    ((cloneSub eval r k v).2 = true ↔ hasPlaceholder eval k r = true) ∧
    (∀ v' : Value, (cloneSub eval r k v').2 = (cloneSub eval r k v).2) ∧
    (cloneSub eval r k .nil).2 = (cloneSub eval r k v).2 ∧
    ((cloneSub eval r k v).2 = false → (cloneSub eval r k v).1 = r) ∧
    (∀ t, hasPlaceholder eval k (.entityUID t) = decide (eval.ToVariable t = some k)) ∧
    (∀ entries, hasPlaceholder eval k (.record entries) =
      entries.any (fun e => hasPlaceholder eval k e.2)) ∧
    (∀ elems, hasPlaceholder eval k (.set elems) =
      elems.any (fun x => hasPlaceholder eval k x)) ∧
    hasPlaceholder eval k .nil = false ∧
    (∀ b, hasPlaceholder eval k (.boolean b) = false) ∧
    (∀ i, hasPlaceholder eval k (.long i) = false) ∧
    (∀ s, hasPlaceholder eval k (.string s) = false) ∧
    (∀ c, hasPlaceholder eval k (.extension c) = false) := by
  refine ⟨by rw [(cloneSub_spec eval k v).1 r], ?_, ?_, ?_, fun _ => rfl, ?_, ?_, rfl,
    fun _ => rfl, fun _ => rfl, fun _ => rfl, fun _ => rfl⟩
  · intro v'
    rw [(cloneSub_spec eval k v).1 r, (cloneSub_spec eval k v').1 r]
  · rw [(cloneSub_spec eval k v).1 r, (cloneSub_spec eval k .nil).1 r]
  · rw [(cloneSub_spec eval k v).1 r]
    exact (substitute_noop eval k v).1 r
  · intro entries
    rw [hasPlaceholder, hasPlaceholderEntries_eq_any]
  · intro elems
    rw [hasPlaceholder, hasPlaceholderElems_eq_any]

/-- C12 (sharing correctness): for every candidate `v` of the variable `k` that a node
binds, a slot without a placeholder of `k` reaches the child node as the slot of the parent,
so it is the same in the children of all candidates. -/
theorem childState_shares (eval : EvalAPI Entities Body) (request : batchRequestState)
    (k : String) (v : Value) :
    (hasPlaceholder eval k request.Principal = false →
      (childState eval request k v).Principal = request.Principal) ∧
    (hasPlaceholder eval k request.Action = false →
      (childState eval request k v).Action = request.Action) ∧
    (hasPlaceholder eval k request.Resource = false →
      (childState eval request k v).Resource = request.Resource) ∧
    (hasPlaceholder eval k request.Context = false →
      (childState eval request k v).Context = request.Context) ∧
    (∀ v' : Value,
      (hasPlaceholder eval k request.Principal = false →
        (childState eval request k v').Principal = (childState eval request k v).Principal) ∧
      (hasPlaceholder eval k request.Action = false →
        (childState eval request k v').Action = (childState eval request k v).Action) ∧
      (hasPlaceholder eval k request.Resource = false →
        (childState eval request k v').Resource = (childState eval request k v).Resource) ∧
      (hasPlaceholder eval k request.Context = false →
        (childState eval request k v').Context = (childState eval request k v).Context)) := by
  have h : ∀ (w r : Value), hasPlaceholder eval k r = false → substitute eval k w r = r :=
    fun w r => (substitute_noop eval k w).1 r
  refine ⟨?_, ?_, ?_, ?_, ?_⟩
  · intro hp; rw [childState_eq]; exact h v _ hp
  · intro hp; rw [childState_eq]; exact h v _ hp
  · intro hp; rw [childState_eq]; exact h v _ hp
  · intro hp; rw [childState_eq]; exact h v _ hp
  · intro v'
    refine ⟨?_, ?_, ?_, ?_⟩ <;>
    · intro hp
      rw [childState_eq, childState_eq]
      simp only [h v _ hp, h v' _ hp]

/-- C12, on a node whose principal is the placeholder of another variable: binding `x`
leaves the principal, the action and the resource as they are. -/
theorem childState_shares_witness :
    hasPlaceholder specEval "x" sharedState.Principal = false ∧
    (childState specEval sharedState "x" (.entityUID ⟨"P", "1"⟩)).Principal =
      sharedState.Principal :=
  ⟨by decide,
    (childState_shares specEval sharedState "x" (.entityUID ⟨"P", "1"⟩)).1 (by decide)⟩

/-- C13 (precondition error): when the principal, the action, the resource or the context
of the request is absent, `Authorize` returns an error and never invokes the callback,
whatever the policies, the variables and the state of the context. -/
theorem Authorize_missing_slot (eval : EvalAPI Entities Body)
    (SortFunc : List variableItem → (variableItem → variableItem → Int) → List variableItem)
    (ctx : Nat → Option Error) (policies : List (Policy Body)) (entityMap : Entities)
    (request : Request)
    (hnil : request.Principal = .nil ∨ request.Action = .nil ∨ request.Resource = .nil ∨
      request.Context = .nil) :
    (Authorize eval SortFunc ctx policies entityMap request).1 ≠ none ∧
    (Authorize eval SortFunc ctx policies entityMap request).2.calls = [] := by
  apply Authorize_calls_of_not_present
  rintro ⟨h1, h2, h3, h4⟩
  rcases hnil with h | h | h | h
  · rw [h] at h1; exact absurd h1 (by decide)
  · rw [h] at h2; exact absurd h2 (by decide)
  · rw [h] at h3; exact absurd h3 (by decide)
  · rw [h] at h4; exact absurd h4 (by decide)

/-- C13, on the request of the test `smokeTest` without its context: the error names the
context and there is no invocation. -/
theorem Authorize_missing_slot_witness :
    (Authorize specEval insertionSortFunc background [⟨.EffectPermit, none⟩] ()
      missingContextRequest).1 = some "batch missing context" ∧
    (Authorize specEval insertionSortFunc background [⟨.EffectPermit, none⟩] ()
      missingContextRequest).1 ≠ none ∧
    (Authorize specEval insertionSortFunc background [⟨.EffectPermit, none⟩] ()
      missingContextRequest).2.calls = [] :=
  ⟨by decide,
    Authorize_missing_slot specEval insertionSortFunc background [⟨.EffectPermit, none⟩] ()
      missingContextRequest (Or.inr (Or.inr (Or.inr rfl)))⟩

/-- C14 (cancellation): when the four slots are present and the context is already
cancelled at the first poll, `Authorize` returns the error of the context and never invokes
the callback, also when the request has no variables. -/
theorem Authorize_cancelled (eval : EvalAPI Entities Body)
    (SortFunc : List variableItem → (variableItem → variableItem → Int) → List variableItem)
    (ctx : Nat → Option Error) (policies : List (Policy Body)) (entityMap : Entities)
    (request : Request) (err : Error) (hp : request.Present) (hc : ctx 0 = some err) :
    (Authorize eval SortFunc ctx policies entityMap request).1 = some err ∧
    (Authorize eval SortFunc ctx policies entityMap request).2.calls = [] := by
  rw [Authorize_eq eval SortFunc ctx policies entityMap request hp]
  cases SortFunc request.Variables lenCmp with
  | nil => rw [doBatch]; simp [hc]
  | cons u uks => rw [doBatch]; simp [hc]

/-- C14, on a request without variables and on the request of the test `smokeTest`, under
a context that is cancelled from the start. -/
theorem Authorize_cancelled_witness :
    groundRequest.Present ∧
    ((Authorize specEval insertionSortFunc cancelled [⟨.EffectPermit, none⟩] ()
      groundRequest).1 = some "context canceled" ∧
    (Authorize specEval insertionSortFunc cancelled [⟨.EffectPermit, none⟩] ()
      groundRequest).2.calls = []) ∧
    (Authorize specEval insertionSortFunc background [⟨.EffectPermit, none⟩] ()
      groundRequest).2.calls.length = 1 :=
  ⟨by decide,
    Authorize_cancelled specEval insertionSortFunc cancelled [⟨.EffectPermit, none⟩] ()
      groundRequest "context canceled" (by decide) rfl,
    by decide⟩

/-- C15 (conversion error is a global halt): let `l` be the first leaf, in depth-first
order, where a strict conversion fails, with error `err`.  Whatever the context, the callback
is invoked for leaves that precede `l` only, in their order; and when the context is not
cancelled `Authorize` returns `err` and the invocations are exactly those of the leaves that
precede `l`. -/
theorem Authorize_conversion_error_halts (eval : EvalAPI Entities Body)
    (SortFunc : List variableItem → (variableItem → variableItem → Int) → List variableItem)
    (ctx : Nat → Option Error) (policies : List (Policy Body)) (entityMap : Entities)
    (request : Request) (hp : request.Present) (hwf : request.WellFormed)
    (hsort : (SortFunc request.Variables lenCmp).Perm request.Variables)
    (pre post : List (Leaf Body)) (l : Leaf Body) (err : Error)
    (hsplit : rootLeaves eval SortFunc policies entityMap request = pre ++ l :: post)
    (hpre : ∀ x ∈ pre, x.converts eval = true)
    (hfail : buildResultEnv eval entityMap l.request l.Values = .error err) :
    (Authorize eval SortFunc ctx policies entityMap request).2.calls.map Except.ok <+:
      pre.map (leafResult eval entityMap) ∧
    (NeverCancelled ctx →
      (Authorize eval SortFunc ctx policies entityMap request).1 = some err ∧
      (Authorize eval SortFunc ctx policies entityMap request).2.calls.map Except.ok =
        pre.map (leafResult eval entityMap) ∧
      (Authorize eval SortFunc ctx policies entityMap request).2.calls.length =
        pre.length) := by
  have hl : leafResult eval entityMap l = .error err :=
    (leafResult_error_iff eval entityMap l err).mpr hfail
  have hos : (rootLeaves eval SortFunc policies entityMap request).map
      (leafResult eval entityMap) =
      pre.map (leafResult eval entityMap) ++
        Except.error err :: post.map (leafResult eval entityMap) := by
    rw [hsplit, List.map_append, List.map_cons, hl]
  have hall : ∀ o ∈ pre.map (leafResult eval entityMap), ∃ r, o = .ok r := by
    intro o ho
    rw [List.mem_map] at ho
    obtain ⟨x, hx, rfl⟩ := ho
    exact leafResult_of_converts eval entityMap x (hpre x hx)
  obtain ⟨hnone, _⟩ := firstErr_eq_none_of_forall_ok _ hall
  obtain ⟨⟨cs, h1, h2, _⟩, h4⟩ :=
    Authorize_spec eval SortFunc ctx policies entityMap request hp hwf hsort
  rw [hos] at h2 h4
  refine ⟨by rw [h1]; exact prefix_before_error cs _ _ err h2, ?_⟩
  intro hctx
  obtain ⟨he, hc⟩ := h4 hctx
  rw [firstErr_append, hnone] at he
  rw [delivered_append_of_ok _ _ hnone] at hc
  simp only [firstErr, delivered, List.append_nil] at he hc
  have hmap : (Authorize eval SortFunc ctx policies entityMap request).2.calls.map
      Except.ok = pre.map (leafResult eval entityMap) := by
    rw [hc, map_ok_delivered _ hnone]
  refine ⟨he, hmap, ?_⟩
  have := congrArg List.length hmap
  simpa using this

/-- C15, on a request whose second of three leaves has a string as principal: the run
returns the conversion error after the one invocation of the first leaf. -/
theorem Authorize_conversion_error_halts_witness :
    stringCandidateRequest.Present ∧ stringCandidateRequest.WellFormed ∧
    (rootLeaves specEval insertionSortFunc [⟨.EffectPermit, none⟩] ()
      stringCandidateRequest).length = 3 ∧
    (Authorize specEval insertionSortFunc background [⟨.EffectPermit, none⟩] ()
      stringCandidateRequest).1 = some "type error: expected entity" ∧
    (Authorize specEval insertionSortFunc background [⟨.EffectPermit, none⟩] ()
      stringCandidateRequest).2.calls.length = 1 :=
  let h := (Authorize_conversion_error_halts specEval insertionSortFunc background
    [⟨.EffectPermit, none⟩] () stringCandidateRequest (by decide) (by decide)
    (List.perm_insertionSort _ _)
    ((rootLeaves specEval insertionSortFunc [⟨.EffectPermit, none⟩] ()
      stringCandidateRequest).take 1)
    ((rootLeaves specEval insertionSortFunc [⟨.EffectPermit, none⟩] ()
      stringCandidateRequest).drop 2)
    ⟨[⟨"0", ⟨.EffectPermit, none⟩⟩],
      ⟨.string "bob", .entityUID ⟨"A", "1"⟩, .entityUID ⟨"R", "1"⟩, .record []⟩,
      [("principal", .string "bob")]⟩
    "type error: expected entity" rfl (by decide) rfl).2 (fun _ => rfl)
  ⟨by decide, by decide, by decide, h.1, h.2.2⟩

/-- C16 (evaluation errors are swallowed): a run of `Authorize` returns the same error and
hands the same results to the callback as the run in which every failing evaluation answers
false instead; `diagnosticAuthz` gives the same decision and diagnostic in both; the
identifier of a policy whose evaluation fails is in no diagnostic; and at a leaf whose
conversions succeed `diagnosticAuthzWithCallback` returns nil after one invocation of the
callback, whatever the evaluations do. -/
theorem Authorize_swallows_evaluation_errors (eval : EvalAPI Entities Body)
    (SortFunc : List variableItem → (variableItem → variableItem → Int) → List variableItem)
    (ctx : Nat → Option Error) (policies : List (Policy Body)) (entityMap : Entities)
    (request : Request) :
    Authorize eval SortFunc ctx policies entityMap request =
      Authorize (swallowErrors eval) SortFunc ctx policies entityMap request ∧
    (∀ (b b' : batchEvaler Entities Body) (env : Env Entities), Compiled eval b →
      Compiled (swallowErrors eval) b' → b'.policies = b.policies →
      (diagnosticAuthz eval b env).1 = (diagnosticAuthz (swallowErrors eval) b' env).1 ∧
      (diagnosticAuthz eval b env).2.1 = (diagnosticAuthz (swallowErrors eval) b' env).2.1) ∧
    (∀ (b : batchEvaler Entities Body) (env : Env Entities), Compiled eval b →
      (b.policies.map (fun p => p.PolicyID)).Nodup →
      ∀ p ∈ b.policies, ∀ e, eval.Compile p.Policy env = .error e →
        (⟨p.PolicyID⟩ : DiagnosticReason) ∉ (diagnosticAuthz eval b env).2.1.Reasons) ∧
    (∀ (be : batchEvaler Entities Body) (state : batchRequestState) (h : Heap),
      (∃ re, buildResultEnv eval entityMap state h.Values = .ok re) →
      (diagnosticAuthzWithCallback eval be entityMap state h).1 = none ∧
      (diagnosticAuthzWithCallback eval be entityMap state h).2.2.calls.length =
        h.calls.length + 1) := by
  refine ⟨?_, ?_, ?_, ?_⟩
  · unfold Authorize
    by_cases h1 : request.Principal.isNil = true
    · simp [h1]
    by_cases h2 : request.Action.isNil = true
    · simp [h1, h2]
    by_cases h3 : request.Resource.isNil = true
    · simp [h1, h2, h3]
    by_cases h4 : request.Context.isNil = true
    · simp [h1, h2, h3, h4]
    simp only [h1, h2, h3, h4, if_false, Bool.false_eq_true]
    obtain ⟨h5, h6, _⟩ := doBatch_congr eval (swallowErrors eval) rfl rfl rfl rfl rfl
      (leafDecision_swallowErrors eval) ctx entityMap
      (SortFunc (request.Variables.foldl (fun vs kv => vs ++ [kv]) []) lenCmp)
      { policies := numberPolicies policies, compiled := false, forbids := [], permits := [] }
      { policies := numberPolicies policies, compiled := false, forbids := [], permits := [] }
      ⟨request.Principal, request.Action, request.Resource, request.Context⟩
      { polls := 0, Values := [], calls := [] }
      (Or.inl ⟨rfl, rfl, rfl⟩) (Or.inl ⟨rfl, rfl, rfl⟩) rfl
    exact Prod.ext h5 h6
  · intro b b' env hb hb' hpol
    rw [diagnosticAuthz_spec eval b env hb,
      diagnosticAuthz_spec (swallowErrors eval) b' env hb', hpol,
      leafDecision_swallowErrors]
    exact ⟨rfl, rfl⟩
  · intro b env hb hnd p hp e he hmem
    rw [diagnosticAuthz_spec eval b env hb] at hmem
    have hsub : ∀ r ∈ (leafDecision eval b.policies env).2.Reasons,
        ∃ q ∈ b.policies, eval.Compile q.Policy env = .ok true ∧ r = ⟨q.PolicyID⟩ := by
      intro r hr
      unfold leafDecision at hr
      split at hr
      · simp only [reasonsOf, List.mem_map] at hr
        obtain ⟨q, hq, rfl⟩ := hr
        rw [mem_satisfiedWith] at hq
        exact ⟨q, hq.1, hq.2.2, rfl⟩
      · split at hr
        · simp only [reasonsOf, List.mem_map] at hr
          obtain ⟨q, hq, rfl⟩ := hr
          rw [mem_satisfiedWith] at hq
          exact ⟨q, hq.1, hq.2.2, rfl⟩
        · simp at hr
    obtain ⟨q, hq, hqs, hid⟩ := hsub _ hmem
    have hid' : p.PolicyID = q.PolicyID := by simpa using hid
    have : p = q := List.inj_on_of_nodup_map hnd hp hq hid'
    rw [this, hqs] at he
    exact absurd he (by simp)
  · rintro be state h ⟨re, hre⟩
    unfold diagnosticAuthzWithCallback
    rw [hre]
    simp

/-- C16, on the request of the test `smokeTest` with a forbid policy and a permit policy
whose evaluations fail and a permit policy that holds: no error, six invocations, each of
them permit with the third policy as only reason. -/
theorem Authorize_swallows_evaluation_errors_witness :
    (Authorize failingEval insertionSortFunc background failingPolicies ()
      smokeRequest).1 = none ∧
    (Authorize failingEval insertionSortFunc background failingPolicies ()
      smokeRequest).2.calls.map (fun r => (r.Decision, r.Diagnostic)) =
      List.replicate 6 (true, ⟨[⟨"2"⟩]⟩) ∧
    Authorize failingEval insertionSortFunc background failingPolicies () smokeRequest =
      Authorize (swallowErrors failingEval) insertionSortFunc background failingPolicies ()
        smokeRequest :=
  ⟨by decide, by decide,
    (Authorize_swallows_evaluation_errors failingEval insertionSortFunc background
      failingPolicies () smokeRequest).1⟩

/-- C17 (stable policy identifiers): the policy at position `i` of the input is numbered
with the decimal string of `i`; pruning keeps identifiers and their order, so at every node
and every leaf the identifiers of the surviving policies are pairwise distinct and a
subsequence of `"0"`, ..., `"n-1"`; and every identifier in a diagnostic is the decimal
string of the position of an input policy. -/
theorem policy_identifiers_stable (eval : EvalAPI Entities Body)
    (SortFunc : List variableItem → (variableItem → variableItem → Int) → List variableItem)
    (ctx : Nat → Option Error) (policies : List (Policy Body)) (entityMap : Entities)
    (request : Request) (hwf : request.WellFormed)
    (hsort : (SortFunc request.Variables lenCmp).Perm request.Variables) :
    (numberPolicies policies).map (fun p => p.PolicyID) =
      (List.range policies.length).map toString ∧
    (numberPolicies policies).map (fun p => p.Policy) = policies ∧
    (∀ a b : Nat, toString a = toString b → a = b) ∧
    (∀ path : List batchRequestState,
      ((survivors eval entityMap path (numberPolicies policies)).map
        (fun p => p.PolicyID)).Sublist ((List.range policies.length).map toString) ∧
      ((survivors eval entityMap path (numberPolicies policies)).map
        (fun p => p.PolicyID)).Nodup) ∧
    (∀ l ∈ rootLeaves eval SortFunc policies entityMap request,
      (l.policies.map (fun p => p.PolicyID)).Sublist
        ((List.range policies.length).map toString) ∧
      (l.policies.map (fun p => p.PolicyID)).Nodup) ∧
    (∀ r ∈ (Authorize eval SortFunc ctx policies entityMap request).2.calls,
      ∀ reason ∈ r.Diagnostic.Reasons,
        ∃ i, i < policies.length ∧ reason.PolicyID = toString i) := by
  have hleaf : ∀ l ∈ rootLeaves eval SortFunc policies entityMap request,
      (l.policies.map (fun p => p.PolicyID)).Sublist
        ((List.range policies.length).map toString) := by
    intro l hl
    rw [← numberPolicies_ids]
    exact leaves_ids_sublist eval entityMap _ _ _ _ l hl
  refine ⟨numberPolicies_ids policies, ?_, toString_nat_injective, ?_, ?_, ?_⟩
  · unfold numberPolicies
    rw [List.map_map]
    exact List.enum_map_snd policies
  · intro path
    have hs := survivors_ids_sublist eval entityMap path (numberPolicies policies)
    rw [numberPolicies_ids] at hs
    exact ⟨hs, hs.nodup (nodup_range_toString _)⟩
  · intro l hl
    exact ⟨hleaf l hl, (hleaf l hl).nodup (nodup_range_toString _)⟩
  · intro r hr reason hreason
    obtain ⟨l, hl, hlr⟩ :=
      Authorize_call_leaf eval SortFunc ctx policies entityMap request hwf hsort r hr
    obtain ⟨_, _, hg, _⟩ := leafResult_ok eval entityMap l r hlr
    rw [hg] at hreason
    obtain ⟨q, hq, _, rfl⟩ := reasons_of_leafDecision eval _ _ reason hreason
    have hmem : q.PolicyID ∈ (List.range policies.length).map toString :=
      (hleaf l hl).subset (List.mem_map_of_mem (fun p => p.PolicyID) hq)
    rw [List.mem_map] at hmem
    obtain ⟨i, hi, hid⟩ := hmem
    exact ⟨i, List.mem_range.mp hi, hid.symm⟩

/-- C17, on the concrete principal `P::"1"` with three policies of which the pruning keeps
the second: both leaves carry the one identifier `"1"`, which is the reason of both
results. -/
theorem policy_identifiers_stable_witness :
    fixedPrincipalRequest.WellFormed ∧
    (rootLeaves specEval insertionSortFunc scopedPolicies () fixedPrincipalRequest).map
      (fun l => l.policies.map (fun p => p.PolicyID)) = [["1"], ["1"]] ∧
    (Authorize specEval insertionSortFunc background scopedPolicies ()
      fixedPrincipalRequest).2.calls.map (fun r => r.Diagnostic) =
      [⟨[⟨"1"⟩]⟩, ⟨[⟨"1"⟩]⟩] ∧
    ∀ r ∈ (Authorize specEval insertionSortFunc background scopedPolicies ()
        fixedPrincipalRequest).2.calls,
      ∀ reason ∈ r.Diagnostic.Reasons,
        ∃ i, i < scopedPolicies.length ∧ reason.PolicyID = toString i :=
  ⟨by decide, by decide, by decide,
    (policy_identifiers_stable specEval insertionSortFunc background scopedPolicies ()
      fixedPrincipalRequest (by decide) (List.perm_insertionSort _ _)).2.2.2.2.2⟩

/-- C18 (ignore-sentinel resolution): the fill-in block of `doBatch` replaces a principal,
action or resource that is the ignore sentinel by the entity of type `__cedar::unknown`
with the empty identifier, a context that is the ignore sentinel by the empty record, and
leaves every other slot as it is; a node with exactly one variable left prunes under the
slots it received and binds the variable in the filled-in slots; a node with two or more
variables left binds its first variable in the slots it received. -/
theorem fillIgnores_resolves (eval : EvalAPI Entities Body) (ctx : Nat → Option Error)
    (entityMap : Entities) (request : batchRequestState) :
    (fillIgnores eval request).Principal =
      (if eval.IsIgnore request.Principal then .entityUID ⟨"__cedar::unknown", ""⟩
        else request.Principal) ∧
    (fillIgnores eval request).Action =
      (if eval.IsIgnore request.Action then .entityUID ⟨"__cedar::unknown", ""⟩
        else request.Action) ∧
    (fillIgnores eval request).Resource =
      (if eval.IsIgnore request.Resource then .entityUID ⟨"__cedar::unknown", ""⟩
        else request.Resource) ∧
    (fillIgnores eval request).Context =
      (if eval.IsIgnore request.Context then .record [] else request.Context) ∧
    (∀ (u : variableItem) (be : batchEvaler Entities Body) (h : Heap),
      ctx h.polls = none →
      doBatch eval ctx entityMap [u] be request h =
        bindLoop eval ctx entityMap u [] be
          (prunePolicies eval entityMap request be.policies) (fillIgnores eval request)
          { h with polls := h.polls + 1 }) ∧
    (∀ (u u' : variableItem) (uks : List variableItem) (be : batchEvaler Entities Body)
      (h : Heap), ctx h.polls = none →
      doBatch eval ctx entityMap (u :: u' :: uks) be request h =
        bindLoop eval ctx entityMap u (u' :: uks) be
          (prunePolicies eval entityMap request be.policies) request
          { h with polls := h.polls + 1 }) := by
  refine ⟨?_, ?_, ?_, ?_, ?_, ?_⟩
  · unfold fillIgnores
    dsimp only
    split <;> split <;> split <;> split <;> rfl
  · unfold fillIgnores
    dsimp only
    split <;> split <;> split <;> split <;> rfl
  · unfold fillIgnores
    dsimp only
    split <;> split <;> split <;> split <;> rfl
  · unfold fillIgnores
    dsimp only
    split <;> split <;> split <;> split <;> rfl
  · intro u be h hc
    rw [doBatch]
    simp [hc, bindLoop]
  · intro u u' uks be h hc
    rw [doBatch]
    simp [hc, bindLoop]

/-- C18, on a request whose resource and context are the ignore sentinel and that has one
variable: both results carry the unknown entity as resource and the empty record as
context. -/
theorem fillIgnores_resolves_witness :
    specEval.IsIgnore ignoreResourceRequest.Resource = true ∧
    (Authorize specEval insertionSortFunc background [⟨.EffectPermit, none⟩] ()
      ignoreResourceRequest).2.calls.map
        (fun r => (r.Request.Principal, r.Request.Resource, r.Request.Context.length)) =
      [(⟨"P", "1"⟩, ⟨"__cedar::unknown", ""⟩, 0), (⟨"P", "2"⟩, ⟨"__cedar::unknown", ""⟩, 0)] ∧
    (fillIgnores specEval ⟨ignoreResourceRequest.Principal, ignoreResourceRequest.Action,
      ignoreResourceRequest.Resource, ignoreResourceRequest.Context⟩).Resource =
      .entityUID ⟨"__cedar::unknown", ""⟩ :=
  ⟨by decide, by decide,
    (fillIgnores_resolves specEval background ()
      ⟨ignoreResourceRequest.Principal, ignoreResourceRequest.Action,
        ignoreResourceRequest.Resource, ignoreResourceRequest.Context⟩).2.2.1⟩

/-- C19 (binding-map restoration): when no variable of a node is a key of the shared map on
entry and `doBatch` returns nil, the shared map is what it was on entry; the shared map is
empty after `Authorize` returns nil. -/
theorem doBatch_restores_values (eval : EvalAPI Entities Body) (ctx : Nat → Option Error)
    (entityMap : Entities) :
    (∀ (vars : List variableItem) (be : batchEvaler Entities Body)
      (request : batchRequestState) (h : Heap),
      (∀ u ∈ vars, u.Key ∉ h.Values.map Prod.fst) →
      (doBatch eval ctx entityMap vars be request h).1 = none →
      (doBatch eval ctx entityMap vars be request h).2.2.Values = h.Values) ∧
    (∀ (SortFunc : List variableItem → (variableItem → variableItem → Int) →
        List variableItem) (policies : List (Policy Body)) (request : Request),
      (Authorize eval SortFunc ctx policies entityMap request).1 = none →
      (Authorize eval SortFunc ctx policies entityMap request).2.Values = []) := by
  have hmain : ∀ (vars : List variableItem) (be : batchEvaler Entities Body)
      (request : batchRequestState) (h : Heap),
      (∀ u ∈ vars, u.Key ∉ h.Values.map Prod.fst) →
      (doBatch eval ctx entityMap vars be request h).1 = none →
      (doBatch eval ctx entityMap vars be request h).2.2.Values = h.Values := by
    intro vars be request h hfresh hok
    obtain ⟨h1, h2⟩ := doBatch_values eval ctx entityMap vars be request h hok
    have hall : h.Values.filter (fun e => decide (e.1 ∉ vars.map (fun u => u.Key))) =
        h.Values := by
      rw [List.filter_eq_self]
      intro e he
      simp only [decide_eq_true_eq, List.mem_map, not_exists, not_and]
      intro u hu hk
      exact hfresh u hu (hk ▸ List.mem_map_of_mem Prod.fst he)
    rw [hall] at h2
    refine List.Sublist.antisymm h1 ?_
    rw [← h2]
    exact List.filter_sublist _
  refine ⟨hmain, ?_⟩
  intro SortFunc policies request hok
  by_cases hp : request.Present
  · rw [Authorize_eq eval SortFunc ctx policies entityMap request hp] at hok ⊢
    exact hmain _ _ _ _ (by simp) hok
  · exact absurd hok
      (Authorize_calls_of_not_present eval SortFunc ctx policies entityMap request hp).1

/-- C19, on a node that binds `principal` while the shared map binds `other`, and on the
request of the test `smokeTest`: the map comes back as it was, and empty after
`Authorize`. -/
theorem doBatch_restores_values_witness :
    (doBatch specEval background () [⟨"principal", [.entityUID ⟨"P", "1"⟩]⟩] permitEvaler
      ⟨Variable "principal", .entityUID ⟨"A", "1"⟩, .entityUID ⟨"R", "1"⟩, .record []⟩
      busyHeap).2.2.calls.length = 1 ∧
    (doBatch specEval background () [⟨"principal", [.entityUID ⟨"P", "1"⟩]⟩] permitEvaler
      ⟨Variable "principal", .entityUID ⟨"A", "1"⟩, .entityUID ⟨"R", "1"⟩, .record []⟩
      busyHeap).2.2.Values = busyHeap.Values ∧
    (Authorize specEval insertionSortFunc background [⟨.EffectPermit, none⟩] ()
      smokeRequest).2.Values = [] :=
  ⟨by decide,
    (doBatch_restores_values specEval background ()).1
      [⟨"principal", [.entityUID ⟨"P", "1"⟩]⟩] permitEvaler
      ⟨Variable "principal", .entityUID ⟨"A", "1"⟩, .entityUID ⟨"R", "1"⟩, .record []⟩
      busyHeap (by decide) (by decide),
    (doBatch_restores_values specEval background ()).2 insertionSortFunc
      [⟨.EffectPermit, none⟩] smokeRequest (by decide)⟩

/-- C20 fails on a set that holds a NaN: after `s := Make[float64](); s.Add(math.NaN())`
the call `s.Equal(s)` returns false, although `s.Contains(x)` equals `s.Contains(x)` for
every item `x`.  The lookup does not find the NaN: `s.Contains(NaN)` is false, and a second
`s.Add(NaN)` reports a new item and leaves two items in the set. -/
theorem MapSet.Equal_not_reflexive_on_NaN :
    setNaN.DistinctKeys ∧
    setNaN.Equal setNaN = false ∧
    (∀ x, setNaN.Contains x = setNaN.Contains x) ∧
    ¬ (setNaN.Equal setNaN = true ↔ ∀ x, setNaN.Contains x = setNaN.Contains x) ∧
    setNaN.Len = 1 ∧ setNaN.Contains Float64.NaN = false ∧
    (setNaN.Add Float64.NaN).2 = true ∧ (setNaN.Add Float64.NaN).1.Len = 2 := by
  have he : setNaN.Equal setNaN = false := by decide
  refine ⟨by decide, he, fun _ => rfl, ?_, by decide, by decide, by decide, by decide⟩
  intro hiff
  rw [hiff.mpr (fun _ => rfl)] at he
  exact absurd he (by simp)

/-- C20 (`MapSet.Equal` is set equality), for sets without a NaN: for two sets, whose maps
have keys that are pairwise different as every Go map has, `h.Equal(o)` true makes
`h.Contains(x)` and `o.Contains(x)` agree for every item `x`, and `Equal` is symmetric;
when every item of `h` and of `o` is `==` to itself, `h.Equal(o)` is true exactly when
`h.Contains(x)` and `o.Contains(x)` agree for every item `x`, and `h.Equal(h)` is true. -/
theorem MapSet.Equal_is_set_equality {T : Type} [Comparable T] (h o : MapSet T)
    (hh : h.DistinctKeys) (ho : o.DistinctKeys) :
    (h.Equal o = true → ∀ x, h.Contains x = o.Contains x) ∧
    h.Equal o = o.Equal h ∧
    (h.SelfEqual → o.SelfEqual →
      (h.Equal o = true ↔ ∀ x, h.Contains x = o.Contains x) ∧
      h.Equal h = true ∧ o.Equal o = true) := by
  refine ⟨MapSet.Contains_eq_of_Equal h o hh, ?_, ?_⟩
  · rw [Bool.eq_iff_iff]
    exact ⟨MapSet.Equal_symm_of_Equal h o hh, MapSet.Equal_symm_of_Equal o h ho⟩
  · intro hrh hro
    exact ⟨⟨MapSet.Contains_eq_of_Equal h o hh,
        MapSet.Equal_of_Contains_eq h o hh ho hrh hro⟩,
      MapSet.Equal_of_Contains_eq h h hh hh hrh hrh (fun _ => rfl),
      MapSet.Equal_of_Contains_eq o o ho ho hro hro (fun _ => rfl)⟩

/-- C20, on the sets of floating-point numbers built from `1.0, 2.0` and from
`2.0, 1.0, 2.0`, which hold no NaN: they are equal, in both directions, each is equal to
itself, and `Contains` agrees on every item. -/
theorem MapSet.Equal_is_set_equality_witness :
    setFloatOneTwo.DistinctKeys ∧ setFloatTwoOne.DistinctKeys ∧
    setFloatOneTwo.SelfEqual ∧ setFloatTwoOne.SelfEqual ∧
    setFloatOneTwo.m = [.number 1, .number 2] ∧ setFloatTwoOne.m = [.number 2, .number 1] ∧
    setFloatOneTwo.Equal setFloatTwoOne = true ∧
    setFloatTwoOne.Equal setFloatOneTwo = true ∧
    setFloatOneTwo.Equal setFloatOneTwo = true ∧
    (∀ x, setFloatOneTwo.Contains x = setFloatTwoOne.Contains x) ∧
    (setFloatOneTwo.Equal setFloatTwoOne = true ↔
      ∀ x, setFloatOneTwo.Contains x = setFloatTwoOne.Contains x) :=
  let h := MapSet.Equal_is_set_equality setFloatOneTwo setFloatTwoOne (by decide) (by decide)
  ⟨by decide, by decide, by decide, by decide, by decide, by decide, by decide, by decide,
    (h.2.2 (by decide) (by decide)).2.1, h.1 (by decide),
    (h.2.2 (by decide) (by decide)).1⟩

end Claims

end Batch
